import Mathlib

/-! Dwarf assembler (`asm.c`): a shallow embedding and its verified properties.

The translator of `asm.c` is embedded as pure functions over C strings; the
patch loop of `mkramimg.c` follows in the namespace `Mkramimg`.

* A C string / memory suffix is a `List Char`; every element stands for one
  C `char`, and the NUL character terminates strings as in C.  The buffer
  that `strdup` allocates for a pass ends with the terminating NUL of the
  copy.
* The string loop of the data directive has no test for the end of the
  buffer.  What it finds behind the buffer is not determined by `asm.c`; it
  is the parameter `heap` of a pass: the readable memory that follows the
  buffer, up to the first address that cannot be read.  Each pass makes its
  own copy of the source, so each pass has its own `heap`; within a pass
  every string loop finds the same `heap`.
* `strtok_r` returns the token, the memory that follows the token's
  terminator, and the new save pointer.
* The mutable variables of `main` (`pc`, `line_nr`), the global symbol list
  and the text printed on standard output form the `State`.
* `exit (EX_DATAERR)` after a `PANIC` message is the `Except.error` result;
  it carries the kind of the error, not the text printed before the exit.
  The two ways in which the process is killed instead (`strtol (NULL, ...)`,
  a read from memory that is not readable) are error results of their own.
* `uint16_t` arithmetic is `Nat` arithmetic modulo `65536`; `long` is 64 bit.
-/

namespace Dwarf

/-! ## C strings -/

/-- The terminating character of C strings. -/
def NUL : Char := Char.ofNat 0

/-- Result of one `strtok_r` call that found a token. -/
structure Tok where
  /-- Text of the token (never empty, contains neither NUL nor a delimiter). -/
  tok : List Char
  /-- Memory that follows the character which terminated the token. -/
  mem : List Char
  /-- New value of the save pointer. -/
  save : List Char
  deriving DecidableEq, Repr

/-- Characters that belong to a token: neither NUL nor a delimiter. -/
def isTokChar (delim : List Char) (c : Char) : Bool :=
  decide (c ≠ NUL) && decide (c ∉ delim)

/-- Characters skipped before a token (`strspn`). -/
def isDelim (delim : List Char) (c : Char) : Bool :=
  decide (c ≠ NUL) && decide (c ∈ delim)

/-- One call of `strtok_r (s, delim, &save)` where `s` is the string to scan
(the argument on the first call, the save pointer on later calls).
Leading delimiters are skipped; at the end of the string the result is NULL;
otherwise the token runs up to the next delimiter or NUL.  A delimiter is
overwritten by NUL and the save pointer moves behind it, a NUL is kept
and the save pointer stays on it. -/
def strtok_r (delim : List Char) (s : List Char) : Option Tok :=
  match s.dropWhile (isDelim delim) with
  | [] => none
  | c :: cs =>
    if c = NUL then none
    else
      match (c :: cs).dropWhile (isTokChar delim) with
      | [] => some ⟨(c :: cs).takeWhile (isTokChar delim), [], []⟩
      | e :: r =>
        if e = NUL then some ⟨(c :: cs).takeWhile (isTokChar delim), r, e :: r⟩
        else some ⟨(c :: cs).takeWhile (isTokChar delim), r, r⟩

/-- Successive `strtok_r` calls until NULL, at most `fuel` of them. -/
def strtokLoop (delim : List Char) : Nat → List Char → List Tok
  | 0, _ => []
  | fuel + 1, s =>
    match strtok_r delim s with
    | none => []
    | some t => t :: strtokLoop delim fuel t.save

/-- All tokens that successive `strtok_r` calls deliver from `s`.  Every call
consumes at least one character, so `s.length` calls are enough. -/
def strtokAll (delim : List Char) (s : List Char) : List Tok :=
  strtokLoop delim s.length s

/-- Copy of a C string: the characters before the first NUL (`strdup`). -/
def strdup (s : List Char) : List Char :=
  s.takeWhile (fun c => decide (c ≠ NUL))

/-! ## `strtol (nptr, &endptr, 0)` -/

/-- Leading white space skipped by `strtol` (`isspace` in the C locale). -/
def isspace (c : Char) : Bool :=
  c.toNat = 32 || (9 ≤ c.toNat && c.toNat ≤ 13)

/-- Value of a character as a digit, letters counting from ten. -/
def digitOf (c : Char) : Option Nat :=
  if 48 ≤ c.toNat ∧ c.toNat ≤ 57 then some (c.toNat - 48)
  else if 97 ≤ c.toNat ∧ c.toNat ≤ 122 then some (c.toNat - 87)
  else if 65 ≤ c.toNat ∧ c.toNat ≤ 90 then some (c.toNat - 55)
  else none

/-- Hexadecimal digits `0-9`, `a-f`, `A-F`. -/
def isHexDigit (c : Char) : Bool :=
  match digitOf c with
  | some d => decide (d < 16)
  | none => false

/-- Accumulate the leading digits that are valid in `base`; returns the
value and the unread rest. -/
def digitsValue (base : Nat) : List Char → Nat → Nat × List Char
  | [], acc => (acc, [])
  | c :: cs, acc =>
    match digitOf c with
    | some d => if d < base then digitsValue base cs (acc * base + d) else (acc, c :: cs)
    | none => (acc, c :: cs)

/-- Largest value of a 64 bit `long`. -/
def LONG_MAX : Nat := 2 ^ 63 - 1

/-- Sign handling and saturation of `strtol`. -/
def clampLong (neg : Bool) (m : Nat) : Int :=
  if neg then (if m > LONG_MAX + 1 then -((LONG_MAX : Int) + 1) else -(m : Int))
  else (if m > LONG_MAX then (LONG_MAX : Int) else (m : Int))

/-- Split an optional sign off the subject sequence. -/
def takeSign : List Char → Bool × List Char
  | c :: r => if c = '-' then (true, r) else if c = '+' then (false, r) else (false, c :: r)
  | [] => (false, [])

/-- Model of `strtol (nptr, &endptr, 0)`: returns the value and the string
at `endptr`.  White space and a sign are skipped; `0x`/`0X` followed by a
hexadecimal digit selects base 16, another leading `0` base 8, anything
else base 10.  Without any digit the value is 0 and `endptr = nptr`. -/
def strtol (nptr : List Char) : Int × List Char :=
  let sg := takeSign (nptr.dropWhile isspace)
  match sg.2 with
  | [] => (0, nptr)
  | c :: r =>
    if c = '0' then
      match r with
      | x :: h :: t =>
        if (x = 'x' ∨ x = 'X') ∧ isHexDigit h = true then
          let dv := digitsValue 16 (h :: t) 0
          (clampLong sg.1 dv.1, dv.2)
        else
          let dv := digitsValue 8 r 0
          (clampLong sg.1 dv.1, dv.2)
      | _ =>
        let dv := digitsValue 8 r 0
        (clampLong sg.1 dv.1, dv.2)
    else
      match digitOf c with
      | some d =>
        if d < 10 then
          let dv := digitsValue 10 r d
          (clampLong sg.1 dv.1, dv.2)
        else (0, nptr)
      | none => (0, nptr)

/-- Conversion of a `long` to `uint16_t`. -/
def toU16 (v : Int) : Nat := (v % 65536).toNat

/-! ## Tables -/

/-- The register names `regs[]`. -/
def regs : List (List Char) :=
  ["r0", "r1", "r2", "r3", "r4", "r5", "r6", "r7",
   "r8", "r9", "r10", "r11", "r12", "r13", "r14", "r15"].map String.toList

/-- Linear search of `get_reg`, `i` being the index of the head of `l`. -/
def get_regFrom : List (List Char) → Nat → List Char → Option Nat
  | [], _, _ => none
  | r :: rs, i, reg => if r = reg then some i else get_regFrom rs (i + 1) reg

/-- Index of a register name in `regs`; `none` stands for `!OK`. -/
def get_reg (reg : List Char) : Option Nat := get_regFrom regs 0 reg

def FRM_OP_NOTHING : Nat := 0
def FRM_OP_SO_RT : Nat := 1
def FRM_OP_SO_RT_RD : Nat := 2
def FRM_OP_SO_RT_IMM4 : Nat := 3
def FRM_OP_RS_LIMM8 : Nat := 4
def FRM_OP_RS_UIMM8 : Nat := 5
def FRM_OP_RS_RT_RD : Nat := 6
def FRM_OP_IMM12 : Nat := 7

/-- Instruction descriptor `tInstr`. -/
structure tInstr where
  instr : List Char
  opcode : Nat
  form : Nat
  deriving DecidableEq, Repr

/-- The instruction table `instrSet[]`. -/
def instrSet : List tInstr :=
  [ ⟨"rdm".toList, 0x0100, FRM_OP_SO_RT_RD⟩,
    ⟨"wrm".toList, 0x0200, FRM_OP_SO_RT_RD⟩,
    ⟨"mov".toList, 0x0300, FRM_OP_SO_RT_RD⟩,
    ⟨"not".toList, 0x0400, FRM_OP_SO_RT_RD⟩,
    ⟨"sks".toList, 0x0500, FRM_OP_SO_RT_IMM4⟩,
    ⟨"skc".toList, 0x0600, FRM_OP_SO_RT_IMM4⟩,
    ⟨"skz".toList, 0x0700, FRM_OP_SO_RT⟩,
    ⟨"skn".toList, 0x0800, FRM_OP_SO_RT⟩,
    ⟨"brr".toList, 0x0900, FRM_OP_SO_RT⟩,
    ⟨"ldu".toList, 0x1000, FRM_OP_RS_UIMM8⟩,
    ⟨"shr".toList, 0x2000, FRM_OP_RS_RT_RD⟩,
    ⟨"ror".toList, 0x3000, FRM_OP_RS_RT_RD⟩,
    ⟨"sub".toList, 0x4000, FRM_OP_RS_RT_RD⟩,
    ⟨"subi".toList, 0x5000, FRM_OP_RS_LIMM8⟩,
    ⟨"add".toList, 0x6000, FRM_OP_RS_RT_RD⟩,
    ⟨"addi".toList, 0x7000, FRM_OP_RS_LIMM8⟩,
    ⟨"mul".toList, 0x8000, FRM_OP_RS_RT_RD⟩,
    ⟨"or".toList, 0x9000, FRM_OP_RS_RT_RD⟩,
    ⟨"ori".toList, 0xA000, FRM_OP_RS_LIMM8⟩,
    ⟨"xor".toList, 0xB000, FRM_OP_RS_RT_RD⟩,
    ⟨"and".toList, 0xC000, FRM_OP_RS_RT_RD⟩,
    ⟨"andi".toList, 0xD000, FRM_OP_RS_LIMM8⟩,
    ⟨"cmp".toList, 0xE000, FRM_OP_RS_RT_RD⟩,
    ⟨"brl".toList, 0xF000, FRM_OP_IMM12⟩,
    ⟨"nop".toList, 0x0000, FRM_OP_NOTHING⟩ ]

/-- Linear search of `get_opcode`: the first descriptor with that mnemonic. -/
def get_opcode (instr : List Char) : Option tInstr :=
  instrSet.find? (fun d => decide (d.instr = instr))

/-! ## Symbol table -/

/-- Symbol `tSymbol` (the `next` pointer is the list structure). -/
structure tSymbol where
  name : List Char
  value : Nat
  deriving DecidableEq, Repr

/-- The first symbol with the given name, `none` for NULL. -/
def find_symbol (symbols : List tSymbol) (name : List Char) : Option tSymbol :=
  symbols.find? (fun s => decide (s.name = name))

/-- Append a new symbol at the end of the list. -/
def add_symbol (symbols : List tSymbol) (name : List Char) (value : Nat) : List tSymbol :=
  symbols ++ [⟨name, value⟩]

/-! ## Errors and state -/

deriving instance DecidableEq for Except

/-- The fatal exits of the translator. -/
inductive Err where
  /-- `PANIC: missing register parameter` (register or immediate position). -/
  | missingOperand
  /-- `PANIC: unknown register`. -/
  | unknownRegister (par : List Char)
  /-- `PANIC: symbol not found`. -/
  | unknownSymbol (par : List Char)
  /-- `PANIC: duplicated symbol`. -/
  | duplicateSymbol (name : List Char) (line_nr : Nat)
  /-- `PANIC: can not translate value`. -/
  | invalidLiteral (par : List Char)
  /-- `PANIC: can not translate given address`. -/
  | invalidAddress (par : List Char)
  /-- `PANIC: unknown mnemonic`. -/
  | unknownMnemonic (token : List Char) (line_nr : Nat)
  /-- `PANIC: unknown form`. -/
  | unknownForm (form : Nat)
  /-- `strtol (NULL, ...)`: a constant directive without operand. -/
  | nullPointer
  /-- The string loop of a data directive finds no double quote in the
  buffer nor in the readable memory behind it: it reads from an address that
  is not readable (segmentation fault). -/
  | unmapped
  deriving DecidableEq, Repr

/-- Variables of `main`, the global symbol list and the printed text (one
entry per `printf` call). -/
structure State where
  pc : Nat
  line_nr : Nat
  symbols : List tSymbol
  out : List String
  deriving DecidableEq, Repr

def RESET_VECTOR : Nat := 0

/-! ## Output formats -/

/-- One upper-case hexadecimal digit. -/
def hexDigit (n : Nat) : Char :=
  if n < 10 then Char.ofNat (48 + n) else Char.ofNat (55 + n)

/-- Conversion `%04X` of a 16 bit value. -/
def hex4 (n : Nat) : List Char :=
  [hexDigit (n / 4096 % 16), hexDigit (n / 256 % 16), hexDigit (n / 16 % 16), hexDigit (n % 16)]

/-- Text of `printf ("\t\t%s:\n", token)`. -/
def labelLine (token : List Char) : String :=
  String.mk ('\t' :: '\t' :: token ++ [':', '\n'])

/-- Text of `printf ("\t\t%s %s\n", &token[1], par)`. -/
def constLine (name par : List Char) : String :=
  String.mk ('\t' :: '\t' :: name ++ ' ' :: par ++ ['\n'])

/-- Text of `printf ("%04X %04X\t\t'%c'\n", pc, (uint16_t)par[i], par[i])`. -/
def dataCharLine (pc word : Nat) (c : Char) : String :=
  String.mk (hex4 pc ++ ' ' :: hex4 word ++ ['\t', '\t', '\'', c, '\'', '\n'])

/-- Text of `printf ("%04X %04X\t\t%s\n", pc, val, &par[skip])`. -/
def dataValLine (pc val : Nat) (par : List Char) : String :=
  String.mk (hex4 pc ++ ' ' :: hex4 val ++ '\t' :: '\t' :: par ++ ['\n'])

/-- Text of `printf ("%04X:%04X\t%s\n", pc, opcode, orig_line)`. -/
def listingLine (pc opcode : Nat) (orig_line : List Char) : String :=
  String.mk (hex4 pc ++ ':' :: hex4 opcode ++ '\t' :: orig_line ++ ['\n'])

/-- Text of `printf ("%04X:%04X\n", pc, opcode)`. -/
def compactLine (pc opcode : Nat) : String :=
  String.mk (hex4 pc ++ ':' :: hex4 opcode ++ ['\n'])

/-! ## Operand parsing -/

/-- Delimiters `", \t\n"` of the token scanner. -/
def delimTok : List Char := [',', ' ', '\t', '\n']

/-- Delimiters `",\t\n"` of the data directive. -/
def delimData : List Char := [',', '\t', '\n']

/-- Delimiter `"\n"` of the line scanner. -/
def delimLine : List Char := ['\n']

/-- Take the next token as a register name: returns the register index and
the new save pointer. -/
def get_reg_param (save : List Char) : Except Err (Nat × List Char) :=
  match strtok_r delimTok save with
  | none => .error .missingOperand
  | some par =>
    match get_reg par.tok with
    | none => .error (.unknownRegister par.tok)
    | some reg => .ok (reg, par.save)

/-- Immediate operand: on pass 0 nothing is read and `0xDEAD` is returned;
otherwise the next token is converted by `strtol`, and if it is not
a complete numeral it is looked up as a symbol. -/
def get_imm_param (pass : Nat) (symbols : List tSymbol) (save : List Char) :
    Except Err (Nat × List Char) :=
  if pass ≠ 0 then
    match strtok_r delimTok save with
    | none => .error .missingOperand
    | some par =>
      if (strtol par.tok).2 ≠ [] then
        match find_symbol symbols par.tok with
        | none => .error (.unknownSymbol par.tok)
        | some sym => .ok (sym.value, par.save)
      else .ok (toU16 (strtol par.tok).1, par.save)
  else .ok (0xDEAD, save)

/-- Assignment `opcode |= x` on `uint16_t`. -/
def or16 (opcode x : Nat) : Nat := (opcode ||| x) % 65536

/-- The `switch (form)` of `main`: reads the operands of the form from the
save pointer and ORs them into the opcode. -/
def encode (pass : Nat) (symbols : List tSymbol) (opcode form : Nat)
    (save : List Char) : Except Err Nat :=
  if form = FRM_OP_SO_RT then
    match get_reg_param save with
    | .error e => .error e
    | .ok (val, _) => .ok (or16 opcode (val <<< 4))
  else if form = FRM_OP_SO_RT_RD then
    match get_reg_param save with
    | .error e => .error e
    | .ok (val, save1) =>
      match get_reg_param save1 with
      | .error e => .error e
      | .ok (val2, _) => .ok (or16 (or16 opcode (val <<< 4)) val2)
  else if form = FRM_OP_SO_RT_IMM4 then
    match get_reg_param save with
    | .error e => .error e
    | .ok (val, save1) =>
      match get_imm_param pass symbols save1 with
      | .error e => .error e
      | .ok (val2, _) => .ok (or16 (or16 opcode (val <<< 4)) (val2 &&& 0xF))
  else if form = FRM_OP_RS_LIMM8 then
    match get_reg_param save with
    | .error e => .error e
    | .ok (val, save1) =>
      match get_imm_param pass symbols save1 with
      | .error e => .error e
      | .ok (val2, _) => .ok (or16 (or16 opcode (val <<< 8)) (val2 &&& 0xFF))
  else if form = FRM_OP_RS_UIMM8 then
    match get_reg_param save with
    | .error e => .error e
    | .ok (val, save1) =>
      match get_imm_param pass symbols save1 with
      | .error e => .error e
      | .ok (val2, _) => .ok (or16 (or16 opcode (val <<< 8)) ((val2 >>> 8) &&& 0xFF))
  else if form = FRM_OP_RS_RT_RD then
    match get_reg_param save with
    | .error e => .error e
    | .ok (val, save1) =>
      match get_reg_param save1 with
      | .error e => .error e
      | .ok (val2, save2) =>
        match get_reg_param save2 with
        | .error e => .error e
        | .ok (val3, _) => .ok (or16 (or16 (or16 opcode (val <<< 8)) (val2 <<< 4)) val3)
  else if form = FRM_OP_IMM12 then
    match get_imm_param pass symbols save with
    | .error e => .error e
    | .ok (val, _) => .ok (or16 opcode ((val >>> 1) &&& 0xFFF))
  else if form = FRM_OP_NOTHING then .ok opcode
  else .error (.unknownForm form)

/-! ## Line processing -/

/-- Effect of `if ((ptr = rindex (line, ';'))) *ptr = 0;` on the memory of
the line: the last semicolon becomes NUL. -/
def cutComment : List Char → List Char
  | [] => []
  | c :: cs => if c = ';' ∧ ';' ∉ cs then NUL :: cs else c :: cutComment cs

/-- Memory as seen from the start of a line while the line is processed:
the line with its comment cut off, the NUL that `strtok_r` wrote at the
end of the line, and the still untouched rest of the buffer. -/
def lineMem (ln : Tok) : List Char :=
  cutComment ln.tok ++ NUL :: ln.mem

/-- Value `(uint16_t) c` of a (signed) `char`. -/
def charWord (c : Char) : Nat :=
  if c.toNat < 128 then c.toNat else (c.toNat + 65280) % 65536

/-- The loop `for (i = skip + 1; par[i] != '"'; i++)` over the memory that
starts at `par[skip + 1]`: the characters up to the next double quote.  The
loop has no other exit; `none` means that it comes to the end of the
readable memory without having met a double quote. -/
def scanString : List Char → Option (List Char)
  | [] => none
  | c :: cs => if c = '"' then some [] else (scanString cs).map (fun l => c :: l)

/-- One character of a quoted string of a data directive. -/
def dataChar (pass : Nat) (list : Bool) (st : State) (c : Char) : State :=
  { st with
    out := if pass ≠ 0 ∧ list = true then st.out ++ [dataCharLine st.pc (charWord c) c]
           else st.out
    pc := (st.pc + 2) % 65536 }

/-- One operand of a data directive (body of the `while` loop).  The string
loop starts behind the opening quote and runs over the rest of the operand,
the NUL that ends it, the rest of the buffer (`par.mem`) and the memory
`heap` behind the buffer. -/
def dataItem (pass : Nat) (list : Bool) (heap : List Char) (par : Tok) (st : State) :
    Except Err State :=
  match par.tok.dropWhile (fun c => decide (c = ' ')) with
  | [] =>
    .ok { st with
          out := if pass ≠ 0 ∧ list = true then st.out ++ [dataValLine st.pc 0 []]
                 else st.out
          pc := (st.pc + 2) % 65536 }
  | c :: cs =>
    if c = '"' then
      match scanString (cs ++ NUL :: (par.mem ++ heap)) with
      | none => .error .unmapped
      | some str => .ok (str.foldl (dataChar pass list) st)
    else if (strtol (c :: cs)).2 ≠ [] then .error (.invalidLiteral (c :: cs))
    else
      .ok { st with
            out := if pass ≠ 0 ∧ list = true
                   then st.out ++ [dataValLine st.pc (toU16 (strtol (c :: cs)).1) (c :: cs)]
                   else st.out
            pc := (st.pc + 2) % 65536 }

/-- The `while` loop of the data directive over its operands. -/
def dataItems (pass : Nat) (list : Bool) (heap : List Char) :
    List Tok → State → Except Err State
  | [], st => .ok st
  | par :: pars, st =>
    match dataItem pass list heap par st with
    | .error e => .error e
    | .ok st1 => dataItems pass list heap pars st1

/-- Append a line to the output when the condition holds. -/
def printIf (c : Bool) (s : String) (st : State) : State :=
  if c then { st with out := st.out ++ [s] } else st

/-- Branch `token[strlen (token) - 1] == ':'`: label definition.  The token
is cut at its first colon. -/
def doLabel (pass : Nat) (list : Bool) (token : List Char) (st : State) : Except Err State :=
  let name := token.takeWhile (fun c => decide (c ≠ ':'))
  match find_symbol st.symbols name with
  | some _ =>
    if pass = 0 then .error (.duplicateSymbol name st.line_nr)
    else .ok (printIf (decide (pass ≠ 0) && list) (labelLine name) st)
  | none =>
    .ok (printIf (decide (pass ≠ 0) && list) (labelLine name)
          { st with symbols := add_symbol st.symbols name st.pc })

/-- Branch `token[0] == '.'`: constant directive. -/
def doConst (pass : Nat) (list : Bool) (t : Tok) (st : State) : Except Err State :=
  match strtok_r delimTok t.save with
  | none => .error .nullPointer
  | some par =>
    if (strtol par.tok).2 ≠ [] then .error (.invalidLiteral par.tok)
    else
      match find_symbol st.symbols t.tok.tail with
      | some _ =>
        if pass = 0 then .error (.duplicateSymbol t.tok.tail st.line_nr)
        else .ok (printIf (decide (pass ≠ 0) && list) (constLine t.tok.tail par.tok) st)
      | none =>
        .ok (printIf (decide (pass ≠ 0) && list) (constLine t.tok.tail par.tok)
              { st with symbols := add_symbol st.symbols t.tok.tail (toU16 (strtol par.tok).1) })

/-- Branch `token[0] == '$'`: data directive. -/
def doData (pass : Nat) (list : Bool) (heap : List Char) (t : Tok) (st : State) :
    Except Err State :=
  match dataItems pass list heap (strtokAll delimData t.save) (printIf list "\n" st) with
  | .error e => .error e
  | .ok st1 => .ok (printIf list "\n" st1)

/-- Branch `token[0] == '@'`: origin directive. -/
def doOrigin (t : Tok) (st : State) : Except Err State :=
  if (strtol t.tok.tail).2 ≠ [] then .error (.invalidAddress t.tok.tail)
  else .ok { st with pc := toU16 (strtol t.tok.tail).1 }

/-- Final branch: instruction. -/
def doInstr (pass : Nat) (list : Bool) (orig_line : List Char) (t : Tok) (st : State) :
    Except Err State :=
  match get_opcode t.tok with
  | none => .error (.unknownMnemonic t.tok st.line_nr)
  | some d =>
    match encode pass st.symbols d.opcode d.form t.save with
    | .error e => .error e
    | .ok opcode =>
      .ok { (printIf (decide (pass ≠ 0))
              (if list = true then listingLine st.pc opcode orig_line
               else compactLine st.pc opcode) st) with
            pc := (st.pc + 2) % 65536 }

/-- Body of the `while (line)` loop for one line `ln` delivered by the line
scanner; `heap` is the memory behind the buffer of the pass. -/
def processLine (pass : Nat) (list : Bool) (heap : List Char) (ln : Tok) (st : State) :
    Except Err State :=
  match strtok_r delimTok (lineMem ln) with
  | none => .ok { st with line_nr := st.line_nr + 1 }
  | some t =>
    if t.tok.getLast? = some ':' then
      doLabel pass list t.tok { st with line_nr := st.line_nr + 1 }
    else if t.tok.head? = some '.' then
      doConst pass list t { st with line_nr := st.line_nr + 1 }
    else if t.tok.head? = some '$' then
      doData pass list heap t { st with line_nr := st.line_nr + 1 }
    else if t.tok.head? = some '@' then
      doOrigin t { st with line_nr := st.line_nr + 1 }
    else
      doInstr pass list ln.tok t { st with line_nr := st.line_nr + 1 }

/-- The `while (line)` loop over the lines of the source. -/
def runLines (pass : Nat) (list : Bool) (heap : List Char) :
    List Tok → State → Except Err State
  | [], st => .ok st
  | ln :: lns, st =>
    match processLine pass list heap ln st with
    | .error e => .error e
    | .ok st1 => runLines pass list heap lns st1

/-- The lines of the source: tokens of `strtok_r (strdup (src), "\n", ...)`.
The buffer of the copy is the text up to its first NUL and the terminating
NUL. -/
def srcLines (src : List Char) : List Tok :=
  strtokAll delimLine (strdup src ++ [NUL])

/-- Start of a pass: `pc = RESET_VECTOR; line_nr = 0;`. -/
def resetState (st : State) : State :=
  { st with pc := RESET_VECTOR, line_nr := 0 }

/-- One iteration of `for (pass = 0; pass < 2; pass++)`; `heap` is the memory
behind the copy of the source that this iteration allocates. -/
def runPass (pass : Nat) (list : Bool) (heap : List Char) (src : List Char) (st : State) :
    Except Err State :=
  runLines pass list heap (srcLines src) (resetState st)

/-- State at the start of `main`. -/
def initState : State := ⟨RESET_VECTOR, 0, [], []⟩

/-- The translator: both passes over the source text `src`; `list` is the
`-l` flag, `heap0` and `heap1` are the memory behind the buffer of pass 0
and of pass 1. -/
def main (list : Bool) (heap0 heap1 : List Char) (src : List Char) : Except Err State :=
  match runPass 0 list heap0 src initState with
  | .error e => .error e
  | .ok st => runPass 1 list heap1 src st

/-! ## Derived notions used in the statements -/

/-- First token of a line, as read by `strtok_r (line, ", \t\n", ...)`. -/
def firstTok (ln : Tok) : Option Tok :=
  strtok_r delimTok (lineMem ln)

/-- The symbol that a line defines when it is reached with counter `pc`:
a label line defines the token cut at its first colon with value `pc`, a
constant directive with a complete numeral defines the token without its
leading dot with the value of the numeral. -/
def definedSym (ln : Tok) (pc : Nat) : Option tSymbol :=
  match firstTok ln with
  | none => none
  | some t =>
    if t.tok.getLast? = some ':' then
      some ⟨t.tok.takeWhile (fun c => decide (c ≠ ':')), pc⟩
    else if t.tok.head? = some '.' then
      match strtok_r delimTok t.save with
      | none => none
      | some par =>
        if (strtol par.tok).2 ≠ [] then none
        else some ⟨t.tok.tail, toU16 (strtol par.tok).1⟩
    else none

/-- Name of the symbol that a line defines. -/
def definedName (ln : Tok) : Option (List Char) :=
  (definedSym ln 0).map tSymbol.name

/-- Number of words of one operand of a data directive: one for a value, the
number of characters that the string loop passes for a string. -/
def itemWords (heap : List Char) (par : Tok) : Nat :=
  match par.tok.dropWhile (fun c => decide (c = ' ')) with
  | [] => 1
  | c :: cs =>
    if c = '"' then ((scanString (cs ++ NUL :: (par.mem ++ heap))).getD []).length else 1

/-- Counter after `n` emitted words: `pc += 2` on `uint16_t`, `n` times. -/
def advance : Nat → Nat → Nat
  | 0, pc => pc
  | n + 1, pc => advance n ((pc + 2) % 65536)

/-- Counter after a line that is processed without error, from the counter
before the line. -/
def nextPc (heap : List Char) (ln : Tok) (pc : Nat) : Nat :=
  match firstTok ln with
  | none => pc
  | some t =>
    if t.tok.getLast? = some ':' then pc
    else if t.tok.head? = some '.' then pc
    else if t.tok.head? = some '$' then
      advance ((strtokAll delimData t.save).map (itemWords heap)).sum pc
    else if t.tok.head? = some '@' then toU16 (strtol t.tok.tail).1
    else (pc + 2) % 65536

/-- The first token of a line when the line is an instruction line. -/
def instrTok (ln : Tok) : Option Tok :=
  match firstTok ln with
  | none => none
  | some t =>
    if t.tok.getLast? = some ':' then none
    else if t.tok.head? = some '.' then none
    else if t.tok.head? = some '$' then none
    else if t.tok.head? = some '@' then none
    else some t

/-- The word that the second pass encodes for a line, `none` when the line
is not an instruction line or cannot be encoded. -/
def lineWord (symbols : List tSymbol) (ln : Tok) : Option Nat :=
  match instrTok ln with
  | none => none
  | some t =>
    match get_opcode t.tok with
    | none => none
    | some d => (encode 1 symbols d.opcode d.form t.save).toOption

/-- The compact output described for a program: one `AAAA:WWWW` line for
every instruction line, in program order, the address following the
counter. -/
def compactOut (heap : List Char) (symbols : List tSymbol) : List Tok → Nat → List String
  | [], _ => []
  | ln :: lns, pc =>
    (match lineWord symbols ln with
     | some w => [compactLine pc w]
     | none => []) ++ compactOut heap symbols lns (nextPc heap ln pc)

/-- The symbols that a line adds to the table `symbols` when it is reached
with counter `pc`: the symbol it defines, unless the name is in the table. -/
def newSyms (symbols : List tSymbol) (ln : Tok) (pc : Nat) : List tSymbol :=
  match definedSym ln pc with
  | none => []
  | some d => if find_symbol symbols d.name = none then [d] else []

/-- Counter after a list of lines that are processed without error. -/
def pcAfter (heap : List Char) : List Tok → Nat → Nat
  | [], pc => pc
  | ln :: lns, pc => pcAfter heap lns (nextPc heap ln pc)

/-- The token in the immediate position of an instruction line: the token
after the mnemonic for the 12 bit form, the token after a valid register
name for the other forms with an immediate operand. -/
def immTok (ln : Tok) : Option Tok :=
  match instrTok ln with
  | none => none
  | some t =>
    match get_opcode t.tok with
    | none => none
    | some d =>
      if d.form = FRM_OP_IMM12 then strtok_r delimTok t.save
      else if d.form = FRM_OP_SO_RT_IMM4 ∨ d.form = FRM_OP_RS_LIMM8 ∨ d.form = FRM_OP_RS_UIMM8 then
        match get_reg_param t.save with
        | .error _ => none
        | .ok (_, save1) => strtok_r delimTok save1
      else none

/-- The program of the listing example: a label followed by `nop` on the
same line. -/
def loopSrc : List Char := "loop: nop\n    brr r0\n".toList

/-- The line `loop: nop` of `loopSrc`. -/
def loopLine : Tok := (srcLines loopSrc).getD 0 ⟨[], [], []⟩

/-- The first token `loop:` of `loopLine`. -/
def loopTok : Tok := (firstTok loopLine).getD ⟨[], [], []⟩

/-- Name of register `a`, the entry `regs[a]`. -/
def regName (a : Nat) : List Char := regs.getD a []

/-- Source that consists of the one line `<mnemonic> r<a> r<b>`. -/
def twoRegSrc (mnemonic : List Char) (a b : Nat) : List Char :=
  mnemonic ++ ' ' :: regName a ++ ' ' :: regName b ++ ['\n']

/-- The line `addi r0, 0x1FF` with an immediate beyond 8 bits. -/
def wideLine : Tok := (srcLines "addi r0, 0x1FF\n".toList).getD 0 ⟨[], [], []⟩

/-- A program that defines `k` first as a constant and again as a label. -/
def dupSrc : List Char := "nop\n.k 7\nnop\nk: nop\n".toList

/-- A program whose second line refers to the undefined symbol `nowhere`. -/
def undefSrc : List Char := "nop\naddi r1, nowhere\n".toList

/-- A small program with a constant, a backward and a forward reference. -/
def demoSrc : List Char :=
  "nop\n.k 0x10\nloop: ; a label\nbrl done\naddi r1, k\nbrl loop\ndone:\nbrr r15\n".toList

/-- The line `loop: ; a label` of `demoSrc`. -/
def demoLabelLine : Tok := (srcLines demoSrc).getD 2 ⟨[], [], []⟩

/-- The first token `loop:` of `demoLabelLine`. -/
def demoLabelTok : Tok := (firstTok demoLabelLine).getD ⟨[], [], []⟩

/-- Final state of the translation of `demoSrc` without listing. -/
def demoFin : State :=
  ⟨10, 8, [⟨"k".toList, 16⟩, ⟨"loop".toList, 2⟩, ⟨"done".toList, 8⟩],
   ["0000:0000\n", "0002:F004\n", "0004:7110\n", "0006:F001\n", "0008:09F0\n"]⟩

/-! ## Numerals as the description reads them -/

/-- The decimal digits `0`..`9`. -/
def isDecDigit (c : Char) : Bool := decide (48 ≤ c.toNat) && decide (c.toNat ≤ 57)

/-- The octal digits `0`..`7`. -/
def isOctDigit (c : Char) : Bool := decide (48 ≤ c.toNat) && decide (c.toNat ≤ 55)

/-- Value of a string of digits read in the given base, most significant
digit first; a letter counts ten and up. -/
def valueIn (base : Nat) (tok : List Char) : Nat :=
  tok.foldl (fun acc c => acc * base + (digitOf c).getD 0) 0

/-- Value of a string of decimal digits read in base ten. -/
def decimalValue (tok : List Char) : Nat :=
  tok.foldl (fun acc c => acc * 10 + (c.toNat - 48)) 0

/-! ## Kinds of lines and emitted words -/

/-- The kinds of lines that the `if` chain of `main` tells apart by the
first token; `blank` is a line without token. -/
inductive Kind where
  | blank
  | label
  | const
  | data
  | origin
  | instr
  deriving DecidableEq, Repr

/-- Kind of a line. -/
def lineKind (ln : Tok) : Kind :=
  match firstTok ln with
  | none => .blank
  | some t =>
    if t.tok.getLast? = some ':' then .label
    else if t.tok.head? = some '.' then .const
    else if t.tok.head? = some '$' then .data
    else if t.tok.head? = some '@' then .origin
    else .instr

/-- Number of words that a line emits: one for an instruction, the words of
its operands for a data directive, none otherwise. -/
def lineWords (heap : List Char) (ln : Tok) : Nat :=
  match firstTok ln with
  | none => 0
  | some t =>
    if t.tok.getLast? = some ':' then 0
    else if t.tok.head? = some '.' then 0
    else if t.tok.head? = some '$' then ((strtokAll delimData t.save).map (itemWords heap)).sum
    else if t.tok.head? = some '@' then 0
    else 1

/-- Number of words that a list of lines emits. -/
def wordCount (heap : List Char) (lns : List Tok) : Nat := (lns.map (lineWords heap)).sum

/-- A program with a data directive between two instructions. -/
def dataSrc : List Char := "nop\n$ \"ab\",7\nnop\n".toList

/-! ## Operand fields -/

/-- Masks of the operand fields of a form, in the order of the operands:
the bits into which the `switch (form)` of `main` ORs the operands. -/
def fieldMasks (form : Nat) : List Nat :=
  if form = FRM_OP_SO_RT then [0x00F0]
  else if form = FRM_OP_SO_RT_RD then [0x00F0, 0x000F]
  else if form = FRM_OP_SO_RT_IMM4 then [0x00F0, 0x000F]
  else if form = FRM_OP_RS_LIMM8 then [0x0F00, 0x00FF]
  else if form = FRM_OP_RS_UIMM8 then [0x0F00, 0x00FF]
  else if form = FRM_OP_RS_RT_RD then [0x0F00, 0x00F0, 0x000F]
  else if form = FRM_OP_IMM12 then [0x0FFF]
  else []

/-- All operand bits of a form. -/
def fieldMask (form : Nat) : Nat :=
  (fieldMasks form).foldl (fun m n => m ||| n) 0

/-! ## The patching tool `mkramimg.c`

The tool reads the template into `buf` and the pairs `address:code` into
two arrays, looks up the 64 strings `INIT_xx => X"` one after the other,
writes every code word as four hexadecimal characters into the block
selected by its address, and writes the buffer back.  The model takes the
content of the template and the pairs left by the reading loop. -/

namespace Mkramimg

/-- Fatal ends of the tool; the template file is then not written. -/
inductive Err where
  /-- `ERROR:  Can't find 'INIT_xx => X"' in file!`. -/
  | initNotFound (i : Nat)
  /-- `ERROR: Address alignment error`. -/
  | alignment (address : Nat)
  /-- Use of an entry of `ptr_list` that was never set (`index >= 64`). -/
  | wildPointer (index : Nat)
  deriving DecidableEq, Repr

/-- Offset of the first occurrence of `needle` in `hay`, `none` for NULL. -/
def strstr : List Char → List Char → Option Nat
  | [], needle => if needle = [] then some 0 else none
  | c :: cs, needle =>
    if needle.isPrefixOf (c :: cs) = true then some 0
    else (strstr cs needle).map (fun o => o + 1)

/-- Text of `sprintf (text, "INIT_%2.2X => X\"", i % 64)`. -/
def initText (i : Nat) : List Char :=
  "INIT_".toList ++ [hexDigit (i % 64 / 16 % 16), hexDigit (i % 64 % 16)] ++ " => X\"".toList

/-- The loop over `i` that fills `ptr_list`: `n` strings are still to be
found, `pos` is the offset of `ptr` in `buf`.  Each search starts at the
previous match. -/
def findInits (buf : List Char) : Nat → Nat → Nat → Except Err (List Nat)
  | 0, _, _ => .ok []
  | n + 1, i, pos =>
    match strstr (buf.drop pos) (initText i) with
    | none => .error (.initNotFound i)
    | some off =>
      match findInits buf n (i + 1) (pos + off) with
      | .error e => .error e
      | .ok l => .ok ((pos + off + (initText i).length) :: l)

/-- Text of `sprintf (text, "%4.4x", code)`: lower-case hexadecimal, at
least four digits. -/
def codeText (code : Nat) : List Char :=
  List.replicate (4 - (Nat.toDigits 16 code).length) '0' ++ Nat.toDigits 16 code

/-- Assignments `ptr[j++] = c` for the characters of `text`. -/
def writeChars (buf : List Char) : Nat → List Char → List Char
  | _, [] => buf
  | pos, c :: cs => writeChars (buf.set pos c) (pos + 1) cs

/-- Body of the patch loop for one pair. -/
def patch (buf : List Char) (ptr_list : List Nat) (address code : Nat) :
    Except Err (List Char) :=
  if address % 2 ≠ 0 then .error (.alignment address)
  else
    match ptr_list[address / 32]? with
    | none => .error (.wildPointer (address / 32))
    | some p => .ok (writeChars buf (p + (60 - (address % 32) * 2)) ((codeText code).take 4))

/-- The patch loop over all pairs. -/
def patchAll (ptr_list : List Nat) : List (Nat × Nat) → List Char → Except Err (List Char)
  | [], buf => .ok buf
  | (address, code) :: rest, buf =>
    match patch buf ptr_list address code with
    | .error e => .error e
    | .ok buf1 => patchAll ptr_list rest buf1

/-- The tool: from the content of the template and the pairs to the content
that is written back. -/
def main (buf : List Char) (pairs : List (Nat × Nat)) : Except Err (List Char) :=
  match findInits buf 64 0 0 with
  | .error e => .error e
  | .ok ptr_list => patchAll ptr_list pairs buf

/-- One block of a template: the string `INIT_xx => X"`, the 64 characters
`body`, and the end of the line. -/
def block (i : Nat) (body : List Char) : List Char :=
  initText i ++ body ++ "\",\n".toList

/-- A template with the 64 blocks, block `i` holding `body i`. -/
def template (body : Nat → List Char) : List Char :=
  ((List.range 64).map (fun i => block i (body i))).flatten

end Mkramimg

/-- The line `ldu r3, k`. -/
def lduLine : Tok := (srcLines "ldu r3, k\n".toList).getD 0 ⟨[], [], []⟩

/-- The symbols that a list of lines defines, in the order of the lines,
each with the value it has when the lines are processed from counter `pc`. -/
def definedSyms (heap : List Char) : List Tok → Nat → List tSymbol
  | [], _ => []
  | ln :: lns, pc => (definedSym ln pc).toList ++ definedSyms heap lns (nextPc heap ln pc)

/-- The duplicate-symbol error. -/
def isDup : Err → Bool
  | .duplicateSymbol _ _ => true
  | _ => false

/-! ## The token scanner -/

-- The memory behind the buffer of a pass.
variable {heap heap0 heap1 : List Char}

theorem length_dropWhile_le_self (p : Char → Bool) (l : List Char) :
    (l.dropWhile p).length ≤ l.length :=
  (List.dropWhile_sublist p).length_le

/-- A successful `strtok_r` call moves the save pointer forward. -/
theorem strtok_r_save_lt (delim s : List Char) (t : Tok) (h : strtok_r delim s = some t) :
    t.save.length < s.length := by
  unfold strtok_r at h
  have h1 := length_dropWhile_le_self (isDelim delim) s
  split at h
  · exact absurd h (by simp)
  · rename_i c cs hc
    rw [hc] at h1
    have h2 := length_dropWhile_le_self (isTokChar delim) cs
    by_cases hn : c = NUL
    · simp [hn] at h
    · have hd : isDelim delim c = false := by
        have := List.head_dropWhile_not (isDelim delim) s (by rw [hc]; simp)
        simpa [hc] using this
      have ht : isTokChar delim c = true := by
        simp only [isDelim, isTokChar] at hd ⊢
        simp_all
      rw [if_neg hn, List.dropWhile_cons, ht] at h
      simp only [if_true] at h
      simp only [List.length_cons] at h1
      split at h
      · cases h; simp; omega
      · rename_i e r he
        rw [he] at h2
        simp only [List.length_cons] at h2
        split at h <;> (cases h; simp; omega)

/-- More fuel than the length of the string does not change the tokens. -/
theorem strtokLoop_fuel (delim : List Char) :
    ∀ (n : Nat) (s : List Char), s.length ≤ n →
      strtokLoop delim n s = strtokLoop delim s.length s := by
  intro n
  induction n using Nat.strong_induction_on with
  | _ n ih =>
    intro s hs
    cases n with
    | zero =>
      have : s.length = 0 := by omega
      rw [this]
    | succ m =>
      cases hl : s.length with
      | zero =>
        have hnil : s = [] := List.length_eq_zero.mp hl
        subst hnil
        simp [strtokLoop, strtok_r]
      | succ k =>
        simp only [strtokLoop]
        cases ht : strtok_r delim s with
        | none => rfl
        | some t =>
          have hlt := strtok_r_save_lt delim s t ht
          simp only
          rw [ih m (by omega) t.save (by omega), ih k (by omega) t.save (by omega)]

/-- The loop equation of the token sequence: the fuel of `strtokAll` never
runs out. -/
theorem strtokAll_eq (delim s : List Char) :
    strtokAll delim s =
      match strtok_r delim s with
      | none => []
      | some t => t :: strtokAll delim t.save := by
  unfold strtokAll
  cases hl : s.length with
  | zero =>
    have hnil : s = [] := List.length_eq_zero.mp hl
    subst hnil
    simp [strtokLoop, strtok_r]
  | succ k =>
    simp only [strtokLoop]
    cases ht : strtok_r delim s with
    | none => rfl
    | some t =>
      have hlt := strtok_r_save_lt delim s t ht
      simp only
      rw [strtokLoop_fuel delim k t.save (by omega)]

/-! ## The counter -/

theorem advance_add (a b pc : Nat) : advance (a + b) pc = advance b (advance a pc) := by
  induction a generalizing pc with
  | zero => simp [advance]
  | succ n ih =>
    have : n + 1 + b = (n + b) + 1 := by omega
    rw [this]
    simp only [advance]
    exact ih _

@[simp] theorem printIf_pc (c : Bool) (x : String) (st : State) : (printIf c x st).pc = st.pc := by
  unfold printIf; split <;> rfl

@[simp] theorem printIf_symbols (c : Bool) (x : String) (st : State) :
    (printIf c x st).symbols = st.symbols := by
  unfold printIf; split <;> rfl

@[simp] theorem printIf_line_nr (c : Bool) (x : String) (st : State) :
    (printIf c x st).line_nr = st.line_nr := by
  unfold printIf; split <;> rfl

@[simp] theorem printIf_false (x : String) (st : State) : printIf false x st = st := by
  simp [printIf]

@[simp] theorem printIf_true (x : String) (st : State) :
    printIf true x st = { st with out := st.out ++ [x] } := by
  simp [printIf]

theorem foldl_dataChar_pc (pass : Nat) (list : Bool) (str : List Char) (st : State) :
    (str.foldl (dataChar pass list) st).pc = advance str.length st.pc := by
  induction str generalizing st with
  | nil => simp [advance]
  | cons c cs ih =>
    simp only [List.foldl_cons, List.length_cons, advance]
    rw [ih]
    rfl

theorem foldl_dataChar_symbols (pass : Nat) (list : Bool) (str : List Char) (st : State) :
    (str.foldl (dataChar pass list) st).symbols = st.symbols ∧
    (str.foldl (dataChar pass list) st).line_nr = st.line_nr := by
  induction str generalizing st with
  | nil => simp
  | cons c cs ih =>
    simp only [List.foldl_cons]
    rw [(ih _).1, (ih _).2]
    exact ⟨rfl, rfl⟩

theorem foldl_dataChar_out (pass : Nat) (list : Bool) (str : List Char) (st : State)
    (h : pass = 0 ∨ list = false) :
    (str.foldl (dataChar pass list) st).out = st.out := by
  induction str generalizing st with
  | nil => simp
  | cons c cs ih =>
    simp only [List.foldl_cons]
    rw [ih]
    rcases h with h | h <;> simp [dataChar, h]

/-- Effect of one data operand on the state. -/
theorem dataItem_ok (pass : Nat) (list : Bool) (par : Tok) (st st1 : State)
    (h : dataItem pass list heap par st = .ok st1) :
    st1.pc = advance (itemWords heap par) st.pc ∧ st1.symbols = st.symbols ∧
    st1.line_nr = st.line_nr ∧ (pass = 0 ∨ list = false → st1.out = st.out) := by
  unfold dataItem at h
  unfold itemWords
  split at h
  · rename_i hp
    cases h
    refine ⟨rfl, rfl, rfl, ?_⟩
    intro hc
    rcases hc with hc | hc <;> simp [hc]
  · rename_i c cs hp
    by_cases hq : c = '"'
    · simp only [hq, if_true] at h ⊢
      cases hs : scanString (cs ++ NUL :: (par.mem ++ heap)) with
      | none => simp [hs] at h
      | some str =>
        simp only [hs] at h
        cases h
        simp only [Option.getD_some]
        exact ⟨foldl_dataChar_pc _ _ _ _, (foldl_dataChar_symbols _ _ _ _).1,
          (foldl_dataChar_symbols _ _ _ _).2, foldl_dataChar_out _ _ _ _⟩
    · simp only [if_neg hq] at h ⊢
      split at h
      · exact absurd h (by simp)
      · cases h
        refine ⟨rfl, rfl, rfl, ?_⟩
        intro hc
        rcases hc with hc | hc <;> simp [hc]

/-- Effect of the operand loop of a data directive on the state. -/
theorem dataItems_ok (pass : Nat) (list : Bool) (pars : List Tok) (st st1 : State)
    (h : dataItems pass list heap pars st = .ok st1) :
    st1.pc = advance (pars.map (itemWords heap)).sum st.pc ∧ st1.symbols = st.symbols ∧
    st1.line_nr = st.line_nr ∧ (pass = 0 ∨ list = false → st1.out = st.out) := by
  induction pars generalizing st with
  | nil =>
    simp only [dataItems] at h
    cases h
    simp [advance]
  | cons par pars ih =>
    simp only [dataItems] at h
    cases hi : dataItem pass list heap par st with
    | error e => simp [hi] at h
    | ok st2 =>
      simp only [hi] at h
      obtain ⟨a1, a2, a3, a4⟩ := dataItem_ok pass list par st st2 hi
      obtain ⟨b1, b2, b3, b4⟩ := ih st2 h
      refine ⟨?_, by rw [b2, a2], by rw [b3, a3], fun hc => by rw [b4 hc, a4 hc]⟩
      rw [b1, a1, List.map_cons, List.sum_cons, advance_add]

/-! ## One line -/

/-- Effect of a label definition on the state. -/
theorem doLabel_ok (pass : Nat) (list : Bool) (token : List Char) (st st1 : State)
    (h : doLabel pass list token st = .ok st1) :
    st1.pc = st.pc ∧ st1.line_nr = st.line_nr ∧
    st1.symbols = st.symbols ++
      (if find_symbol st.symbols (token.takeWhile (fun c => decide (c ≠ ':'))) = none
       then [⟨token.takeWhile (fun c => decide (c ≠ ':')), st.pc⟩] else []) ∧
    (pass = 0 → find_symbol st.symbols (token.takeWhile (fun c => decide (c ≠ ':'))) = none) ∧
    (pass = 0 ∨ list = false → st1.out = st.out) := by
  unfold doLabel at h
  cases hf : find_symbol st.symbols (token.takeWhile (fun c => decide (c ≠ ':'))) with
  | some x =>
    simp only [hf] at h
    by_cases hp : pass = 0
    · simp [hp] at h
    · simp only [if_neg hp] at h
      cases h
      refine ⟨by simp, by simp, by simp, fun h0 => absurd h0 hp, ?_⟩
      intro hc
      rcases hc with hc | hc
      · exact absurd hc hp
      · simp [hc]
  | none =>
    simp only [hf] at h
    cases h
    refine ⟨by simp, by simp, by simp [add_symbol], fun _ => rfl, ?_⟩
    intro hc
    rcases hc with hc | hc <;> simp [hc]

/-- Effect of a constant directive on the state. -/
theorem doConst_ok (pass : Nat) (list : Bool) (t : Tok) (st st1 : State)
    (h : doConst pass list t st = .ok st1) :
    ∃ par, strtok_r delimTok t.save = some par ∧ (strtol par.tok).2 = [] ∧
    st1.pc = st.pc ∧ st1.line_nr = st.line_nr ∧
    st1.symbols = st.symbols ++
      (if find_symbol st.symbols t.tok.tail = none
       then [⟨t.tok.tail, toU16 (strtol par.tok).1⟩] else []) ∧
    (pass = 0 → find_symbol st.symbols t.tok.tail = none) ∧
    (pass = 0 ∨ list = false → st1.out = st.out) := by
  unfold doConst at h
  cases hpar : strtok_r delimTok t.save with
  | none => simp [hpar] at h
  | some par =>
    simp only [hpar] at h
    by_cases hl : (strtol par.tok).2 = []
    · simp only [hl, ne_eq, not_true_eq_false, if_false] at h
      refine ⟨par, rfl, hl, ?_⟩
      cases hf : find_symbol st.symbols t.tok.tail with
      | some x =>
        simp only [hf] at h
        by_cases hp : pass = 0
        · simp [hp] at h
        · simp only [if_neg hp] at h
          cases h
          refine ⟨by simp, by simp, by simp, fun h0 => absurd h0 hp, ?_⟩
          intro hc
          rcases hc with hc | hc
          · exact absurd hc hp
          · simp [hc]
      | none =>
        simp only [hf] at h
        cases h
        refine ⟨by simp, by simp, by simp [add_symbol], fun _ => rfl, ?_⟩
        intro hc
        rcases hc with hc | hc <;> simp [hc]
    · simp [hl] at h

/-- Effect of a data directive on the state. -/
theorem doData_ok (pass : Nat) (list : Bool) (t : Tok) (st st1 : State)
    (h : doData pass list heap t st = .ok st1) :
    st1.pc = advance ((strtokAll delimData t.save).map (itemWords heap)).sum st.pc ∧
    st1.line_nr = st.line_nr ∧ st1.symbols = st.symbols ∧
    (list = false → st1.out = st.out) := by
  unfold doData at h
  cases hd : dataItems pass list heap (strtokAll delimData t.save) (printIf list "\n" st) with
  | error e => simp [hd] at h
  | ok st2 =>
    simp only [hd] at h
    cases h
    obtain ⟨a1, a2, a3, a4⟩ := dataItems_ok _ _ _ _ _ hd
    refine ⟨by simpa using a1, by simpa using a3, by simpa using a2, ?_⟩
    intro hl
    subst hl
    simpa using a4 (Or.inr rfl)

/-- Effect of an origin directive on the state. -/
theorem doOrigin_ok (t : Tok) (st st1 : State) (h : doOrigin t st = .ok st1) :
    st1.pc = toU16 (strtol t.tok.tail).1 ∧ st1.line_nr = st.line_nr ∧
    st1.symbols = st.symbols ∧ st1.out = st.out := by
  unfold doOrigin at h
  split at h
  · exact absurd h (by simp)
  · cases h
    exact ⟨rfl, rfl, rfl, rfl⟩

/-- Effect of an instruction line on the state. -/
theorem doInstr_ok (pass : Nat) (list : Bool) (orig : List Char) (t : Tok) (st st1 : State)
    (h : doInstr pass list orig t st = .ok st1) :
    ∃ d w, get_opcode t.tok = some d ∧
      encode pass st.symbols d.opcode d.form t.save = .ok w ∧
      st1 = { (printIf (decide (pass ≠ 0))
                (if list = true then listingLine st.pc w orig else compactLine st.pc w) st) with
              pc := (st.pc + 2) % 65536 } := by
  unfold doInstr at h
  cases hd : get_opcode t.tok with
  | none => simp [hd] at h
  | some d =>
    simp only [hd] at h
    cases he : encode pass st.symbols d.opcode d.form t.save with
    | error e => simp [he] at h
    | ok w =>
      simp only [he] at h
      cases h
      exact ⟨d, w, rfl, he, rfl⟩

/-- Everything a successfully processed line does to the state: the counter
follows `nextPc`, the line number grows by one, the symbol table grows by
`newSyms`, pass 0 accepts no symbol that is in the table, and without the
listing flag the output grows exactly by the compact line of an instruction
on pass 1 and not at all on pass 0. -/
theorem processLine_ok (pass : Nat) (list : Bool) (ln : Tok) (st st1 : State)
    (h : processLine pass list heap ln st = .ok st1) :
    st1.pc = nextPc heap ln st.pc ∧ st1.line_nr = st.line_nr + 1 ∧
    st1.symbols = st.symbols ++ newSyms st.symbols ln st.pc ∧
    (pass = 0 → ∀ d, definedSym ln st.pc = some d → find_symbol st.symbols d.name = none) ∧
    (pass = 0 → list = false → st1.out = st.out) ∧
    (pass = 1 → list = false →
      st1.out = st.out ++ (lineWord st.symbols ln).toList.map (compactLine st.pc)) := by
  unfold processLine at h
  unfold nextPc newSyms definedSym lineWord instrTok firstTok
  cases ht : strtok_r delimTok (lineMem ln) with
  | none =>
    simp only [ht] at h
    cases h
    simp
  | some t =>
    simp only [ht] at h ⊢
    by_cases h1 : t.tok.getLast? = some ':'
    · simp only [h1, if_true] at h ⊢
      obtain ⟨a1, a2, a3, a4, a5⟩ := doLabel_ok _ _ _ _ _ h
      refine ⟨a1, a2, ?_, ?_, ?_, ?_⟩
      · rw [a3]
      · intro hp d hd
        cases hd
        exact a4 hp
      · intro hp _
        exact a5 (Or.inl hp)
      · intro _ hl
        simpa using a5 (Or.inr hl)
    · simp only [h1, if_false] at h ⊢
      by_cases h2 : t.tok.head? = some '.'
      · simp only [h2, if_true] at h ⊢
        obtain ⟨par, b0, b1, a1, a2, a3, a4, a5⟩ := doConst_ok _ _ _ _ _ h
        simp only [b0, b1, ne_eq, not_true_eq_false, if_false]
        refine ⟨a1, a2, ?_, ?_, ?_, ?_⟩
        · rw [a3]
        · intro hp d hd
          cases hd
          exact a4 hp
        · intro hp _
          exact a5 (Or.inl hp)
        · intro _ hl
          simpa using a5 (Or.inr hl)
      · simp only [h2, if_false] at h ⊢
        by_cases h3 : t.tok.head? = some '$'
        · simp only [h3, if_true] at h ⊢
          obtain ⟨a1, a2, a3, a4⟩ := doData_ok _ _ _ _ _ h
          refine ⟨a1, a2, by simpa using a3, by simp, fun _ hl => by simpa using a4 hl,
            fun _ hl => by simpa using a4 hl⟩
        · simp only [h3, if_false] at h ⊢
          by_cases h4 : t.tok.head? = some '@'
          · simp only [h4, if_true] at h ⊢
            obtain ⟨a1, a2, a3, a4⟩ := doOrigin_ok _ _ _ h
            refine ⟨a1, a2, by simpa using a3, by simp, fun _ _ => by simpa using a4,
              fun _ _ => by simpa using a4⟩
          · simp only [h4, if_false] at h ⊢
            obtain ⟨d, w, a1, a2, a3⟩ := doInstr_ok _ _ _ _ _ _ h
            subst a3
            refine ⟨by simp, by simp, by simp, by simp, ?_, ?_⟩
            · intro hp _
              subst hp
              simp
            · intro hp hl
              subst hp
              subst hl
              simp only [a1]
              simp only [State.symbols] at a2
              simp [a2, Except.toOption]

/-! ## A pass -/

theorem runLines_append (pass : Nat) (list : Bool) (a b : List Tok) (st : State) :
    runLines pass list heap (a ++ b) st =
      match runLines pass list heap a st with
      | .error e => .error e
      | .ok st1 => runLines pass list heap b st1 := by
  induction a generalizing st with
  | nil => simp [runLines]
  | cons ln lns ih =>
    simp only [List.cons_append, runLines]
    cases processLine pass list heap ln st with
    | error e => rfl
    | ok st1 => exact ih st1

/-- A pass that completes has completed on every prefix of the lines. -/
theorem runLines_split (pass : Nat) (list : Bool) (a b : List Tok) (st st2 : State)
    (h : runLines pass list heap (a ++ b) st = .ok st2) :
    ∃ st1, runLines pass list heap a st = .ok st1 ∧ runLines pass list heap b st1 = .ok st2 := by
  rw [runLines_append] at h
  cases ha : runLines pass list heap a st with
  | error e => simp [ha] at h
  | ok st1 =>
    simp only [ha] at h
    exact ⟨st1, rfl, h⟩

theorem runLines_cons_ok (pass : Nat) (list : Bool) (ln : Tok) (lns : List Tok)
    (st st2 : State) (h : runLines pass list heap (ln :: lns) st = .ok st2) :
    ∃ st1, processLine pass list heap ln st = .ok st1 ∧ runLines pass list heap lns st1 = .ok st2 := by
  simp only [runLines] at h
  cases ha : processLine pass list heap ln st with
  | error e => simp [ha] at h
  | ok st1 =>
    simp only [ha] at h
    exact ⟨st1, rfl, h⟩

/-- The counter after a run of lines does not depend on the pass, the
listing flag or the symbol table. -/
theorem runLines_pc (pass : Nat) (list : Bool) (lns : List Tok) (st st1 : State)
    (h : runLines pass list heap lns st = .ok st1) : st1.pc = pcAfter heap lns st.pc := by
  induction lns generalizing st with
  | nil =>
    simp only [runLines] at h
    cases h
    rfl
  | cons ln lns ih =>
    obtain ⟨st2, h1, h2⟩ := runLines_cons_ok _ _ _ _ _ _ h
    rw [ih st2 h2, (processLine_ok _ _ _ _ _ h1).1]
    rfl

/-- A symbol that is found stays the one that is found when the table grows. -/
theorem find_symbol_append (sy ext : List tSymbol) (n : List Char) (x : tSymbol)
    (h : find_symbol sy n = some x) : find_symbol (sy ++ ext) n = some x := by
  unfold find_symbol at *
  rw [List.find?_append, h]
  rfl

theorem find_symbol_append_ne (sy ext : List tSymbol) (n : List Char)
    (h : find_symbol sy n ≠ none) : find_symbol (sy ++ ext) n ≠ none := by
  cases hf : find_symbol sy n with
  | none => exact absurd hf h
  | some x => rw [find_symbol_append sy ext n x hf]; simp

theorem find_symbol_new (sy : List tSymbol) (d : tSymbol)
    (h : find_symbol sy d.name = none) : find_symbol (sy ++ [d]) d.name = some d := by
  unfold find_symbol at *
  rw [List.find?_append, h]
  simp [List.find?]

/-- The symbol table only grows at its end while lines are processed. -/
theorem runLines_symbols_prefix (pass : Nat) (list : Bool) (lns : List Tok) (st st1 : State)
    (h : runLines pass list heap lns st = .ok st1) : ∃ ext, st1.symbols = st.symbols ++ ext := by
  induction lns generalizing st with
  | nil =>
    simp only [runLines] at h
    cases h
    exact ⟨[], by simp⟩
  | cons ln lns ih =>
    obtain ⟨st2, h1, h2⟩ := runLines_cons_ok _ _ _ _ _ _ h
    obtain ⟨ext, he⟩ := ih st2 h2
    refine ⟨newSyms st.symbols ln st.pc ++ ext, ?_⟩
    rw [he, (processLine_ok _ _ _ _ _ h1).2.2.1, List.append_assoc]

/-- The name that a line defines does not depend on the counter. -/
theorem definedSym_name (ln : Tok) (pc pc1 : Nat) (d : tSymbol)
    (h : definedSym ln pc = some d) : ∃ d1, definedSym ln pc1 = some d1 ∧ d1.name = d.name := by
  unfold definedSym at *
  cases ht : firstTok ln with
  | none => simp [ht] at h
  | some t =>
    simp only [ht] at h ⊢
    by_cases h1 : t.tok.getLast? = some ':'
    · simp only [h1, if_true] at h ⊢
      cases h
      exact ⟨_, rfl, rfl⟩
    · simp only [h1, if_false] at h ⊢
      exact ⟨d, h, rfl⟩

/-- After a successfully processed line the symbol it defines is in the table. -/
theorem processLine_defines (pass : Nat) (list : Bool) (ln : Tok) (st st1 : State)
    (h : processLine pass list heap ln st = .ok st1) (pc : Nat) (d : tSymbol)
    (hd : definedSym ln pc = some d) : find_symbol st1.symbols d.name ≠ none := by
  obtain ⟨d1, hd1, hn⟩ := definedSym_name ln pc st.pc d hd
  have hs := (processLine_ok _ _ _ _ _ h).2.2.1
  rw [hs]
  unfold newSyms
  rw [hd1]
  by_cases hf : find_symbol st.symbols d1.name = none
  · simp only [hf, if_true]
    rw [← hn, find_symbol_new _ _ hf]
    simp
  · simp only [hf, if_false, List.append_nil]
    rw [← hn]
    exact hf

/-- After a run of lines every symbol defined by one of them is in the table. -/
theorem runLines_defines (pass : Nat) (list : Bool) (lns : List Tok) (st st1 : State)
    (h : runLines pass list heap lns st = .ok st1) :
    ∀ ln ∈ lns, ∀ pc d, definedSym ln pc = some d → find_symbol st1.symbols d.name ≠ none := by
  induction lns generalizing st with
  | nil => intro ln hln; simp at hln
  | cons l0 lns ih =>
    obtain ⟨st2, h1, h2⟩ := runLines_cons_ok _ _ _ _ _ _ h
    intro ln hln pc d hd
    rcases List.mem_cons.mp hln with hl | hl
    · subst hl
      obtain ⟨ext, he⟩ := runLines_symbols_prefix _ _ _ _ _ h2
      rw [he]
      exact find_symbol_append_ne _ _ _ (processLine_defines _ _ _ _ _ h1 pc d hd)
    · exact ih st2 h2 ln hl pc d hd

/-- A run over lines whose symbols are all in the table leaves the table
unchanged. -/
theorem runLines_symbols_fixed (pass : Nat) (list : Bool) (lns : List Tok) (st st1 : State)
    (h : runLines pass list heap lns st = .ok st1)
    (hk : ∀ ln ∈ lns, ∀ pc d, definedSym ln pc = some d → find_symbol st.symbols d.name ≠ none) :
    st1.symbols = st.symbols := by
  induction lns generalizing st with
  | nil =>
    simp only [runLines] at h
    cases h
    rfl
  | cons l0 lns ih =>
    obtain ⟨st2, h1, h2⟩ := runLines_cons_ok _ _ _ _ _ _ h
    have hs := (processLine_ok _ _ _ _ _ h1).2.2.1
    have hn : newSyms st.symbols l0 st.pc = [] := by
      unfold newSyms
      cases hd : definedSym l0 st.pc with
      | none => rfl
      | some d =>
        have := hk l0 (List.mem_cons_self _ _) st.pc d hd
        simp [this]
    rw [hn, List.append_nil] at hs
    rw [ih st2 h2 (by
      intro ln hln pc d hd
      rw [hs]
      exact hk ln (List.mem_cons_of_mem _ hln) pc d hd), hs]

/-! ## Both passes -/

/-- A translation that succeeds consists of a successful pass 0 followed by a
successful pass 1. -/
theorem main_ok (list : Bool) (src : List Char) (fin : State)
    (h : main list heap0 heap1 src = .ok fin) :
    ∃ s0, runPass 0 list heap0 src initState = .ok s0 ∧
      runPass 1 list heap1 src s0 = .ok fin := by
  unfold main at h
  cases h0 : runPass 0 list heap0 src initState with
  | error e => simp [h0] at h
  | ok s0 =>
    simp only [h0] at h
    exact ⟨s0, rfl, h⟩

/-! ## Sources that do not read behind the buffer -/

/-- A double quote found in the memory `l` is found whatever follows `l`. -/
theorem scanString_append (l x s : List Char) (h : scanString l = some s) :
    scanString (l ++ x) = some s := by
  induction l generalizing s with
  | nil => simp [scanString] at h
  | cons c cs ih =>
    simp only [scanString, List.cons_append] at h ⊢
    by_cases hc : c = '"'
    · simpa [hc] using h
    · simp only [if_neg hc] at h ⊢
      cases hs : scanString cs with
      | none => simp [hs] at h
      | some s1 =>
        have e := ih s1 hs
        rw [hs] at h
        simpa [e] using h

/-- An operand whose result with nothing behind the buffer is not the
segmentation fault has the same result whatever is behind the buffer. -/
theorem dataItem_closed (pass : Nat) (list : Bool) (par : Tok) (st : State)
    (r : Except Err State) (h : dataItem pass list [] par st = r) (hr : r ≠ .error .unmapped) :
    dataItem pass list heap par st = r := by
  unfold dataItem at h ⊢
  split
  · rename_i hp
    simpa [hp] using h
  · rename_i c cs hp
    simp only [hp] at h
    by_cases hq : c = '"'
    · simp only [hq, if_true, List.append_nil] at h ⊢
      cases hs : scanString (cs ++ NUL :: par.mem) with
      | none =>
        rw [hs] at h
        exact absurd h.symm hr
      | some str =>
        rw [hs] at h
        have := scanString_append (cs ++ NUL :: par.mem) heap str hs
        simp only [List.append_assoc, List.cons_append] at this
        rw [this]
        exact h
    · simp only [if_neg hq] at h ⊢
      exact h

theorem dataItems_closed (pass : Nat) (list : Bool) (pars : List Tok) (st : State)
    (r : Except Err State) (h : dataItems pass list [] pars st = r) (hr : r ≠ .error .unmapped) :
    dataItems pass list heap pars st = r := by
  induction pars generalizing st with
  | nil => simpa [dataItems] using h
  | cons par pars ih =>
    simp only [dataItems] at h ⊢
    cases hi : dataItem pass list [] par st with
    | error e =>
      simp only [hi] at h
      subst h
      rw [dataItem_closed pass list par st _ hi hr]
    | ok st1 =>
      simp only [hi] at h
      rw [dataItem_closed pass list par st _ hi (by simp)]
      exact ih st1 h

theorem processLine_closed (pass : Nat) (list : Bool) (ln : Tok) (st : State)
    (r : Except Err State) (h : processLine pass list [] ln st = r) (hr : r ≠ .error .unmapped) :
    processLine pass list heap ln st = r := by
  unfold processLine at h ⊢
  split
  · rename_i ht
    simpa [ht] using h
  · rename_i t ht
    simp only [ht] at h
    split
    · rename_i h1
      simpa [h1] using h
    · rename_i h1
      simp only [h1, if_false] at h
      split
      · rename_i h2
        simpa [h2] using h
      · rename_i h2
        simp only [h2, if_false] at h
        split
        · rename_i h3
          simp only [h3, if_true] at h
          unfold doData at h ⊢
          cases hd : dataItems pass list [] (strtokAll delimData t.save)
              (printIf list "\n" { st with line_nr := st.line_nr + 1 }) with
          | error e =>
            simp only [hd] at h
            subst h
            rw [dataItems_closed pass list _ _ _ hd hr]
          | ok st1 =>
            simp only [hd] at h
            rw [dataItems_closed pass list _ _ _ hd (by simp)]
            exact h
        · rename_i h3
          simpa [h3] using h

/-- A run of lines whose result with nothing behind the buffer is not the
segmentation fault has the same result whatever is behind the buffer. -/
theorem runLines_closed (pass : Nat) (list : Bool) (lns : List Tok) (st : State)
    (r : Except Err State) (h : runLines pass list [] lns st = r) (hr : r ≠ .error .unmapped) :
    runLines pass list heap lns st = r := by
  induction lns generalizing st with
  | nil => simpa [runLines] using h
  | cons ln lns ih =>
    simp only [runLines] at h ⊢
    cases hi : processLine pass list [] ln st with
    | error e =>
      simp only [hi] at h
      subst h
      rw [processLine_closed pass list ln st _ hi hr]
    | ok st1 =>
      simp only [hi] at h
      rw [processLine_closed pass list ln st _ hi (by simp)]
      exact ih st1 h

theorem runPass_closed (pass : Nat) (list : Bool) (src : List Char) (st : State)
    (r : Except Err State) (h : runPass pass list [] src st = r) (hr : r ≠ .error .unmapped) :
    runPass pass list heap src st = r :=
  runLines_closed pass list _ _ r h hr

/-- A translation whose result with nothing behind the buffers is not the
segmentation fault reads no memory behind the buffers: it has the same
result whatever is there. -/
theorem main_closed (list : Bool) (src : List Char) (r : Except Err State)
    (h : main list [] [] src = r) (hr : r ≠ .error .unmapped) :
    main list heap0 heap1 src = r := by
  unfold main at h ⊢
  cases h0 : runPass 0 list [] src initState with
  | error e =>
    simp only [h0] at h
    subst h
    rw [runPass_closed 0 list src _ _ h0 hr]
  | ok s0 =>
    simp only [h0] at h
    rw [runPass_closed 0 list src _ _ h0 (by simp)]
    exact runPass_closed 1 list src _ _ h hr
/-- After pass 0 has completed, a later run over a prefix of the same lines
does not change the symbol table. -/
theorem later_pass_symbols (pass : Nat) (list list1 : Bool) (pre post : List Tok)
    (st s0 p1 : State) (h0 : runLines 0 list heap0 (pre ++ post) st = .ok s0)
    (h1 : runLines pass list1 heap1 pre (resetState s0) = .ok p1) : p1.symbols = s0.symbols := by
  have hk := runLines_defines _ _ _ _ _ h0
  have := runLines_symbols_fixed _ _ _ _ _ h1 (by
    intro ln hln pc d hd
    exact hk ln (List.mem_append_left _ hln) pc d hd)
  rw [this]
  rfl

/-- A label line reached by pass 0 in state `p0` enters its name with the
counter of `p0`, and the entry is the one found at the end of the pass. -/
theorem pass0_label_entry (list : Bool) (pre post : List Tok) (ln t : Tok) (st p0 s0 : State)
    (h0 : runLines 0 list heap (pre ++ ln :: post) st = .ok s0)
    (hp : runLines 0 list heap pre st = .ok p0)
    (ht : firstTok ln = some t) (hlab : t.tok.getLast? = some ':') :
    find_symbol s0.symbols (t.tok.takeWhile (fun c => decide (c ≠ ':'))) =
      some ⟨t.tok.takeWhile (fun c => decide (c ≠ ':')), p0.pc⟩ := by
  rw [runLines_append, hp] at h0
  obtain ⟨st2, h1, h2⟩ := runLines_cons_ok _ _ _ _ _ _ h0
  obtain ⟨ext, he⟩ := runLines_symbols_prefix _ _ _ _ _ h2
  have hd : definedSym ln p0.pc = some ⟨t.tok.takeWhile (fun c => decide (c ≠ ':')), p0.pc⟩ := by
    unfold definedSym
    simp [ht, hlab]
  have hp := processLine_ok _ _ _ _ _ h1
  have hnone := hp.2.2.2.1 rfl _ hd
  have hs := hp.2.2.1
  unfold newSyms at hs
  rw [hd] at hs
  simp only [hnone, if_true] at hs
  rw [he, hs]
  exact find_symbol_append _ _ _ _ (find_symbol_new _ _ hnone)

/-- When both passes complete and find the same memory behind their buffers,
the counter with which pass 1 reaches a label line equals the counter with
which pass 0 reached it, and that is the value found in the symbol table of
pass 0 under the label's name. -/
theorem label_address_same_memory (list : Bool) (src : List Char) (pre post : List Tok)
    (ln t : Tok) (fin : State)
    (hsrc : srcLines src = pre ++ ln :: post)
    (hmain : main list heap heap src = .ok fin)
    (ht : firstTok ln = some t) (hlab : t.tok.getLast? = some ':') :
    ∃ s0 p0 p1, runPass 0 list heap src initState = .ok s0 ∧
      runLines 0 list heap pre (resetState initState) = .ok p0 ∧
      runLines 1 list heap pre (resetState s0) = .ok p1 ∧
      p1.pc = p0.pc ∧
      find_symbol s0.symbols (t.tok.takeWhile (fun c => decide (c ≠ ':'))) =
        some ⟨t.tok.takeWhile (fun c => decide (c ≠ ':')), p1.pc⟩ := by
  obtain ⟨s0, h0, h1⟩ := main_ok list src fin hmain
  have h0r := h0
  unfold runPass at h0 h1
  rw [hsrc] at h0 h1
  obtain ⟨p0, hp0, _⟩ := runLines_split _ _ _ _ _ _ h0
  obtain ⟨p1, hp1, _⟩ := runLines_split _ _ _ _ _ _ h1
  have e0 := runLines_pc _ _ _ _ _ hp0
  have e1 := runLines_pc _ _ _ _ _ hp1
  have hpc : p1.pc = p0.pc := by
    rw [e0, e1]
    rfl
  refine ⟨s0, p0, p1, h0r, hp0, hp1, hpc, ?_⟩
  rw [hpc]
  exact pass0_label_entry list pre post ln t _ p0 s0 h0 hp0 ht hlab

/-- When the translation succeeds with nothing readable behind the buffers,
so that no string loop leaves the buffer, then whatever lies behind the
buffers both passes complete, and the counter with which pass 1 reaches a
label line equals the counter with which pass 0 reached it, the value found
in the symbol table of pass 0 under the label's name. -/
theorem label_address_closed (list : Bool) (src : List Char) (pre post : List Tok)
    (ln t : Tok) (fin : State)
    (hsrc : srcLines src = pre ++ ln :: post)
    (hmain : main list [] [] src = .ok fin)
    (ht : firstTok ln = some t) (hlab : t.tok.getLast? = some ':') :
    main list heap0 heap1 src = .ok fin ∧
    ∃ s0 p0 p1, runPass 0 list heap0 src initState = .ok s0 ∧
      runLines 0 list heap0 pre (resetState initState) = .ok p0 ∧
      runLines 1 list heap1 pre (resetState s0) = .ok p1 ∧
      p1.pc = p0.pc ∧
      find_symbol s0.symbols (t.tok.takeWhile (fun c => decide (c ≠ ':'))) =
        some ⟨t.tok.takeWhile (fun c => decide (c ≠ ':')), p1.pc⟩ := by
  obtain ⟨s0, p0, p1, a1, a2, a3, a4, a5⟩ :=
    label_address_same_memory list src pre post ln t fin hsrc hmain ht hlab
  exact ⟨main_closed list src _ hmain (by simp), s0, p0, p1,
    runPass_closed 0 list src _ _ a1 (by simp), runLines_closed 0 list pre _ _ a2 (by simp),
    runLines_closed 1 list pre _ _ a3 (by simp), a4, a5⟩

/-- C1 on the code: the string in the first line of this source is not
closed, so the string loop of the data directive runs on through the rest of
the buffer (seven characters) into the memory behind it, up to the first
double quote there.  With a double quote at the first place behind the
buffer of pass 0 and at the third place behind the buffer of pass 1, both
passes complete; pass 0 reaches the label line `l:` with counter 14 and
stores 14 for `l`, pass 1 reaches the same line with counter 18. -/
theorem label_counter_differs :
    (firstTok ((srcLines "$ \"ab\nl:\n".toList).getD 1 ⟨[], [], []⟩)).map Tok.tok =
      some "l:".toList ∧
    runLines 0 false "\"".toList ((srcLines "$ \"ab\nl:\n".toList).take 1)
      (resetState initState) = .ok ⟨14, 1, [], []⟩ ∧
    runPass 0 false "\"".toList "$ \"ab\nl:\n".toList initState =
      .ok ⟨14, 2, [⟨"l".toList, 14⟩], []⟩ ∧
    runLines 1 false "zz\"".toList ((srcLines "$ \"ab\nl:\n".toList).take 1)
      (resetState ⟨14, 2, [⟨"l".toList, 14⟩], []⟩) = .ok ⟨18, 1, [⟨"l".toList, 14⟩], []⟩ ∧
    main false "\"".toList "zz\"".toList "$ \"ab\nl:\n".toList =
      .ok ⟨18, 2, [⟨"l".toList, 14⟩], []⟩ := by
  decide

/-! ## Output -/

/-- Without the listing flag pass 0 prints nothing. -/
theorem pass0_compact_silent (lns : List Tok) (st st1 : State)
    (h : runLines 0 false heap lns st = .ok st1) : st1.out = st.out := by
  induction lns generalizing st with
  | nil =>
    simp only [runLines] at h
    cases h
    rfl
  | cons ln lns ih =>
    obtain ⟨st2, h1, h2⟩ := runLines_cons_ok _ _ _ _ _ _ h
    rw [ih st2 h2, (processLine_ok _ _ _ _ _ h1).2.2.2.2.1 rfl rfl]

/-- Without the listing flag, pass 1 over lines whose symbols are all in the
table prints the compact lines of the instructions, in order. -/
theorem pass1_compact_out (lns : List Tok) (st st1 : State)
    (h : runLines 1 false heap lns st = .ok st1)
    (hk : ∀ ln ∈ lns, ∀ pc d, definedSym ln pc = some d → find_symbol st.symbols d.name ≠ none) :
    st1.out = st.out ++ compactOut heap st.symbols lns st.pc := by
  induction lns generalizing st with
  | nil =>
    simp only [runLines] at h
    cases h
    simp [compactOut]
  | cons ln lns ih =>
    obtain ⟨st2, h1, h2⟩ := runLines_cons_ok _ _ _ _ _ _ h
    have hp := processLine_ok _ _ _ _ _ h1
    have hs : st2.symbols = st.symbols :=
      @runLines_symbols_fixed heap 1 false [ln] st st2 (by simp [runLines, h1]) (by
        intro l hl pc d hd
        rw [List.mem_singleton] at hl
        subst hl
        exact hk l (List.mem_cons_self _ _) pc d hd)
    rw [ih st2 h2 (by
      intro l hl pc d hd
      rw [hs]
      exact hk l (List.mem_cons_of_mem _ hl) pc d hd)]
    rw [hp.2.2.2.2.2 rfl rfl, hs, hp.1]
    simp only [compactOut, List.append_assoc]
    cases lineWord st.symbols ln <;> rfl

/-- C9, as amended: without the listing flag a successful translation prints
exactly the lines `AAAA:WWWW` of the instruction lines, in program order,
`AAAA` being the counter at the line and `WWWW` the encoded word; labels,
constants, origins and the items of data directives print nothing. -/
theorem compact_output (heap0 heap1 : List Char) (src : List Char) (fin : State)
    (h : main false heap0 heap1 src = .ok fin) :
    fin.out = compactOut heap1 fin.symbols (srcLines src) 0 := by
  obtain ⟨s0, h0, h1⟩ := main_ok false src fin h
  unfold runPass at h0 h1
  have hk := runLines_defines _ _ _ _ _ h0
  have hsym : fin.symbols = s0.symbols := by
    have := later_pass_symbols 1 false false (srcLines src) [] _ s0 fin (by simpa using h0) h1
    exact this
  have hout := pass1_compact_out _ _ _ h1 hk
  have h0out := pass0_compact_silent _ _ _ h0
  rw [hout, hsym]
  have : (resetState s0).out = [] := h0out
  rw [this]
  rfl

/-- Instance of the amended C9 on `demoSrc`. -/
theorem compact_output_witness :
    main false [] [] demoSrc = .ok demoFin ∧
    demoFin.out = compactOut [] demoFin.symbols (srcLines demoSrc) 0 :=
  ⟨by decide, compact_output [] [] demoSrc demoFin (by decide)⟩

/-- C9 fails as stated: the data directive of this program emits three words
at the addresses 0, 2 and 4, yet without the listing flag the only line
printed is that of the instruction at address 6.  The string is closed, so
nothing behind the buffer is read (`main_closed`). -/
theorem compact_data_prints_nothing :
    main false [] [] "$ \"ab\",7\nnop\n".toList = .ok ⟨8, 2, [], ["0006:0000\n"]⟩ := by
  decide

/-- C10 fails on the code: with the listing flag, pass 0 alone prints the two
blank lines around a data directive, whatever lies behind the buffer. -/
theorem pass0_listing_prints (heap : List Char) :
    runPass 0 true heap "$ 1\n".toList initState = .ok ⟨2, 1, [], ["\n", "\n"]⟩ :=
  runPass_closed 0 true _ _ _ (by decide) (by decide)

/-! ## Labels -/

/-- C5 fails as stated: with the listing flag the program prints the label
line and then `brr r0` at address 0000; the `nop` behind the label is not
translated, no line `0000:0000` appears and `brr r0` is not at 0002.  The
program has no data directive, so nothing behind the buffer is read
(`main_closed`). -/
theorem label_then_instr_listing :
    main true [] [] loopSrc =
      .ok ⟨2, 2, [⟨"loop".toList, 0⟩], ["\t\tloop:\n", "0000:0900\t    brr r0\n"]⟩ := by
  decide

/-- C5, as amended: a line whose first token ends with a colon is a label
definition whatever follows the token; if it is processed without error the
counter is unchanged and the only output is the label line, printed on
pass 1 with the listing flag. -/
theorem label_line_rest_ignored (pass : Nat) (list : Bool) (heap : List Char) (ln t : Tok)
    (st : State)
    (ht : firstTok ln = some t) (hlab : t.tok.getLast? = some ':') :
    processLine pass list heap ln st =
      doLabel pass list t.tok { st with line_nr := st.line_nr + 1 } ∧
    ∀ st1, processLine pass list heap ln st = .ok st1 →
      st1.pc = st.pc ∧
      st1.out = st.out ++
        (if pass ≠ 0 ∧ list = true
         then [labelLine (t.tok.takeWhile (fun c => decide (c ≠ ':')))] else []) := by
  have hp : processLine pass list heap ln st =
      doLabel pass list t.tok { st with line_nr := st.line_nr + 1 } := by
    unfold processLine
    unfold firstTok at ht
    simp only [ht, hlab, if_true]
  refine ⟨hp, ?_⟩
  intro st1 h
  rw [hp] at h
  unfold doLabel at h
  by_cases hc : pass ≠ 0 ∧ list = true
  · obtain ⟨hc1, hc2⟩ := hc
    simp only [hc1, hc2, ne_eq, not_false_eq_true, decide_True, Bool.and_self, printIf_true,
      if_false, and_self, if_true] at h ⊢
    split at h <;> (cases h; exact ⟨rfl, rfl⟩)
  · simp only [hc, if_false, List.append_nil]
    have hb : (decide (pass ≠ 0) && list) = false := by
      by_cases h0 : pass = 0
      · simp [h0]
      · cases list
        · simp
        · exact absurd ⟨h0, rfl⟩ hc
    simp only [hb, printIf_false] at h
    split at h
    · split at h
      · exact absurd h (by simp)
      · cases h; exact ⟨rfl, rfl⟩
    · cases h; exact ⟨rfl, rfl⟩

/-- Instance of the amended C5 on the line `loop: nop` in pass 1 with listing. -/
theorem label_line_rest_ignored_witness :
    processLine 1 true [] loopLine ⟨0, 0, [⟨"loop".toList, 0⟩], []⟩ =
      doLabel 1 true loopTok.tok
        { (⟨0, 0, [⟨"loop".toList, 0⟩], []⟩ : State) with line_nr := 0 + 1 } ∧
    ∀ st1, processLine 1 true [] loopLine ⟨0, 0, [⟨"loop".toList, 0⟩], []⟩ = .ok st1 →
      st1.pc = 0 ∧
      st1.out = [] ++
        (if 1 ≠ 0 ∧ true = true
         then [labelLine (loopTok.tok.takeWhile (fun c => decide (c ≠ ':')))] else []) :=
  label_line_rest_ignored 1 true [] loopLine loopTok ⟨0, 0, [⟨"loop".toList, 0⟩], []⟩
    (by decide) (by decide)

/-! ## Duplicate symbols -/

/-- On pass 0 a line that defines a symbol whose name is in the table is
fatal with the duplicate-symbol error, reported with the number of the line. -/
theorem processLine_dup (list : Bool) (ln : Tok) (st : State) (d : tSymbol)
    (hd : definedSym ln st.pc = some d) (hf : find_symbol st.symbols d.name ≠ none) :
    processLine 0 list heap ln st = .error (.duplicateSymbol d.name (st.line_nr + 1)) := by
  unfold definedSym firstTok at hd
  unfold processLine
  cases ht : strtok_r delimTok (lineMem ln) with
  | none => simp [ht] at hd
  | some t =>
    simp only [ht] at hd ⊢
    by_cases h1 : t.tok.getLast? = some ':'
    · simp only [h1, if_true] at hd ⊢
      cases hd
      unfold doLabel
      simp only at hf ⊢
      cases hx : find_symbol st.symbols (t.tok.takeWhile (fun c => decide (c ≠ ':'))) with
      | none => exact absurd hx hf
      | some x => simp
    · simp only [h1, if_false] at hd ⊢
      by_cases h2 : t.tok.head? = some '.'
      · simp only [h2, if_true] at hd ⊢
        unfold doConst
        cases hp : strtok_r delimTok t.save with
        | none => simp [hp] at hd
        | some par =>
          simp only [hp] at hd ⊢
          by_cases hl : (strtol par.tok).2 = []
          · simp only [hl, ne_eq, not_true_eq_false, if_false] at hd ⊢
            cases hd
            simp only at hf ⊢
            cases hx : find_symbol st.symbols t.tok.tail with
            | none => exact absurd hx hf
            | some x => simp
          · simp [hl] at hd
      · simp [h2] at hd

/-- Every processed line counts. -/
theorem runLines_line_nr (pass : Nat) (list : Bool) (lns : List Tok) (st st1 : State)
    (h : runLines pass list heap lns st = .ok st1) : st1.line_nr = st.line_nr + lns.length := by
  induction lns generalizing st with
  | nil =>
    simp only [runLines] at h
    cases h
    rfl
  | cons ln lns ih =>
    obtain ⟨st2, h1, h2⟩ := runLines_cons_ok _ _ _ _ _ _ h
    rw [ih st2 h2, (processLine_ok _ _ _ _ _ h1).2.1, List.length_cons]
    omega

/-- On pass 0 the symbol that a successfully processed line defines is
entered with its value, and is then the entry found under its name. -/
theorem pass0_entry (list : Bool) (pre post : List Tok) (ln : Tok) (st q p : State)
    (hq : runLines 0 list heap pre st = .ok q)
    (hp : runLines 0 list heap (pre ++ ln :: post) st = .ok p)
    (d : tSymbol) (hd : definedSym ln q.pc = some d) :
    find_symbol p.symbols d.name = some d := by
  rw [runLines_append, hq] at hp
  obtain ⟨st2, h1, h2⟩ := runLines_cons_ok _ _ _ _ _ _ hp
  obtain ⟨ext, he⟩ := runLines_symbols_prefix _ _ _ _ _ h2
  have hpl := processLine_ok _ _ _ _ _ h1
  have hnone := hpl.2.2.2.1 rfl _ hd
  have hs := hpl.2.2.1
  unfold newSyms at hs
  rw [hd] at hs
  simp only [hnone, if_true] at hs
  rw [he, hs]
  exact find_symbol_append _ _ _ _ (find_symbol_new _ _ hnone)

/-- C6: when two lines of a source define the same name (each a label or a
constant directive with a complete numeral) and pass 0 reaches the second
of them without a fatal error, the translation ends in pass 0 at that line
with the duplicate-symbol error, and the table then holds under that name
the symbol of the first definition. -/
theorem duplicate_symbol (list : Bool) (heap0 heap1 : List Char) (src : List Char)
    (pre mid post : List Tok) (d1 d2 : Tok) (n : List Char) (p : State)
    (hsrc : srcLines src = pre ++ d1 :: (mid ++ d2 :: post))
    (h1 : definedName d1 = some n) (h2 : definedName d2 = some n)
    (hp : runLines 0 list heap0 (pre ++ d1 :: mid) (resetState initState) = .ok p) :
    runPass 0 list heap0 src initState =
      .error (.duplicateSymbol n (pre.length + 1 + mid.length + 1)) ∧
    main list heap0 heap1 src = .error (.duplicateSymbol n (pre.length + 1 + mid.length + 1)) ∧
    ∃ q x, runLines 0 list heap0 pre (resetState initState) = .ok q ∧
      definedSym d1 q.pc = some x ∧ x.name = n ∧ find_symbol p.symbols n = some x := by
  obtain ⟨q, hq, _⟩ := runLines_split _ _ _ _ _ _ hp
  have hx : ∃ x, definedSym d1 q.pc = some x ∧ x.name = n := by
    unfold definedName at h1
    cases hd : definedSym d1 0 with
    | none => simp [hd] at h1
    | some d =>
      simp only [hd, Option.map_some', Option.some.injEq] at h1
      obtain ⟨x, hx1, hx2⟩ := definedSym_name d1 0 q.pc d hd
      exact ⟨x, hx1, by rw [hx2, h1]⟩
  obtain ⟨x, hx1, hx2⟩ := hx
  have hy : ∃ y, definedSym d2 p.pc = some y ∧ y.name = n := by
    unfold definedName at h2
    cases hd : definedSym d2 0 with
    | none => simp [hd] at h2
    | some d =>
      simp only [hd, Option.map_some', Option.some.injEq] at h2
      obtain ⟨y, hy1, hy2⟩ := definedSym_name d2 0 p.pc d hd
      exact ⟨y, hy1, by rw [hy2, h2]⟩
  obtain ⟨y, hy1, hy2⟩ := hy
  have hfind : find_symbol p.symbols n = some x := by
    rw [← hx2]
    exact pass0_entry list pre mid d1 _ q p hq hp x hx1
  have hnr : p.line_nr = pre.length + 1 + mid.length := by
    rw [runLines_line_nr _ _ _ _ _ hp]
    simp [resetState]
    omega
  have hdup := @processLine_dup heap0 list d2 p y hy1 (by rw [hy2, hfind]; simp)
  rw [hy2, hnr] at hdup
  have hrun : runPass 0 list heap0 src initState =
      .error (.duplicateSymbol n (pre.length + 1 + mid.length + 1)) := by
    unfold runPass
    have : pre ++ d1 :: (mid ++ d2 :: post) = (pre ++ d1 :: mid) ++ d2 :: post := by simp
    rw [hsrc, this, runLines_append, hp]
    simp only [runLines, hdup]
  refine ⟨hrun, ?_, q, x, hq, hx1, hx2, hfind⟩
  unfold main
  rw [hrun]

/-- Instance of C6 on `dupSrc`: `.k 7` in line 2 and `k:` in line 4. -/
theorem duplicate_symbol_witness :
    runPass 0 false [] dupSrc initState = .error (.duplicateSymbol "k".toList (1 + 1 + 1 + 1)) ∧
    main false [] [] dupSrc = .error (.duplicateSymbol "k".toList (1 + 1 + 1 + 1)) ∧
    ∃ q x, runLines 0 false [] ((srcLines dupSrc).take 1) (resetState initState) = .ok q ∧
      definedSym ((srcLines dupSrc).getD 1 ⟨[], [], []⟩) q.pc = some x ∧ x.name = "k".toList ∧
      find_symbol (State.mk 4 3 [⟨"k".toList, 7⟩] []).symbols "k".toList = some x :=
  duplicate_symbol false [] [] dupSrc ((srcLines dupSrc).take 1)
    [(srcLines dupSrc).getD 2 ⟨[], [], []⟩]
    [] ((srcLines dupSrc).getD 1 ⟨[], [], []⟩) ((srcLines dupSrc).getD 3 ⟨[], [], []⟩)
    "k".toList ⟨4, 3, [⟨"k".toList, 7⟩], []⟩ (by decide) (by decide) (by decide) (by decide)

/-! ## Symbol references -/

/-- Every symbol of the table after a run was in the table before or is
defined by one of the lines. -/
theorem runLines_symbols_names (pass : Nat) (list : Bool) (lns : List Tok) (st st1 : State)
    (h : runLines pass list heap lns st = .ok st1) :
    ∀ x ∈ st1.symbols, x ∈ st.symbols ∨ ∃ ln ∈ lns, definedName ln = some x.name := by
  induction lns generalizing st with
  | nil =>
    simp only [runLines] at h
    cases h
    intro x hx
    exact Or.inl hx
  | cons l0 lns ih =>
    obtain ⟨st2, h1, h2⟩ := runLines_cons_ok _ _ _ _ _ _ h
    intro x hx
    rcases ih st2 h2 x hx with hx2 | ⟨ln, hln, hd⟩
    · rw [(processLine_ok _ _ _ _ _ h1).2.2.1] at hx2
      rcases List.mem_append.mp hx2 with hx3 | hx3
      · exact Or.inl hx3
      · right
        refine ⟨l0, List.mem_cons_self _ _, ?_⟩
        unfold newSyms at hx3
        cases hd : definedSym l0 st.pc with
        | none => simp [hd] at hx3
        | some d =>
          simp only [hd] at hx3
          split at hx3
          · rw [List.mem_singleton] at hx3
            subst hx3
            obtain ⟨d1, hd1, hn⟩ := definedSym_name l0 st.pc 0 x hd
            unfold definedName
            rw [hd1]
            simp [hn]
          · simp at hx3
    · exact Or.inr ⟨ln, List.mem_cons_of_mem _ hln, hd⟩

/-- An instruction line is handled by the instruction branch. -/
theorem processLine_instr (pass : Nat) (list : Bool) (ln t : Tok) (st : State)
    (h : instrTok ln = some t) :
    processLine pass list heap ln st =
      doInstr pass list ln.tok t { st with line_nr := st.line_nr + 1 } := by
  unfold instrTok firstTok at h
  unfold processLine
  cases ht : strtok_r delimTok (lineMem ln) with
  | none => simp [ht] at h
  | some t1 =>
    simp only [ht] at h ⊢
    by_cases h1 : t1.tok.getLast? = some ':'
    · simp [h1] at h
    · by_cases h2 : t1.tok.head? = some '.'
      · simp [h1, h2] at h
      · by_cases h3 : t1.tok.head? = some '$'
        · simp [h1, h2, h3] at h
        · by_cases h4 : t1.tok.head? = some '@'
          · simp [h1, h2, h3, h4] at h
          · simp only [h1, h2, h3, h4, if_false, Option.some.injEq] at h ⊢
            rw [h]

/-- Pass 1 rejects an immediate token that is neither a complete numeral nor
in the symbol table. -/
theorem encode_unknown_symbol (symbols : List tSymbol) (ln t tk : Tok) (d : tInstr)
    (ht : instrTok ln = some t) (hd : get_opcode t.tok = some d)
    (himm : immTok ln = some tk) (hnum : (strtol tk.tok).2 ≠ [])
    (hf : find_symbol symbols tk.tok = none) :
    encode 1 symbols d.opcode d.form t.save = .error (.unknownSymbol tk.tok) := by
  unfold immTok at himm
  simp only [ht, hd] at himm
  by_cases f7 : d.form = FRM_OP_IMM12
  · simp only [f7, if_true] at himm
    simp [encode, f7, FRM_OP_IMM12, FRM_OP_SO_RT, FRM_OP_SO_RT_RD, FRM_OP_SO_RT_IMM4,
      FRM_OP_RS_LIMM8, FRM_OP_RS_UIMM8, FRM_OP_RS_RT_RD, get_imm_param, himm, hnum, hf]
  · simp only [f7, if_false] at himm
    by_cases f3 : d.form = FRM_OP_SO_RT_IMM4 ∨ d.form = FRM_OP_RS_LIMM8 ∨
        d.form = FRM_OP_RS_UIMM8
    · simp only [f3, if_true] at himm
      cases hr : get_reg_param t.save with
      | error e => simp [hr] at himm
      | ok rs =>
        obtain ⟨r, sv⟩ := rs
        simp only [hr] at himm
        rcases f3 with f | f | f <;>
          simp [encode, f, FRM_OP_IMM12, FRM_OP_SO_RT, FRM_OP_SO_RT_RD, FRM_OP_SO_RT_IMM4,
            FRM_OP_RS_LIMM8, FRM_OP_RS_UIMM8, FRM_OP_RS_RT_RD, get_imm_param, himm, hnum, hf, hr]
    · simp [f3] at himm

/-- Pass 0 accepts an instruction line with a token in the immediate
position without looking at the token. -/
theorem encode_pass0_imm (symbols : List tSymbol) (ln t tk : Tok) (d : tInstr)
    (ht : instrTok ln = some t) (hd : get_opcode t.tok = some d)
    (himm : immTok ln = some tk) :
    ∃ w, encode 0 symbols d.opcode d.form t.save = .ok w := by
  unfold immTok at himm
  simp only [ht, hd] at himm
  by_cases f7 : d.form = FRM_OP_IMM12
  · simp [encode, f7, FRM_OP_IMM12, FRM_OP_SO_RT, FRM_OP_SO_RT_RD, FRM_OP_SO_RT_IMM4,
      FRM_OP_RS_LIMM8, FRM_OP_RS_UIMM8, FRM_OP_RS_RT_RD, get_imm_param]
  · simp only [f7, if_false] at himm
    by_cases f3 : d.form = FRM_OP_SO_RT_IMM4 ∨ d.form = FRM_OP_RS_LIMM8 ∨
        d.form = FRM_OP_RS_UIMM8
    · simp only [f3, if_true] at himm
      cases hr : get_reg_param t.save with
      | error e => simp [hr] at himm
      | ok rs =>
        obtain ⟨r, sv⟩ := rs
        rcases f3 with f | f | f <;>
          simp [encode, f, FRM_OP_IMM12, FRM_OP_SO_RT, FRM_OP_SO_RT_RD, FRM_OP_SO_RT_IMM4,
            FRM_OP_RS_LIMM8, FRM_OP_RS_UIMM8, FRM_OP_RS_RT_RD, get_imm_param, hr]
    · simp [f3] at himm

/-- C7: an instruction line whose token in the immediate position is not a
complete numeral and is not the name of a symbol defined by any line of the
source is accepted by pass 0 in every state, and when pass 0 has completed
and pass 1 reaches the line, the translation ends there with the
unknown-symbol error for that token. -/
theorem unknown_symbol (list : Bool) (heap0 heap1 : List Char) (src : List Char)
    (pre post : List Tok) (ln tk : Tok) (s0 p1 : State)
    (hsrc : srcLines src = pre ++ ln :: post)
    (himm : immTok ln = some tk) (hnum : (strtol tk.tok).2 ≠ [])
    (hundef : ∀ l ∈ srcLines src, definedName l ≠ some tk.tok)
    (h0 : runPass 0 list heap0 src initState = .ok s0)
    (h1 : runLines 1 list heap1 pre (resetState s0) = .ok p1) :
    (∀ st, ∃ st1, processLine 0 list heap0 ln st = .ok st1) ∧
    processLine 1 list heap1 ln p1 = .error (.unknownSymbol tk.tok) ∧
    main list heap0 heap1 src = .error (.unknownSymbol tk.tok) := by
  have hit : ∃ t d, instrTok ln = some t ∧ get_opcode t.tok = some d := by
    unfold immTok at himm
    cases ht : instrTok ln with
    | none => simp [ht] at himm
    | some t =>
      simp only [ht] at himm
      cases hd : get_opcode t.tok with
      | none => simp [hd] at himm
      | some d => exact ⟨t, d, rfl, hd⟩
  obtain ⟨t, d, ht, hd⟩ := hit
  have hpass0 : ∀ st, ∃ st1, processLine 0 list heap0 ln st = .ok st1 := by
    intro st
    obtain ⟨w, hw⟩ := encode_pass0_imm st.symbols ln t tk d ht hd himm
    rw [processLine_instr 0 list ln t st ht]
    unfold doInstr
    simp only [hd, hw]
    exact ⟨_, rfl⟩
  have h0r := h0
  unfold runPass at h0
  have hnames := runLines_symbols_names _ _ _ _ _ h0
  have hs0 : find_symbol s0.symbols tk.tok = none := by
    unfold find_symbol
    rw [List.find?_eq_none]
    intro x hx
    rcases hnames x hx with hx1 | ⟨l, hl, hdl⟩
    · simp [resetState, initState] at hx1
    · intro hn
      simp only [decide_eq_true_eq] at hn
      rw [hn] at hdl
      exact hundef l hl hdl
  have hsym : p1.symbols = s0.symbols := by
    rw [hsrc] at h0
    exact later_pass_symbols 1 list list pre (ln :: post) _ s0 p1 h0 h1
  have hline : processLine 1 list heap1 ln p1 = .error (.unknownSymbol tk.tok) := by
    rw [processLine_instr 1 list ln t p1 ht]
    unfold doInstr
    simp only [hd]
    rw [encode_unknown_symbol p1.symbols ln t tk d ht hd himm hnum (by rw [hsym]; exact hs0)]
  refine ⟨hpass0, hline, ?_⟩
  unfold main
  rw [h0r]
  simp only
  unfold runPass
  rw [hsrc, runLines_append, h1]
  simp only [runLines, hline]

/-- Instance of C7 on `undefSrc`: the token `nowhere` in its second line. -/
theorem unknown_symbol_witness :
    (∀ st, ∃ st1, processLine 0 false [] ((srcLines undefSrc).getD 1 ⟨[], [], []⟩) st = .ok st1) ∧
    processLine 1 false [] ((srcLines undefSrc).getD 1 ⟨[], [], []⟩) ⟨2, 1, [], ["0000:0000\n"]⟩ =
      .error (.unknownSymbol
        ((immTok ((srcLines undefSrc).getD 1 ⟨[], [], []⟩)).getD ⟨[], [], []⟩).tok) ∧
    main false [] [] undefSrc =
      .error (.unknownSymbol
        ((immTok ((srcLines undefSrc).getD 1 ⟨[], [], []⟩)).getD ⟨[], [], []⟩).tok) :=
  unknown_symbol false [] [] undefSrc ((srcLines undefSrc).take 1) []
    ((srcLines undefSrc).getD 1 ⟨[], [], []⟩)
    ((immTok ((srcLines undefSrc).getD 1 ⟨[], [], []⟩)).getD ⟨[], [], []⟩)
    ⟨4, 2, [], []⟩ ⟨2, 1, [], ["0000:0000\n"]⟩
    (by decide) (by decide) (by decide) (by decide) (by decide) (by decide)

/-! ## Forward references -/

theorem takeWhile_label (name : List Char) (h : ':' ∉ name) :
    (name ++ [':']).takeWhile (fun c => decide (c ≠ ':')) = name := by
  induction name with
  | nil => simp [List.takeWhile]
  | cons c cs ih =>
    have hc : c ≠ ':' := fun e => h (by simp [e])
    have hcs : ':' ∉ cs := fun e => h (List.mem_cons_of_mem _ e)
    simp only [List.cons_append, List.takeWhile_cons, ne_eq, hc, not_false_eq_true,
      decide_True, if_true]
    rw [ih hcs]

/-- On 16 bit operands the assignment `opcode |= x` is the plain OR. -/
theorem or16_eq (a b : Nat) (ha : a < 65536) (hb : b < 65536) : or16 a b = a ||| b := by
  unfold or16
  exact Nat.mod_eq_of_lt (Nat.or_lt_two_pow (n := 16) ha hb)

/-- C2 fails as stated: the name of the label in the third line is the
numeral `10`, and `brl 10` is translated with the value ten, word `F005`,
not with the address 4 of the label line, which would give `F002`.  The
program has no data directive, so nothing behind the buffer is read
(`main_closed`). -/
theorem brl_numeral_label :
    main false [] [] "brl 10\nnop\n10:\n".toList =
      .ok ⟨4, 3, [⟨"10".toList, 4⟩], ["0000:F005\n", "0002:0000\n"]⟩ := by
  decide

/-- C2, as amended: let a line `brl name` come before the label line `name:`,
the name being no complete numeral and without colon.  Pass 0 accepts the
`brl` line in every state.  When pass 0 has completed and pass 1 reaches the
`brl` line, pass 1 translates it without error into the word
`0xF000 | ((A >> 1) & 0xFFF)`, where `A` is the counter with which pass 0
reached the label line, the value that pass 0 stored for the name; the line
is printed with the counter of the `brl` line. -/
theorem forward_brl (list : Bool) (heap0 heap1 : List Char) (src : List Char)
    (pre mid post : List Tok) (b l t1 t2 tl : Tok) (name : List Char) (s0 pb : State)
    (hsrc : srcLines src = pre ++ b :: (mid ++ l :: post))
    (hb1 : firstTok b = some t1) (hbrl : t1.tok = "brl".toList)
    (hb2 : strtok_r delimTok t1.save = some t2) (hname : t2.tok = name)
    (hsym : (strtol name).2 ≠ []) (hcolon : ':' ∉ name)
    (hl : firstTok l = some tl) (hlab : tl.tok = name ++ [':'])
    (hpass0 : runPass 0 list heap0 src initState = .ok s0)
    (hpre : runLines 1 list heap1 pre (resetState s0) = .ok pb) :
    (∀ st, processLine 0 list heap0 b st =
      .ok { st with line_nr := st.line_nr + 1, pc := (st.pc + 2) % 65536 }) ∧
    ∃ p0, runLines 0 list heap0 (pre ++ b :: mid) (resetState initState) = .ok p0 ∧
      find_symbol s0.symbols name = some ⟨name, p0.pc⟩ ∧
      processLine 1 list heap1 b pb =
        .ok { pc := (pb.pc + 2) % 65536, line_nr := pb.line_nr + 1, symbols := pb.symbols,
              out := pb.out ++
                [if list = true
                 then listingLine pb.pc (0xF000 ||| ((p0.pc >>> 1) &&& 0xFFF)) b.tok
                 else compactLine pb.pc (0xF000 ||| ((p0.pc >>> 1) &&& 0xFFF))] } := by
  have h0 := hpass0
  unfold runPass at h0
  have hre : pre ++ b :: (mid ++ l :: post) = (pre ++ b :: mid) ++ l :: post := by simp
  rw [hsrc, hre] at h0
  obtain ⟨p0, hp0, _⟩ := runLines_split _ _ _ _ _ _ h0
  have hentry := pass0_label_entry list (pre ++ b :: mid) post l tl _ p0 s0 h0 hp0 hl
    (by rw [hlab]; simp)
  rw [hlab, takeWhile_label name hcolon] at hentry
  have hsymb : pb.symbols = s0.symbols := by
    have h0' := h0
    rw [← hre] at h0'
    exact later_pass_symbols 1 list list pre (b :: (mid ++ l :: post)) _ s0 pb h0' hpre
  have hinstr : instrTok b = some t1 := by
    unfold instrTok
    rw [hb1]
    have e1 : ¬ (t1.tok.getLast? = some ':') := by rw [hbrl]; decide
    have e2 : ¬ (t1.tok.head? = some '.') := by rw [hbrl]; decide
    have e3 : ¬ (t1.tok.head? = some '$') := by rw [hbrl]; decide
    have e4 : ¬ (t1.tok.head? = some '@') := by rw [hbrl]; decide
    simp only [e1, e2, e3, e4, if_false]
  have hop : get_opcode t1.tok = some ⟨"brl".toList, 0xF000, FRM_OP_IMM12⟩ := by
    rw [hbrl]; decide
  have hx : (p0.pc >>> 1) &&& 0xFFF < 65536 :=
    Nat.lt_trans (Nat.and_lt_two_pow (n := 12) _ (by decide)) (by decide)
  have henc : encode 1 pb.symbols 0xF000 FRM_OP_IMM12 t1.save =
      .ok (0xF000 ||| ((p0.pc >>> 1) &&& 0xFFF)) := by
    rw [← or16_eq _ _ (by decide) hx]
    simp [encode, FRM_OP_IMM12, FRM_OP_SO_RT, FRM_OP_SO_RT_RD, FRM_OP_SO_RT_IMM4,
      FRM_OP_RS_LIMM8, FRM_OP_RS_UIMM8, FRM_OP_RS_RT_RD, get_imm_param, hb2, hname, hsym,
      hsymb, hentry]
  refine ⟨?_, p0, hp0, hentry, ?_⟩
  · intro st
    obtain ⟨st1, hst1⟩ : ∃ st1, processLine 0 list heap0 b st = .ok st1 := by
      rw [processLine_instr 0 list b t1 st hinstr]
      unfold doInstr
      simp [hop, encode, FRM_OP_IMM12, FRM_OP_SO_RT, FRM_OP_SO_RT_RD, FRM_OP_SO_RT_IMM4,
        FRM_OP_RS_LIMM8, FRM_OP_RS_UIMM8, FRM_OP_RS_RT_RD, get_imm_param]
    rw [hst1]
    rw [processLine_instr 0 list b t1 st hinstr] at hst1
    obtain ⟨d, w, _, _, e⟩ := doInstr_ok _ _ _ _ _ _ hst1
    rw [e]
    simp
  · rw [processLine_instr 1 list b t1 pb hinstr]
    unfold doInstr
    simp only [hop, henc]
    cases list <;> simp

/-- Instance of the amended C2 on `demoSrc`: `brl done` in line 4, `done:` in
line 7, which pass 0 reaches with counter 8. -/
theorem forward_brl_witness :
    (∀ st, processLine 0 false [] ((srcLines demoSrc).getD 3 ⟨[], [], []⟩) st =
      .ok { st with line_nr := st.line_nr + 1, pc := (st.pc + 2) % 65536 }) ∧
    ∃ p0, runLines 0 false [] ((srcLines demoSrc).take 3 ++
        (srcLines demoSrc).getD 3 ⟨[], [], []⟩ :: ((srcLines demoSrc).drop 4).take 2)
        (resetState initState) = .ok p0 ∧
      find_symbol (State.mk 10 8 demoFin.symbols []).symbols "done".toList =
        some ⟨"done".toList, p0.pc⟩ ∧
      processLine 1 false [] ((srcLines demoSrc).getD 3 ⟨[], [], []⟩)
          ⟨2, 3, demoFin.symbols, ["0000:0000\n"]⟩ =
        .ok { pc := ((State.mk 2 3 demoFin.symbols ["0000:0000\n"]).pc + 2) % 65536,
              line_nr := (State.mk 2 3 demoFin.symbols ["0000:0000\n"]).line_nr + 1,
              symbols := (State.mk 2 3 demoFin.symbols ["0000:0000\n"]).symbols,
              out := (State.mk 2 3 demoFin.symbols ["0000:0000\n"]).out ++
                [if false = true
                 then listingLine (State.mk 2 3 demoFin.symbols ["0000:0000\n"]).pc
                   (0xF000 ||| ((p0.pc >>> 1) &&& 0xFFF))
                   ((srcLines demoSrc).getD 3 ⟨[], [], []⟩).tok
                 else compactLine (State.mk 2 3 demoFin.symbols ["0000:0000\n"]).pc
                   (0xF000 ||| ((p0.pc >>> 1) &&& 0xFFF))] } :=
  forward_brl false [] [] demoSrc ((srcLines demoSrc).take 3)
    (((srcLines demoSrc).drop 4).take 2)
    ((srcLines demoSrc).drop 7) ((srcLines demoSrc).getD 3 ⟨[], [], []⟩)
    ((srcLines demoSrc).getD 6 ⟨[], [], []⟩)
    ((firstTok ((srcLines demoSrc).getD 3 ⟨[], [], []⟩)).getD ⟨[], [], []⟩)
    ((immTok ((srcLines demoSrc).getD 3 ⟨[], [], []⟩)).getD ⟨[], [], []⟩)
    ((firstTok ((srcLines demoSrc).getD 6 ⟨[], [], []⟩)).getD ⟨[], [], []⟩)
    "done".toList ⟨10, 8, demoFin.symbols, []⟩ ⟨2, 3, demoFin.symbols, ["0000:0000\n"]⟩
    (by decide) (by decide) (by decide) (by decide) (by decide) (by decide) (by decide)
    (by decide) (by decide) (by decide) (by decide)

/-! ## Bit fields -/

/-- OR of a value with zero low bits and a value that fits into them. -/
theorem or_eq_add (n y x : Nat) (hy : y % 2 ^ n = 0) (hx : x < 2 ^ n) : y ||| x = y + x := by
  have h := Nat.div_add_mod y (2 ^ n)
  rw [hy, Nat.add_zero] at h
  rw [← h]
  exact (Nat.mul_add_lt_is_or hx _).symm

/-- The assignment `opcode |= x` when `x` fills bits that are zero in `opcode`. -/
theorem or16_add (n y x : Nat) (hy : y % 2 ^ n = 0) (hx : x < 2 ^ n) (hlt : y + x < 65536) :
    or16 y x = y + x := by
  unfold or16
  rw [or_eq_add n y x hy hx]
  exact Nat.mod_eq_of_lt hlt

theorem and_0xF (x : Nat) : x &&& 0xF = x % 16 := Nat.and_pow_two_sub_one_eq_mod x 4

theorem and_0xFF (x : Nat) : x &&& 0xFF = x % 256 := Nat.and_pow_two_sub_one_eq_mod x 8

theorem and_0xFFF (x : Nat) : x &&& 0xFFF = x % 4096 := Nat.and_pow_two_sub_one_eq_mod x 12

theorem get_regFrom_lt (l : List (List Char)) (i : Nat) (reg : List Char) (s : Nat)
    (h : get_regFrom l i reg = some s) : s < i + l.length := by
  induction l generalizing i with
  | nil => simp [get_regFrom] at h
  | cons r rs ih =>
    simp only [get_regFrom] at h
    split at h
    · cases h
      simp
    · have := ih (i + 1) h
      simp only [List.length_cons]
      omega

/-- Register indices are below 16. -/
theorem get_reg_lt (reg : List Char) (s : Nat) (h : get_reg reg = some s) : s < 16 := by
  have := get_regFrom_lt regs 0 reg s h
  simpa [regs] using this

theorem get_reg_param_lt (save save1 : List Char) (s : Nat)
    (h : get_reg_param save = .ok (s, save1)) : s < 16 := by
  unfold get_reg_param at h
  split at h
  · exact absurd h (by simp)
  · split at h
    · exact absurd h (by simp)
    · rename_i par _ reg hr
      simp only [Except.ok.injEq, Prod.mk.injEq] at h
      rw [← h.1]
      exact get_reg_lt _ _ hr

theorem get_opcode_mem (tok : List Char) (d : tInstr) (h : get_opcode tok = some d) :
    d ∈ instrSet :=
  List.mem_of_find?_eq_some h

/-- The opcode bases of the table are 16 bit values whose operand bits are
zero: the low byte for the forms with opcode in bits 8-15, the low 12 bits
for the forms with opcode in bits 12-15. -/
theorem instrSet_opcode :
    ∀ d ∈ instrSet, d.opcode < 65536 ∧
      (d.form = FRM_OP_SO_RT ∨ d.form = FRM_OP_SO_RT_RD ∨ d.form = FRM_OP_SO_RT_IMM4 →
        d.opcode % 256 = 0) ∧
      (d.form = FRM_OP_RS_LIMM8 ∨ d.form = FRM_OP_RS_UIMM8 ∨ d.form = FRM_OP_RS_RT_RD ∨
        d.form = FRM_OP_IMM12 → d.opcode % 4096 = 0) := by
  decide

/-- Packing of a register into bits 4-7 and a 4 bit value into bits 0-3. -/
theorem pack_4_4 (B a x : Nat) (hB : B < 65536) (hB0 : B % 256 = 0) (ha : a < 16)
    (hx : x < 16) : or16 (or16 B (a <<< 4)) x = B + a * 16 + x := by
  rw [Nat.shiftLeft_eq]
  rw [or16_add 8 B (a * 2 ^ 4) hB0 (by omega) (by omega)]
  exact or16_add 4 _ x (by omega) hx (by omega)

/-- Packing of a register into bits 8-11 and an 8 bit value into bits 0-7. -/
theorem pack_8_8 (B s x : Nat) (hB : B < 65536) (hB0 : B % 4096 = 0) (hs : s < 16)
    (hx : x < 256) : or16 (or16 B (s <<< 8)) x = B + s * 256 + x := by
  rw [Nat.shiftLeft_eq]
  rw [or16_add 12 B (s * 2 ^ 8) hB0 (by omega) (by omega)]
  exact or16_add 8 _ x (by omega) hx (by omega)

/-- Packing of three registers into bits 8-11, 4-7 and 0-3. -/
theorem pack_8_4_4 (B a b c : Nat) (hB : B < 65536) (hB0 : B % 4096 = 0) (ha : a < 16)
    (hb : b < 16) (hc : c < 16) :
    or16 (or16 (or16 B (a <<< 8)) (b <<< 4)) c = B + a * 256 + b * 16 + c := by
  rw [Nat.shiftLeft_eq, Nat.shiftLeft_eq]
  rw [or16_add 12 B (a * 2 ^ 8) hB0 (by omega) (by omega)]
  rw [or16_add 8 _ (b * 2 ^ 4) (by omega) (by omega) (by omega)]
  exact or16_add 4 _ c (by omega) hc (by omega)

/-! ## Encoding -/

/-- C4: for a mnemonic of the form with a signed 8 bit immediate and opcode
base `B`, a line with that mnemonic, the register `r<s>` and a complete
numeral of value `v` is translated by pass 1 into the word
`B | (s << 8) | (v & 0xFF)` and printed with the counter; the source
`addi r0, 5` prints `0000:7005` in compact mode. -/
theorem limm8_encoding (list : Bool) (heap heap0 heap1 : List Char) (ln t t2 t3 : Tok)
    (d : tInstr) (s : Nat) (v : Int) (st : State)
    (ht : instrTok ln = some t) (hd : get_opcode t.tok = some d)
    (hf : d.form = FRM_OP_RS_LIMM8)
    (h2 : strtok_r delimTok t.save = some t2) (hs : get_reg t2.tok = some s)
    (h3 : strtok_r delimTok t2.save = some t3) (hv : strtol t3.tok = (v, [])) :
    processLine 1 list heap ln st =
      .ok { pc := (st.pc + 2) % 65536, line_nr := st.line_nr + 1, symbols := st.symbols,
            out := st.out ++
              [if list = true
               then listingLine st.pc (d.opcode ||| (s <<< 8) ||| (toU16 v &&& 0xFF)) ln.tok
               else compactLine st.pc (d.opcode ||| (s <<< 8) ||| (toU16 v &&& 0xFF))] } ∧
    main false heap0 heap1 "addi r0, 5\n".toList = .ok ⟨2, 1, [], ["0000:7005\n"]⟩ := by
  refine ⟨?_, main_closed false _ _ (by decide) (by decide)⟩
  have hB := (instrSet_opcode d (get_opcode_mem _ _ hd)).1
  have hs16 := get_reg_lt _ _ hs
  have hsh : s <<< 8 < 65536 := by rw [Nat.shiftLeft_eq]; omega
  have hx : toU16 v &&& 0xFF < 65536 :=
    Nat.lt_trans (Nat.and_lt_two_pow (n := 8) _ (by decide)) (by decide)
  have henc : encode 1 st.symbols d.opcode d.form t.save =
      .ok (d.opcode ||| (s <<< 8) ||| (toU16 v &&& 0xFF)) := by
    rw [← or16_eq _ _ hB hsh, ← or16_eq _ _ (by
      rw [or16_eq _ _ hB hsh]
      exact Nat.or_lt_two_pow (n := 16) hB hsh) hx]
    simp [encode, hf, FRM_OP_IMM12, FRM_OP_SO_RT, FRM_OP_SO_RT_RD, FRM_OP_SO_RT_IMM4,
      FRM_OP_RS_LIMM8, FRM_OP_RS_UIMM8, FRM_OP_RS_RT_RD, get_reg_param, get_imm_param,
      h2, hs, h3, hv]
  rw [processLine_instr 1 list ln t st ht]
  unfold doInstr
  simp only [hd, henc]
  cases list <;> simp

/-- Instance of C4 on the line `addi r0, 0x1FF`: the word is `0x70FF`. -/
theorem limm8_encoding_witness :
    processLine 1 false [] wideLine ⟨0, 0, [], []⟩ =
      .ok { pc := (0 + 2) % 65536, line_nr := 0 + 1, symbols := [],
            out := [] ++
              [if false = true
               then listingLine 0 (0x7000 ||| (0 <<< 8) ||| (toU16 511 &&& 0xFF)) wideLine.tok
               else compactLine 0 (0x7000 ||| (0 <<< 8) ||| (toU16 511 &&& 0xFF))] } ∧
    main false [] [] "addi r0, 5\n".toList = .ok ⟨2, 1, [], ["0000:7005\n"]⟩ :=
  limm8_encoding false [] [] [] wideLine ((instrTok wideLine).getD ⟨[], [], []⟩)
    ((strtok_r delimTok ((instrTok wideLine).getD ⟨[], [], []⟩).save).getD ⟨[], [], []⟩)
    ((immTok wideLine).getD ⟨[], [], []⟩)
    ⟨"addi".toList, 0x7000, FRM_OP_RS_LIMM8⟩ 0 511 ⟨0, 0, [], []⟩
    (by decide) (by decide) (by decide) (by decide) (by decide) (by decide) (by decide)

/-- C8: for every descriptor of the table and all operand values delivered
by the operand parsers, encoding succeeds and the bit fields of the word
hold the operands cut to the field width: register indices exactly, a
4 bit immediate `v` as `v & 0xF`, an 8 bit immediate as `v & 0xFF`, the
upper-byte immediate as `(v >> 8) & 0xFF`, the 12 bit immediate as
`(v >> 1) & 0xFFF`. -/
theorem encode_decode (pass : Nat) (symbols : List tSymbol) (d : tInstr) (save : List Char)
    (hd : d ∈ instrSet) :
    (d.form = FRM_OP_NOTHING → encode pass symbols d.opcode d.form save = .ok d.opcode) ∧
    (d.form = FRM_OP_SO_RT → ∀ a s1, get_reg_param save = .ok (a, s1) →
      ∃ w, encode pass symbols d.opcode d.form save = .ok w ∧ (w >>> 4) &&& 0xF = a) ∧
    (d.form = FRM_OP_SO_RT_RD → ∀ a s1 b s2, get_reg_param save = .ok (a, s1) →
      get_reg_param s1 = .ok (b, s2) →
      ∃ w, encode pass symbols d.opcode d.form save = .ok w ∧
        (w >>> 4) &&& 0xF = a ∧ w &&& 0xF = b) ∧
    (d.form = FRM_OP_SO_RT_IMM4 → ∀ a s1 v s2, get_reg_param save = .ok (a, s1) →
      get_imm_param pass symbols s1 = .ok (v, s2) →
      ∃ w, encode pass symbols d.opcode d.form save = .ok w ∧
        (w >>> 4) &&& 0xF = a ∧ w &&& 0xF = v &&& 0xF) ∧
    (d.form = FRM_OP_RS_LIMM8 → ∀ a s1 v s2, get_reg_param save = .ok (a, s1) →
      get_imm_param pass symbols s1 = .ok (v, s2) →
      ∃ w, encode pass symbols d.opcode d.form save = .ok w ∧
        (w >>> 8) &&& 0xF = a ∧ w &&& 0xFF = v &&& 0xFF) ∧
    (d.form = FRM_OP_RS_UIMM8 → ∀ a s1 v s2, get_reg_param save = .ok (a, s1) →
      get_imm_param pass symbols s1 = .ok (v, s2) →
      ∃ w, encode pass symbols d.opcode d.form save = .ok w ∧
        (w >>> 8) &&& 0xF = a ∧ w &&& 0xFF = (v >>> 8) &&& 0xFF) ∧
    (d.form = FRM_OP_RS_RT_RD → ∀ a s1 b s2 c s3, get_reg_param save = .ok (a, s1) →
      get_reg_param s1 = .ok (b, s2) → get_reg_param s2 = .ok (c, s3) →
      ∃ w, encode pass symbols d.opcode d.form save = .ok w ∧
        (w >>> 8) &&& 0xF = a ∧ (w >>> 4) &&& 0xF = b ∧ w &&& 0xF = c) ∧
    (d.form = FRM_OP_IMM12 → ∀ v s1, get_imm_param pass symbols save = .ok (v, s1) →
      ∃ w, encode pass symbols d.opcode d.form save = .ok w ∧
        w &&& 0xFFF = (v >>> 1) &&& 0xFFF) := by
  obtain ⟨hB, hB8, hB12⟩ := instrSet_opcode d hd
  refine ⟨?_, ?_, ?_, ?_, ?_, ?_, ?_, ?_⟩
  · intro hf
    simp [encode, hf, FRM_OP_NOTHING, FRM_OP_IMM12, FRM_OP_SO_RT, FRM_OP_SO_RT_RD,
      FRM_OP_SO_RT_IMM4, FRM_OP_RS_LIMM8, FRM_OP_RS_UIMM8, FRM_OP_RS_RT_RD]
  · intro hf a s1 h1
    have ha := get_reg_param_lt _ _ _ h1
    have hB0 := hB8 (Or.inl hf)
    have e : encode pass symbols d.opcode d.form save = .ok (or16 d.opcode (a <<< 4)) := by
      simp [encode, hf, FRM_OP_SO_RT, h1]
    refine ⟨_, e, ?_⟩
    rw [Nat.shiftLeft_eq, or16_add 8 d.opcode (a * 2 ^ 4) hB0 (by omega) (by omega),
      Nat.shiftRight_eq_div_pow, and_0xF]
    omega
  · intro hf a s1 b s2 h1 h2
    have ha := get_reg_param_lt _ _ _ h1
    have hb := get_reg_param_lt _ _ _ h2
    have hB0 := hB8 (Or.inr (Or.inl hf))
    have e : encode pass symbols d.opcode d.form save =
        .ok (or16 (or16 d.opcode (a <<< 4)) b) := by
      simp [encode, hf, FRM_OP_SO_RT, FRM_OP_SO_RT_RD, h1, h2]
    refine ⟨_, e, ?_⟩
    rw [pack_4_4 _ _ _ hB hB0 ha hb, Nat.shiftRight_eq_div_pow, and_0xF, and_0xF]
    omega
  · intro hf a s1 v s2 h1 h2
    have ha := get_reg_param_lt _ _ _ h1
    have hB0 := hB8 (Or.inr (Or.inr hf))
    have e : encode pass symbols d.opcode d.form save =
        .ok (or16 (or16 d.opcode (a <<< 4)) (v &&& 0xF)) := by
      simp [encode, hf, FRM_OP_SO_RT, FRM_OP_SO_RT_RD, FRM_OP_SO_RT_IMM4, h1, h2]
    refine ⟨_, e, ?_⟩
    rw [and_0xF v, pack_4_4 _ _ _ hB hB0 ha (by omega), Nat.shiftRight_eq_div_pow, and_0xF,
      and_0xF]
    omega
  · intro hf a s1 v s2 h1 h2
    have ha := get_reg_param_lt _ _ _ h1
    have hB0 := hB12 (Or.inl hf)
    have e : encode pass symbols d.opcode d.form save =
        .ok (or16 (or16 d.opcode (a <<< 8)) (v &&& 0xFF)) := by
      simp [encode, hf, FRM_OP_SO_RT, FRM_OP_SO_RT_RD, FRM_OP_SO_RT_IMM4, FRM_OP_RS_LIMM8,
        h1, h2]
    refine ⟨_, e, ?_⟩
    rw [and_0xFF v, pack_8_8 _ _ _ hB hB0 ha (by omega), Nat.shiftRight_eq_div_pow, and_0xF,
      and_0xFF]
    omega
  · intro hf a s1 v s2 h1 h2
    have ha := get_reg_param_lt _ _ _ h1
    have hB0 := hB12 (Or.inr (Or.inl hf))
    have e : encode pass symbols d.opcode d.form save =
        .ok (or16 (or16 d.opcode (a <<< 8)) ((v >>> 8) &&& 0xFF)) := by
      simp [encode, hf, FRM_OP_SO_RT, FRM_OP_SO_RT_RD, FRM_OP_SO_RT_IMM4, FRM_OP_RS_LIMM8,
        FRM_OP_RS_UIMM8, h1, h2]
    refine ⟨_, e, ?_⟩
    rw [and_0xFF (v >>> 8), pack_8_8 _ _ _ hB hB0 ha (by omega), Nat.shiftRight_eq_div_pow,
      and_0xF, and_0xFF]
    omega
  · intro hf a s1 b s2 c s3 h1 h2 h3
    have ha := get_reg_param_lt _ _ _ h1
    have hb := get_reg_param_lt _ _ _ h2
    have hc := get_reg_param_lt _ _ _ h3
    have hB0 := hB12 (Or.inr (Or.inr (Or.inl hf)))
    have e : encode pass symbols d.opcode d.form save =
        .ok (or16 (or16 (or16 d.opcode (a <<< 8)) (b <<< 4)) c) := by
      simp [encode, hf, FRM_OP_SO_RT, FRM_OP_SO_RT_RD, FRM_OP_SO_RT_IMM4, FRM_OP_RS_LIMM8,
        FRM_OP_RS_UIMM8, FRM_OP_RS_RT_RD, h1, h2, h3]
    refine ⟨_, e, ?_⟩
    rw [pack_8_4_4 _ _ _ _ hB hB0 ha hb hc, Nat.shiftRight_eq_div_pow,
      Nat.shiftRight_eq_div_pow, and_0xF, and_0xF, and_0xF]
    omega
  · intro hf v s1 h1
    have hB0 := hB12 (Or.inr (Or.inr (Or.inr hf)))
    have e : encode pass symbols d.opcode d.form save =
        .ok (or16 d.opcode ((v >>> 1) &&& 0xFFF)) := by
      simp [encode, hf, FRM_OP_SO_RT, FRM_OP_SO_RT_RD, FRM_OP_SO_RT_IMM4, FRM_OP_RS_LIMM8,
        FRM_OP_RS_UIMM8, FRM_OP_RS_RT_RD, FRM_OP_IMM12, h1]
    refine ⟨_, e, ?_⟩
    rw [and_0xFFF (v >>> 1), or16_add 12 d.opcode _ hB0 (by omega) (by omega), and_0xFFF]
    omega

/-- Instance of C8: the operands `r0, 0x1FF` of `addi` in pass 1; the word
is `0x70FF`, its immediate field `0xFF`. -/
theorem encode_decode_witness :
    (∃ w, encode 1 [] 0x7000 FRM_OP_RS_LIMM8 ((instrTok wideLine).getD ⟨[], [], []⟩).save
        = .ok w ∧ (w >>> 8) &&& 0xF = 0 ∧ w &&& 0xFF = 0x1FF &&& 0xFF) ∧
    encode 1 [] 0x7000 FRM_OP_RS_LIMM8 ((instrTok wideLine).getD ⟨[], [], []⟩).save
      = .ok 0x70FF :=
  ⟨(encode_decode 1 [] ⟨"addi".toList, 0x7000, FRM_OP_RS_LIMM8⟩
      ((instrTok wideLine).getD ⟨[], [], []⟩).save (by decide)).2.2.2.2.1 rfl 0
      ((strtok_r delimTok ((instrTok wideLine).getD ⟨[], [], []⟩).save).getD ⟨[], [], []⟩).save
      0x1FF ((immTok wideLine).getD ⟨[], [], []⟩).save (by decide) (by decide),
   by decide⟩

/-! ## A single two-register line -/

theorem takeWhile_dropWhile_append (p : Char → Bool) (l r : List Char) (d : Char)
    (hl : ∀ c ∈ l, p c = true) (hd : p d = false) :
    (l ++ d :: r).takeWhile p = l ∧ (l ++ d :: r).dropWhile p = d :: r := by
  induction l with
  | nil => simp [List.takeWhile, List.dropWhile, hd]
  | cons c cs ih =>
    have hc : p c = true := hl c (List.mem_cons_self _ _)
    have := ih (fun x hx => hl x (List.mem_cons_of_mem _ hx))
    simp [List.takeWhile, List.dropWhile, hc, this.1, this.2]

/-- A token that is followed by a delimiter: the delimiter is overwritten
and the save pointer moves behind it. -/
theorem strtok_r_token (delim tok rest : List Char) (d : Char) (hne : tok ≠ [])
    (ht : ∀ c ∈ tok, isTokChar delim c = true) (hd : d ∈ delim) (hd0 : d ≠ NUL) :
    strtok_r delim (tok ++ d :: rest) = some ⟨tok, rest, rest⟩ := by
  cases tok with
  | nil => exact absurd rfl hne
  | cons c cs =>
    have hc : isTokChar delim c = true := ht c (List.mem_cons_self _ _)
    have hcn : c ≠ NUL := by
      intro e
      simp [isTokChar, e] at hc
    have hcd : isDelim delim c = false := by
      simp only [isTokChar, Bool.and_eq_true, decide_eq_true_eq] at hc
      simp [isDelim, hc.2]
    have hdt : isTokChar delim d = false := by simp [isTokChar, hd]
    obtain ⟨e1, e2⟩ := takeWhile_dropWhile_append (isTokChar delim) (c :: cs) rest d ht hdt
    unfold strtok_r
    rw [show (c :: cs ++ d :: rest) = c :: (cs ++ d :: rest) from rfl] at e1 e2 ⊢
    rw [List.dropWhile_cons, hcd]
    simp only [Bool.false_eq_true, if_false, if_neg hcn, e1, e2, if_neg hd0]

/-- A token at the end of the string: the save pointer stays on the NUL. -/
theorem strtok_r_token_end (delim tok rest : List Char) (hne : tok ≠ [])
    (ht : ∀ c ∈ tok, isTokChar delim c = true) :
    strtok_r delim (tok ++ NUL :: rest) = some ⟨tok, rest, NUL :: rest⟩ := by
  cases tok with
  | nil => exact absurd rfl hne
  | cons c cs =>
    have hc : isTokChar delim c = true := ht c (List.mem_cons_self _ _)
    have hcn : c ≠ NUL := by
      intro e
      simp [isTokChar, e] at hc
    have hcd : isDelim delim c = false := by
      simp only [isTokChar, Bool.and_eq_true, decide_eq_true_eq] at hc
      simp [isDelim, hc.2]
    have hdt : isTokChar delim NUL = false := by simp [isTokChar]
    obtain ⟨e1, e2⟩ := takeWhile_dropWhile_append (isTokChar delim) (c :: cs) rest NUL ht hdt
    unfold strtok_r
    rw [show (c :: cs ++ NUL :: rest) = c :: (cs ++ NUL :: rest) from rfl] at e1 e2 ⊢
    rw [List.dropWhile_cons, hcd]
    simp only [Bool.false_eq_true, if_false, if_neg hcn, e1, e2, if_true]

theorem cutComment_of_not_mem (l : List Char) (h : ';' ∉ l) : cutComment l = l := by
  induction l with
  | nil => rfl
  | cons c cs ih =>
    have hc : c ≠ ';' := fun e => h (by simp [e])
    simp only [cutComment, hc, false_and, if_false]
    rw [ih (fun e => h (List.mem_cons_of_mem _ e))]

theorem strdup_of_not_mem (l : List Char) (h : NUL ∉ l) : strdup l = l := by
  unfold strdup
  rw [List.takeWhile_eq_self_iff]
  intro x hx
  simp only [ne_eq, decide_eq_true_eq]
  intro e
  exact h (e ▸ hx)

/-- A source that is one line ended by a newline is seen by the line
scanner as that line, followed in memory by the final NUL. -/
theorem srcLines_single (line : List Char) (hne : line ≠ [])
    (hl : ∀ c ∈ line, c ≠ NUL ∧ c ≠ '\n') :
    srcLines (line ++ ['\n']) = [⟨line, [NUL], [NUL]⟩] := by
  have hnul : NUL ∉ line ++ ['\n'] := by
    intro h
    rcases List.mem_append.mp h with h1 | h1
    · exact (hl _ h1).1 rfl
    · simp [NUL] at h1
  unfold srcLines
  rw [strdup_of_not_mem _ hnul, strtokAll_eq]
  have ht : ∀ c ∈ line, isTokChar delimLine c = true := by
    intro c hc
    simp [isTokChar, delimLine, (hl c hc).1, (hl c hc).2]
  have := strtok_r_token delimLine line [NUL] '\n' hne ht (by simp [delimLine]) (by decide)
  rw [show line ++ ['\n'] ++ [NUL] = line ++ '\n' :: [NUL] by simp, this]
  simp only [List.cons.injEq, true_and]
  rw [strtokAll_eq]
  decide

theorem instrTok_of_firstTok (ln t : Tok) (h : firstTok ln = some t)
    (h1 : t.tok.getLast? ≠ some ':') (h2 : t.tok.head? ≠ some '.')
    (h3 : t.tok.head? ≠ some '$') (h4 : t.tok.head? ≠ some '@') : instrTok ln = some t := by
  unfold instrTok
  rw [h]
  simp only [h1, h2, h3, h4, if_false]

/-- A line with a mnemonic of the two-register form and two register names:
pass 0 only advances the counter, a later pass also prints the word
`B | (a << 4) | b`. -/
theorem two_reg_encoding (pass : Nat) (list : Bool) (ln t t2 t3 : Tok) (d : tInstr)
    (a b : Nat) (st : State)
    (ht : instrTok ln = some t) (hd : get_opcode t.tok = some d)
    (hf : d.form = FRM_OP_SO_RT_RD)
    (h2 : strtok_r delimTok t.save = some t2) (ha : get_reg t2.tok = some a)
    (h3 : strtok_r delimTok t2.save = some t3) (hb : get_reg t3.tok = some b) :
    processLine pass list heap ln st =
      .ok { pc := (st.pc + 2) % 65536, line_nr := st.line_nr + 1, symbols := st.symbols,
            out := if pass ≠ 0 then
                     st.out ++
                       [if list = true
                        then listingLine st.pc (d.opcode ||| (a <<< 4) ||| b) ln.tok
                        else compactLine st.pc (d.opcode ||| (a <<< 4) ||| b)]
                   else st.out } := by
  have hB := (instrSet_opcode d (get_opcode_mem _ _ hd)).1
  have ha16 := get_reg_lt _ _ ha
  have hb16 := get_reg_lt _ _ hb
  have hsh : a <<< 4 < 65536 := by rw [Nat.shiftLeft_eq]; omega
  have henc : encode pass st.symbols d.opcode d.form t.save =
      .ok (d.opcode ||| (a <<< 4) ||| b) := by
    rw [← or16_eq _ _ hB hsh, ← or16_eq _ _ (by
      rw [or16_eq _ _ hB hsh]
      exact Nat.or_lt_two_pow (n := 16) hB hsh) (by omega)]
    simp [encode, hf, FRM_OP_SO_RT, FRM_OP_SO_RT_RD, get_reg_param, h2, ha, h3, hb]
  rw [processLine_instr pass list ln t st ht]
  unfold doInstr
  simp only [hd, henc]
  by_cases hp : pass = 0
  · simp [hp]
  · cases list <;> simp [hp]

/-- The mnemonics of the table are tokens that start an instruction line. -/
theorem instrSet_tokens :
    ∀ d ∈ instrSet, d.instr ≠ [] ∧ get_opcode d.instr = some d ∧
      d.instr.getLast? ≠ some ':' ∧ d.instr.head? ≠ some '.' ∧ d.instr.head? ≠ some '$' ∧
      d.instr.head? ≠ some '@' ∧
      ∀ c ∈ d.instr, isTokChar delimTok c = true ∧ c ≠ ';' := by
  decide

/-- The register names are tokens, and `get_reg` inverts `regName`. -/
theorem regName_tokens :
    ∀ a, a < 16 → regName a ≠ [] ∧ get_reg (regName a) = some a ∧
      ∀ c ∈ regName a, isTokChar delimTok c = true ∧ c ≠ ';' := by
  decide

theorem isTokChar_delimTok (c : Char) (h : isTokChar delimTok c = true) :
    c ≠ NUL ∧ c ≠ '\n' := by
  simp only [isTokChar, delimTok, Bool.and_eq_true, decide_eq_true_eq] at h
  refine ⟨h.1, ?_⟩
  intro e
  exact h.2 (by simp [e])

/-- C3: for each mnemonic of the two-register form with opcode base `B` and
all registers `r<a>`, `r<b>`, the source that is the line
`<mnemonic> r<a> r<b>` is translated in compact mode into the single
output line `0000:WWWW` with the word `B | (a << 4) | b`. -/
theorem two_reg_line (heap0 heap1 : List Char) (d : tInstr) (a b : Nat) (hd : d ∈ instrSet)
    (hf : d.form = FRM_OP_SO_RT_RD) (ha : a < 16) (hb : b < 16) :
    main false heap0 heap1 (twoRegSrc d.instr a b) =
      .ok ⟨2, 1, [], [compactLine 0 (d.opcode ||| (a <<< 4) ||| b)]⟩ := by
  obtain ⟨m1, m2, m3, m4, m5, m6, m7⟩ := instrSet_tokens d hd
  obtain ⟨a1, a2, a3⟩ := regName_tokens a ha
  obtain ⟨b1, b2, b3⟩ := regName_tokens b hb
  have hline : ∀ c ∈ d.instr ++ ' ' :: regName a ++ ' ' :: regName b,
      c ≠ NUL ∧ c ≠ '\n' ∧ c ≠ ';' := by
    intro c hc
    simp only [List.mem_append, List.mem_cons] at hc
    rcases hc with (hc | hc | hc) | hc | hc
    · exact ⟨(isTokChar_delimTok c (m7 c hc).1).1, (isTokChar_delimTok c (m7 c hc).1).2,
        (m7 c hc).2⟩
    · subst hc; decide
    · exact ⟨(isTokChar_delimTok c (a3 c hc).1).1, (isTokChar_delimTok c (a3 c hc).1).2,
        (a3 c hc).2⟩
    · subst hc; decide
    · exact ⟨(isTokChar_delimTok c (b3 c hc).1).1, (isTokChar_delimTok c (b3 c hc).1).2,
        (b3 c hc).2⟩
  have hsrc : srcLines (twoRegSrc d.instr a b) =
      [⟨d.instr ++ ' ' :: regName a ++ ' ' :: regName b, [NUL], [NUL]⟩] := by
    unfold twoRegSrc
    rw [show d.instr ++ ' ' :: regName a ++ ' ' :: regName b ++ ['\n'] =
      (d.instr ++ ' ' :: regName a ++ ' ' :: regName b) ++ ['\n'] by simp]
    exact srcLines_single _ (by simp) (fun c hc => ⟨(hline c hc).1, (hline c hc).2.1⟩)
  have hmem : lineMem ⟨d.instr ++ ' ' :: regName a ++ ' ' :: regName b, [NUL], [NUL]⟩ =
      d.instr ++ ' ' :: (regName a ++ ' ' :: (regName b ++ NUL :: [NUL])) := by
    unfold lineMem
    rw [cutComment_of_not_mem _ (fun h => (hline _ h).2.2 rfl)]
    simp
  have t1 : firstTok ⟨d.instr ++ ' ' :: regName a ++ ' ' :: regName b, [NUL], [NUL]⟩ =
      some ⟨d.instr, regName a ++ ' ' :: (regName b ++ NUL :: [NUL]),
        regName a ++ ' ' :: (regName b ++ NUL :: [NUL])⟩ := by
    unfold firstTok
    rw [hmem]
    exact strtok_r_token delimTok _ _ ' ' m1 (fun c hc => (m7 c hc).1) (by decide) (by decide)
  have t2 : strtok_r delimTok (regName a ++ ' ' :: (regName b ++ NUL :: [NUL])) =
      some ⟨regName a, regName b ++ NUL :: [NUL], regName b ++ NUL :: [NUL]⟩ :=
    strtok_r_token delimTok _ _ ' ' a1 (fun c hc => (a3 c hc).1) (by decide) (by decide)
  have t3 : strtok_r delimTok (regName b ++ NUL :: [NUL]) =
      some ⟨regName b, [NUL], NUL :: [NUL]⟩ :=
    strtok_r_token_end delimTok _ _ b1 (fun c hc => (b3 c hc).1)
  have hit := instrTok_of_firstTok _ _ t1 m3 m4 m5 m6
  have step := fun hp pass st =>
    @two_reg_encoding hp pass false _ _ _ _ d a b st hit m2 hf t2 a2 t3 b2
  unfold main runPass
  rw [hsrc]
  simp only [runLines, step]
  rfl

/-- Instance of C3: `mov r1 r2` prints `0000:0312`. -/
theorem two_reg_line_witness :
    main false [] [] "mov r1 r2\n".toList = .ok ⟨2, 1, [], ["0000:0312\n"]⟩ :=
  two_reg_line [] [] ⟨"mov".toList, 0x0300, FRM_OP_SO_RT_RD⟩ 1 2 (by decide) rfl (by decide)
    (by decide)

/-! ## Numerals -/

theorem digitsValue_all (base : Nat) (ds : List Char) (acc : Nat)
    (h : ∀ c ∈ ds, ∃ d, digitOf c = some d ∧ d < base) :
    digitsValue base ds acc =
      (ds.foldl (fun a c => a * base + (digitOf c).getD 0) acc, []) := by
  induction ds generalizing acc with
  | nil => rfl
  | cons c cs ih =>
    obtain ⟨d, hd, hlt⟩ := h c (List.mem_cons_self _ _)
    simp only [digitsValue, hd, hlt, if_true, List.foldl_cons, Option.getD_some]
    exact ih _ (fun x hx => h x (List.mem_cons_of_mem _ hx))

theorem digitOf_dec (c : Char) (h : isDecDigit c = true) : digitOf c = some (c.toNat - 48) := by
  simp only [isDecDigit, Bool.and_eq_true, decide_eq_true_eq] at h
  simp [digitOf, h.1, h.2]

theorem decimalValue_eq (tok : List Char) (h : ∀ c ∈ tok, isDecDigit c = true) (acc : Nat) :
    tok.foldl (fun a c => a * 10 + (digitOf c).getD 0) acc =
      tok.foldl (fun a c => a * 10 + (c.toNat - 48)) acc := by
  induction tok generalizing acc with
  | nil => rfl
  | cons c cs ih =>
    simp only [List.foldl_cons, digitOf_dec c (h c (List.mem_cons_self _ _)), Option.getD_some]
    exact ih (fun x hx => h x (List.mem_cons_of_mem _ hx)) _

theorem toU16_natCast (n : Nat) : toU16 (n : Int) = n % 65536 := by
  unfold toU16
  omega

theorem clampLong_pos (m : Nat) (h : m ≤ LONG_MAX) : clampLong false m = (m : Int) := by
  unfold clampLong
  simp only [Bool.false_eq_true, if_false]
  rw [if_neg (by omega)]

theorem isspace_of_dec (c : Char) (h : isDecDigit c = true) : isspace c = false := by
  simp only [isDecDigit, Bool.and_eq_true, decide_eq_true_eq] at h
  simp only [isspace, Bool.or_eq_false_iff, decide_eq_false_iff_not, Bool.and_eq_false_iff]
  omega

theorem takeSign_of_dec (c : Char) (r : List Char) (h : isDecDigit c = true) :
    takeSign (c :: r) = (false, c :: r) := by
  have h1 : c ≠ '-' := by
    intro e
    subst e
    exact absurd h (by decide)
  have h2 : c ≠ '+' := by
    intro e
    subst e
    exact absurd h (by decide)
  simp [takeSign, h1, h2]

/-- A string of decimal digits that does not start with `0` is read in base
ten. -/
theorem strtol_decimal (tok : List Char) (hne : tok ≠ [])
    (hd : ∀ c ∈ tok, isDecDigit c = true) (h0 : tok.head? ≠ some '0')
    (hmax : decimalValue tok ≤ LONG_MAX) :
    strtol tok = ((decimalValue tok : Int), []) := by
  cases tok with
  | nil => exact absurd rfl hne
  | cons c r =>
    have hc := hd c (List.mem_cons_self _ _)
    have hc0 : c ≠ '0' := by
      intro e
      exact h0 (by simp [e])
    have hdig := digitOf_dec c hc
    have hlt : c.toNat - 48 < 10 := by
      simp only [isDecDigit, Bool.and_eq_true, decide_eq_true_eq] at hc
      omega
    have hrest : ∀ x ∈ r, ∃ d, digitOf x = some d ∧ d < 10 := by
      intro x hx
      have hx1 := hd x (List.mem_cons_of_mem _ hx)
      refine ⟨x.toNat - 48, digitOf_dec x hx1, ?_⟩
      simp only [isDecDigit, Bool.and_eq_true, decide_eq_true_eq] at hx1
      omega
    have hval : decimalValue (c :: r) =
        r.foldl (fun a x => a * 10 + (digitOf x).getD 0) (c.toNat - 48) := by
      unfold decimalValue
      rw [decimalValue_eq r (fun x hx => hd x (List.mem_cons_of_mem _ hx))]
      simp
    unfold strtol
    rw [List.dropWhile_cons, isspace_of_dec c hc]
    simp only [Bool.false_eq_true, if_false, takeSign_of_dec c r hc, if_neg hc0, hdig, hlt,
      if_true, digitsValue_all 10 r _ hrest]
    rw [← hval, clampLong_pos _ hmax]

/-- `0x` or `0X` followed by hexadecimal digits is read in base sixteen. -/
theorem strtol_hex (x : Char) (ds : List Char) (hx : x = 'x' ∨ x = 'X') (hne : ds ≠ [])
    (hd : ∀ c ∈ ds, isHexDigit c = true) (hmax : valueIn 16 ds ≤ LONG_MAX) :
    strtol ('0' :: x :: ds) = ((valueIn 16 ds : Int), []) := by
  cases ds with
  | nil => exact absurd rfl hne
  | cons h t =>
    have hh := hd h (List.mem_cons_self _ _)
    have hall : ∀ c ∈ h :: t, ∃ d, digitOf c = some d ∧ d < 16 := by
      intro c hc
      have := hd c hc
      unfold isHexDigit at this
      cases hdc : digitOf c with
      | none => simp [hdc] at this
      | some d =>
        simp only [hdc, decide_eq_true_eq] at this
        exact ⟨d, rfl, this⟩
    unfold strtol
    have e1 : List.dropWhile isspace ('0' :: x :: h :: t) = '0' :: x :: h :: t := by
      rw [List.dropWhile_cons]
      simp [show isspace '0' = false by decide]
    have e2 : takeSign ('0' :: x :: h :: t) = (false, '0' :: x :: h :: t) := by
      simp [takeSign]
    simp only [e1, e2, if_true, hx, hh, and_self, digitsValue_all 16 (h :: t) 0 hall]
    unfold valueIn at hmax ⊢
    rw [clampLong_pos _ hmax]

/-- A leading `0` followed by octal digits is read in base eight. -/
theorem strtol_octal (ds : List Char) (hd : ∀ c ∈ ds, isOctDigit c = true)
    (hmax : valueIn 8 ds ≤ LONG_MAX) :
    strtol ('0' :: ds) = ((valueIn 8 ds : Int), []) := by
  have hall : ∀ c ∈ ds, ∃ d, digitOf c = some d ∧ d < 8 := by
    intro c hc
    have := hd c hc
    simp only [isOctDigit, Bool.and_eq_true, decide_eq_true_eq] at this
    refine ⟨c.toNat - 48, by simp [digitOf, this.1]; omega, by omega⟩
  unfold strtol
  have e1 : List.dropWhile isspace ('0' :: ds) = '0' :: ds := by
    rw [List.dropWhile_cons]
    simp [show isspace '0' = false by decide]
  have e2 : takeSign ('0' :: ds) = (false, '0' :: ds) := by
    simp [takeSign]
  simp only [e1, e2, if_true]
  have hres : digitsValue 8 ds 0 = (valueIn 8 ds, []) := digitsValue_all 8 ds 0 hall
  have hfin : (clampLong false (digitsValue 8 ds 0).1, (digitsValue 8 ds 0).2) =
      ((valueIn 8 ds : Int), []) := by
    rw [hres, clampLong_pos _ hmax]
  split
  · rename_i x h t
    have hxo := hd x (List.mem_cons_self _ _)
    have hnx : ¬ ((x = 'x' ∨ x = 'X') ∧ isHexDigit h = true) := by
      rintro ⟨hx | hx, _⟩ <;> (subst hx; exact absurd hxo (by decide))
    rw [if_neg hnx]
    exact hfin
  · exact hfin
/-- C11 fails as stated: a numeral with a leading zero is read in base eight,
so the immediate `010` is eight, not ten.  The program has no data
directive, so nothing behind the buffer is read (`main_closed`). -/
theorem leading_zero_is_octal :
    strtol "010".toList = (8, []) ∧
    main false [] [] "addi r0, 010\n".toList = .ok ⟨2, 1, [], ["0000:7008\n"]⟩ := by
  decide

/-- C11, as amended: a token of decimal digits that does not start with `0`
and whose value fits a `long` is read as its decimal value modulo 2^16; a
token `0x`/`0X` followed by hexadecimal digits whose value fits a `long` is
read as its hexadecimal value modulo 2^16; a token that starts with `0`
followed by octal digits is read in base eight.  The immediate, constant,
data and origin positions all take the value of `strtol` converted to
16 bits. -/
theorem numeral_values :
    (∀ tok : List Char, tok ≠ [] → (∀ c ∈ tok, isDecDigit c = true) →
      tok.head? ≠ some '0' → decimalValue tok ≤ LONG_MAX →
      strtol tok = ((decimalValue tok : Int), []) ∧
      toU16 (strtol tok).1 = decimalValue tok % 65536) ∧
    (∀ (x : Char) (ds : List Char), (x = 'x' ∨ x = 'X') → ds ≠ [] →
      (∀ c ∈ ds, isHexDigit c = true) → valueIn 16 ds ≤ LONG_MAX →
      strtol ('0' :: x :: ds) = ((valueIn 16 ds : Int), []) ∧
      toU16 (strtol ('0' :: x :: ds)).1 = valueIn 16 ds % 65536) ∧
    (∀ ds : List Char, (∀ c ∈ ds, isOctDigit c = true) → valueIn 8 ds ≤ LONG_MAX →
      strtol ('0' :: ds) = ((valueIn 8 ds : Int), []) ∧
      toU16 (strtol ('0' :: ds)).1 = valueIn 8 ds % 65536) ∧
    (∀ (symbols : List tSymbol) (save : List Char) (par : Tok),
      strtok_r delimTok save = some par → (strtol par.tok).2 = [] →
      get_imm_param 1 symbols save = .ok (toU16 (strtol par.tok).1, par.save)) ∧
    (∀ (pass : Nat) (list : Bool) (t par : Tok) (st : State),
      strtok_r delimTok t.save = some par → (strtol par.tok).2 = [] →
      find_symbol st.symbols t.tok.tail = none →
      ∃ st1, doConst pass list t st = .ok st1 ∧
        st1.symbols = st.symbols ++ [⟨t.tok.tail, toU16 (strtol par.tok).1⟩]) ∧
    (∀ (heap : List Char) (par : Tok) (st : State) (c : Char) (cs : List Char),
      par.tok.dropWhile (fun x => decide (x = ' ')) = c :: cs → c ≠ '"' →
      (strtol (c :: cs)).2 = [] →
      dataItem 1 true heap par st =
        .ok { st with
              out := st.out ++ [dataValLine st.pc (toU16 (strtol (c :: cs)).1) (c :: cs)]
              pc := (st.pc + 2) % 65536 }) ∧
    (∀ (t : Tok) (st : State), (strtol t.tok.tail).2 = [] →
      doOrigin t st = .ok { st with pc := toU16 (strtol t.tok.tail).1 }) := by
  refine ⟨?_, ?_, ?_, ?_, ?_, ?_, ?_⟩
  · intro tok hne hd h0 hmax
    have := strtol_decimal tok hne hd h0 hmax
    rw [this]
    exact ⟨rfl, toU16_natCast _⟩
  · intro x ds hx hne hd hmax
    have := strtol_hex x ds hx hne hd hmax
    rw [this]
    exact ⟨rfl, toU16_natCast _⟩
  · intro ds hd hmax
    have := strtol_octal ds hd hmax
    rw [this]
    exact ⟨rfl, toU16_natCast _⟩
  · intro symbols save par hp hc
    simp [get_imm_param, hp, hc]
  · intro pass list t par st hp hc hf
    refine ⟨_, by simp only [doConst, hp, hc, hf, ne_eq, not_true_eq_false, if_false]; rfl, ?_⟩
    simp [add_symbol]
  · intro heap par st c cs hp hq hc
    simp [dataItem, hp, hq, hc]
  · intro t st hc
    simp [doOrigin, hc]

/-- Instance of the amended C11: the tokens `1234`, `0x1F` and `010`. -/
theorem numeral_values_witness :
    (strtol "1234".toList = ((decimalValue "1234".toList : Int), []) ∧
      toU16 (strtol "1234".toList).1 = decimalValue "1234".toList % 65536) ∧
    (strtol ('0' :: 'x' :: "1F".toList) = ((valueIn 16 "1F".toList : Int), []) ∧
      toU16 (strtol ('0' :: 'x' :: "1F".toList)).1 = valueIn 16 "1F".toList % 65536) ∧
    (strtol ('0' :: "10".toList) = ((valueIn 8 "10".toList : Int), []) ∧
      toU16 (strtol ('0' :: "10".toList)).1 = valueIn 8 "10".toList % 65536) :=
  ⟨numeral_values.1 "1234".toList (by decide) (by decide) (by decide) (by decide),
   numeral_values.2.1 'x' "1F".toList (Or.inl rfl) (by decide) (by decide) (by decide),
   numeral_values.2.2.1 "10".toList (by decide) (by decide)⟩

/-! ## Counter rules -/

theorem advance_eq (n pc : Nat) (h : pc < 65536) : advance n pc = (pc + 2 * n) % 65536 := by
  induction n generalizing pc with
  | zero => simp [advance, Nat.mod_eq_of_lt h]
  | succ n ih =>
    simp only [advance]
    rw [ih _ (Nat.mod_lt _ (by decide))]
    omega

theorem toU16_lt (v : Int) : toU16 v < 65536 := by
  unfold toU16
  omega

/-- Without an origin directive the counter moves by two per emitted word. -/
theorem nextPc_eq (ln : Tok) (pc : Nat) (hpc : pc < 65536) (hk : lineKind ln ≠ .origin) :
    nextPc heap ln pc = (pc + 2 * lineWords heap ln) % 65536 := by
  unfold lineKind at hk
  unfold nextPc lineWords
  cases ht : firstTok ln with
  | none => simp [Nat.mod_eq_of_lt hpc]
  | some t =>
    simp only [ht] at hk ⊢
    by_cases h1 : t.tok.getLast? = some ':'
    · simp [h1, Nat.mod_eq_of_lt hpc]
    · by_cases h2 : t.tok.head? = some '.'
      · simp [h1, h2, Nat.mod_eq_of_lt hpc]
      · by_cases h3 : t.tok.head? = some '$'
        · simp only [h1, h2, h3, if_false, if_true]
          exact advance_eq _ _ hpc
        · by_cases h4 : t.tok.head? = some '@'
          · simp [h1, h2, h3, h4] at hk
          · simp [h1, h2, h3, h4]

theorem nextPc_lt (ln : Tok) (pc : Nat) (hpc : pc < 65536) : nextPc heap ln pc < 65536 := by
  by_cases hk : lineKind ln = .origin
  · unfold lineKind at hk
    unfold nextPc
    cases ht : firstTok ln with
    | none => simp [ht] at hk
    | some t =>
      simp only [ht] at hk ⊢
      by_cases h1 : t.tok.getLast? = some ':'
      · simp [h1] at hk
      · by_cases h2 : t.tok.head? = some '.'
        · simp [h1, h2] at hk
        · by_cases h3 : t.tok.head? = some '$'
          · simp [h1, h2, h3] at hk
          · by_cases h4 : t.tok.head? = some '@'
            · simp only [h1, h2, h3, h4, if_false, if_true]
              exact toU16_lt _
            · simp [h1, h2, h3, h4] at hk
  · rw [nextPc_eq ln pc hpc hk]
    exact Nat.mod_lt _ (by decide)

theorem scanString_closed (str rest : List Char) (h : '"' ∉ str) :
    scanString (str ++ '"' :: rest) = some str := by
  induction str with
  | nil => simp [scanString]
  | cons c cs ih =>
    have hc : c ≠ '"' := fun e => h (by simp [e])
    have e := ih (fun e => h (List.mem_cons_of_mem _ e))
    simp [scanString, hc, e]

/-- A run of lines without origin directive moves the counter by two per
emitted word. -/
theorem runLines_wordCount (pass : Nat) (list : Bool) (lns : List Tok) (st st1 : State)
    (hk : ∀ ln ∈ lns, lineKind ln ≠ .origin)
    (h : runLines pass list heap lns st = .ok st1) (hpc : st.pc < 65536) :
    st1.pc = (st.pc + 2 * wordCount heap lns) % 65536 := by
  induction lns generalizing st with
  | nil =>
    simp only [runLines] at h
    cases h
    simp [wordCount, Nat.mod_eq_of_lt hpc]
  | cons ln lns ih =>
    obtain ⟨st2, h1, h2⟩ := runLines_cons_ok _ _ _ _ _ _ h
    have e1 := (processLine_ok _ _ _ _ _ h1).1
    have e2 := @nextPc_eq heap ln st.pc hpc (hk ln (List.mem_cons_self _ _))
    have hlt : st2.pc < 65536 := by rw [e1]; exact nextPc_lt ln st.pc hpc
    rw [ih st2 (fun l hl => hk l (List.mem_cons_of_mem _ hl)) h2 hlt, e1, e2]
    simp only [wordCount, List.map_cons, List.sum_cons]
    omega

/-- C12: a pass starts with counter 0; a line processed without error moves
the counter by 2 for an instruction, by 2 for every character of a quoted
string and every numeric operand of a data directive, not at all for a
label, a constant or a blank line, and to the given value for an origin
directive, all modulo 2^16; hence, without origin directives, after `k`
emitted words the counter, which is the address of the next word, is
`2k mod 2^16`. -/
theorem counter_rules :
    (∀ (pass : Nat) (list : Bool) (heap : List Char) (src : List Char) (st : State),
      runPass pass list heap src st = runLines pass list heap (srcLines src) (resetState st) ∧
      (resetState st).pc = 0) ∧
    (∀ (pass : Nat) (list : Bool) (heap : List Char) (ln : Tok) (st st1 : State),
      processLine pass list heap ln st = .ok st1 → st.pc < 65536 →
      st1.pc < 65536 ∧
      (lineKind ln = .instr → st1.pc = (st.pc + 2) % 65536) ∧
      (lineKind ln = .data → ∀ t, firstTok ln = some t →
        st1.pc = (st.pc + 2 * ((strtokAll delimData t.save).map (itemWords heap)).sum) % 65536) ∧
      (lineKind ln = .label ∨ lineKind ln = .const ∨ lineKind ln = .blank →
        st1.pc = st.pc) ∧
      (lineKind ln = .origin → ∀ t, firstTok ln = some t →
        st1.pc = toU16 (strtol t.tok.tail).1)) ∧
    (∀ (heap : List Char) (par : Tok) (str rest : List Char),
      par.tok.dropWhile (fun c => decide (c = ' ')) = '"' :: (str ++ '"' :: rest) →
      '"' ∉ str → itemWords heap par = str.length) ∧
    (∀ (heap : List Char) (par : Tok),
      (par.tok.dropWhile (fun c => decide (c = ' '))).head? ≠ some '"' →
      itemWords heap par = 1) ∧
    (∀ (pass : Nat) (list : Bool) (heap : List Char) (src : List Char) (pre post : List Tok)
      (st p : State),
      srcLines src = pre ++ post → (∀ ln ∈ pre, lineKind ln ≠ .origin) →
      runLines pass list heap pre (resetState st) = .ok p →
      p.pc = (2 * wordCount heap pre) % 65536) := by
  refine ⟨fun pass list heap src st => ⟨rfl, rfl⟩, ?_, ?_, ?_, ?_⟩
  · intro pass list heap ln st st1 h hpc
    have e1 := (processLine_ok _ _ _ _ _ h).1
    refine ⟨by rw [e1]; exact nextPc_lt ln st.pc hpc, ?_, ?_, ?_, ?_⟩
    · intro hk
      rw [e1, nextPc_eq ln st.pc hpc (by rw [hk]; decide)]
      unfold lineKind at hk
      unfold lineWords
      cases ht : firstTok ln with
      | none => simp [ht] at hk
      | some t =>
        simp only [ht] at hk ⊢
        by_cases h1 : t.tok.getLast? = some ':'
        · simp [h1] at hk
        · by_cases h2 : t.tok.head? = some '.'
          · simp [h1, h2] at hk
          · by_cases h3 : t.tok.head? = some '$'
            · simp [h1, h2, h3] at hk
            · by_cases h4 : t.tok.head? = some '@'
              · simp [h1, h2, h3, h4] at hk
              · simp [h1, h2, h3, h4]
    · intro hk t ht
      rw [e1, nextPc_eq ln st.pc hpc (by rw [hk]; decide)]
      unfold lineKind at hk
      unfold lineWords
      simp only [ht] at hk ⊢
      by_cases h1 : t.tok.getLast? = some ':'
      · simp [h1] at hk
      · by_cases h2 : t.tok.head? = some '.'
        · simp [h1, h2] at hk
        · by_cases h3 : t.tok.head? = some '$'
          · simp [h1, h2, h3]
          · by_cases h4 : t.tok.head? = some '@'
            · simp [h1, h2, h3, h4] at hk
            · simp [h1, h2, h3, h4] at hk
    · intro hk
      rw [e1]
      unfold lineKind at hk
      unfold nextPc
      cases ht : firstTok ln with
      | none => rfl
      | some t =>
        simp only [ht] at hk ⊢
        by_cases h1 : t.tok.getLast? = some ':'
        · simp [h1]
        · by_cases h2 : t.tok.head? = some '.'
          · simp [h1, h2]
          · by_cases h3 : t.tok.head? = some '$'
            · simp [h1, h2, h3] at hk
            · by_cases h4 : t.tok.head? = some '@'
              · simp [h1, h2, h3, h4] at hk
              · simp [h1, h2, h3, h4] at hk
    · intro hk t ht
      rw [e1]
      unfold lineKind at hk
      unfold nextPc
      simp only [ht] at hk ⊢
      by_cases h1 : t.tok.getLast? = some ':'
      · simp [h1] at hk
      · by_cases h2 : t.tok.head? = some '.'
        · simp [h1, h2] at hk
        · by_cases h3 : t.tok.head? = some '$'
          · simp [h1, h2, h3] at hk
          · by_cases h4 : t.tok.head? = some '@'
            · simp [h1, h2, h3, h4]
            · simp [h1, h2, h3, h4] at hk
  · intro heap par str rest hp hq
    unfold itemWords
    rw [hp]
    simp only [if_true]
    rw [show str ++ '"' :: rest ++ NUL :: (par.mem ++ heap) =
        str ++ '"' :: (rest ++ NUL :: (par.mem ++ heap)) by simp,
      scanString_closed str _ hq]
    rfl
  · intro heap par hp
    unfold itemWords
    cases hd : par.tok.dropWhile (fun c => decide (c = ' ')) with
    | nil => rfl
    | cons c cs =>
      rw [hd] at hp
      have hc : c ≠ '"' := fun e => hp (by simp [e])
      simp [hc]
  · intro pass list heap src pre post st p _ hk h
    have := runLines_wordCount pass list pre (resetState st) p hk h
      (by simp [resetState, RESET_VECTOR])
    rw [this]
    simp [resetState, RESET_VECTOR]

/-- Instance of C12 on `dataSrc`: after the first two lines, which emit one
and three words, the counter is 8. -/
theorem counter_rules_witness :
    (State.mk 8 2 [] []).pc = (2 * wordCount [] ((srcLines dataSrc).take 2)) % 65536 :=
  counter_rules.2.2.2.2 0 false [] dataSrc ((srcLines dataSrc).take 2)
    ((srcLines dataSrc).drop 2)
    initState ⟨8, 2, [], []⟩ (by decide) (by decide) (by decide)

/-! ## Register operands -/

theorem get_regFrom_some (l : List (List Char)) (k : Nat) (tok : List Char) (i : Nat)
    (h : get_regFrom l k tok = some i) : k ≤ i ∧ l.getD (i - k) [] = tok := by
  induction l generalizing k with
  | nil => simp [get_regFrom] at h
  | cons r rs ih =>
    simp only [get_regFrom] at h
    split at h
    · rename_i hr
      cases h
      simp [hr]
    · obtain ⟨h1, h2⟩ := ih (k + 1) h
      refine ⟨by omega, ?_⟩
      have : i - k = (i - (k + 1)) + 1 := by omega
      rw [this]
      simpa using h2

/-- `get_reg` finds exactly the sixteen register names. -/
theorem get_reg_iff (tok : List Char) (i : Nat) :
    get_reg tok = some i ↔ i < 16 ∧ tok = regName i := by
  constructor
  · intro h
    refine ⟨get_reg_lt _ _ h, ?_⟩
    have := (get_regFrom_some regs 0 tok i h).2
    simpa [regName] using this.symm
  · rintro ⟨hi, rfl⟩
    exact (regName_tokens i hi).2.1

/-- C13: register-operand parsing takes one token from the line; it returns
`i` and the save pointer behind that token if and only if the token is the
name `r<i>` of one of the 16 registers; it fails with the missing-operand
error when no token remains and with the unknown-register error for every
other token, such as `R1`, `r16` and `r01`. -/
theorem register_operand :
    (∀ save : List Char, strtok_r delimTok save = none →
      get_reg_param save = .error .missingOperand) ∧
    (∀ (save : List Char) (par : Tok) (i : Nat), strtok_r delimTok save = some par →
      (get_reg_param save = .ok (i, par.save) ↔ i < 16 ∧ par.tok = regName i)) ∧
    (∀ (save : List Char) (par : Tok) (r : Nat × List Char),
      strtok_r delimTok save = some par → get_reg_param save = .ok r → r.2 = par.save) ∧
    (∀ (save : List Char) (par : Tok), strtok_r delimTok save = some par →
      (∀ i, i < 16 → par.tok ≠ regName i) →
      get_reg_param save = .error (.unknownRegister par.tok)) ∧
    get_reg_param ("R1 r2".toList ++ [NUL]) = .error (.unknownRegister "R1".toList) ∧
    get_reg_param ("r16".toList ++ [NUL]) = .error (.unknownRegister "r16".toList) ∧
    get_reg_param ("r01".toList ++ [NUL]) = .error (.unknownRegister "r01".toList) := by
  refine ⟨?_, ?_, ?_, ?_, by decide, by decide, by decide⟩
  · intro save h
    simp [get_reg_param, h]
  · intro save par i hp
    rw [← get_reg_iff]
    unfold get_reg_param
    simp only [hp]
    cases hg : get_reg par.tok with
    | none => simp
    | some j => simp
  · intro save par r hp h
    unfold get_reg_param at h
    simp only [hp] at h
    cases hg : get_reg par.tok with
    | none => simp [hg] at h
    | some j =>
      simp only [hg, Except.ok.injEq] at h
      rw [← h]
  · intro save par hp hno
    have hg : get_reg par.tok = none := by
      cases hg : get_reg par.tok with
      | none => rfl
      | some j =>
        have := (get_reg_iff par.tok j).mp hg
        exact absurd this.2 (hno j this.1)
    simp [get_reg_param, hp, hg]

/-- Instance of C13: the operand `r7` followed by another token. -/
theorem register_operand_witness :
    get_reg_param ("r7, r2".toList ++ [NUL]) =
        .ok (7, ((strtok_r delimTok ("r7, r2".toList ++ [NUL])).getD ⟨[], [], []⟩).save) ↔
      7 < 16 ∧ ((strtok_r delimTok ("r7, r2".toList ++ [NUL])).getD ⟨[], [], []⟩).tok = regName 7 :=
  register_operand.2.1 ("r7, r2".toList ++ [NUL]) ((strtok_r delimTok ("r7, r2".toList ++ [NUL])).getD ⟨[], [], []⟩) 7
    (by decide)

/-! ## Opcode bits and operand bits -/

/-- A value below `2^n` has no bit in common with a multiple of `2^n`. -/
theorem and_high_zero (n x m : Nat) (hx : x < 2 ^ n) : x &&& (2 ^ n * m) = 0 := by
  apply Nat.eq_of_testBit_eq
  intro i
  rw [Nat.testBit_and, Nat.zero_testBit, Nat.testBit_mul_pow_two]
  by_cases hi : i < n
  · have : ¬ (n ≤ i) := by omega
    simp [this]
  · have hlt : x < 2 ^ i :=
      Nat.lt_of_lt_of_le hx (Nat.pow_le_pow_right (by decide) (by omega))
    simp [Nat.testBit_lt_two_pow hlt]

/-- Bits that are kept by a mask `N` which contains the opcode and none of
the operand bits. -/
theorem keep_opcode (n B f N : Nat) (hB : B % 2 ^ n = 0) (hf : f < 2 ^ n)
    (hBN : B &&& N = B) (hfN : f &&& N = 0) : (B + f) &&& N = B := by
  rw [← or_eq_add n B f hB hf, Nat.and_comm, Nat.and_or_distrib_left, Nat.and_comm N B,
    Nat.and_comm N f, hBN, hfN, Nat.or_zero]

/-- The word that `encode` returns is the opcode plus the packed operands,
which lie within the operand bits of the form. -/
theorem encode_sum (pass : Nat) (symbols : List tSymbol) (d : tInstr) (save : List Char)
    (w : Nat) (hd : d ∈ instrSet) (h : encode pass symbols d.opcode d.form save = .ok w) :
    ∃ f, w = d.opcode + f ∧
      ((d.form = FRM_OP_NOTHING ∧ f = 0) ∨
       (d.form = FRM_OP_SO_RT ∧ ∃ a, a < 16 ∧ f = a * 16) ∨
       ((d.form = FRM_OP_SO_RT_RD ∨ d.form = FRM_OP_SO_RT_IMM4) ∧ f < 256) ∨
       ((d.form = FRM_OP_RS_LIMM8 ∨ d.form = FRM_OP_RS_UIMM8 ∨ d.form = FRM_OP_RS_RT_RD ∨
          d.form = FRM_OP_IMM12) ∧ f < 4096)) := by
  obtain ⟨hB, hB8, hB12⟩ := instrSet_opcode d hd
  unfold encode at h
  by_cases f1 : d.form = FRM_OP_SO_RT
  · simp only [f1, if_true] at h
    cases h1 : get_reg_param save with
    | error e => simp [h1] at h
    | ok r =>
      obtain ⟨a, s1⟩ := r
      simp only [h1, Except.ok.injEq] at h
      have ha := get_reg_param_lt _ _ _ h1
      refine ⟨a * 16, ?_, Or.inr (Or.inl ⟨f1, a, ha, rfl⟩)⟩
      rw [← h, Nat.shiftLeft_eq,
        or16_add 8 d.opcode (a * 2 ^ 4) (hB8 (Or.inl f1)) (by omega) (by omega)]
  · simp only [f1, if_false] at h
    by_cases f2 : d.form = FRM_OP_SO_RT_RD
    · simp only [f2, if_true] at h
      cases h1 : get_reg_param save with
      | error e => simp [h1] at h
      | ok r =>
        obtain ⟨a, s1⟩ := r
        simp only [h1] at h
        cases h2 : get_reg_param s1 with
        | error e => simp [h2] at h
        | ok r2 =>
          obtain ⟨b, s2⟩ := r2
          simp only [h2, Except.ok.injEq] at h
          have ha := get_reg_param_lt _ _ _ h1
          have hb := get_reg_param_lt _ _ _ h2
          refine ⟨a * 16 + b, ?_, Or.inr (Or.inr (Or.inl ⟨Or.inl f2, by omega⟩))⟩
          rw [← h, pack_4_4 _ _ _ hB (hB8 (Or.inr (Or.inl f2))) ha hb]
          omega
    · simp only [f2, if_false] at h
      by_cases f3 : d.form = FRM_OP_SO_RT_IMM4
      · simp only [f3, if_true] at h
        cases h1 : get_reg_param save with
        | error e => simp [h1] at h
        | ok r =>
          obtain ⟨a, s1⟩ := r
          simp only [h1] at h
          cases h2 : get_imm_param pass symbols s1 with
          | error e => simp [h2] at h
          | ok r2 =>
            obtain ⟨v, s2⟩ := r2
            simp only [h2, Except.ok.injEq] at h
            have ha := get_reg_param_lt _ _ _ h1
            refine ⟨a * 16 + v % 16, ?_, Or.inr (Or.inr (Or.inl ⟨Or.inr f3, by omega⟩))⟩
            rw [← h, and_0xF v, pack_4_4 _ _ _ hB (hB8 (Or.inr (Or.inr f3))) ha (by omega)]
            omega
      · simp only [f3, if_false] at h
        by_cases f4 : d.form = FRM_OP_RS_LIMM8
        · simp only [f4, if_true] at h
          cases h1 : get_reg_param save with
          | error e => simp [h1] at h
          | ok r =>
            obtain ⟨a, s1⟩ := r
            simp only [h1] at h
            cases h2 : get_imm_param pass symbols s1 with
            | error e => simp [h2] at h
            | ok r2 =>
              obtain ⟨v, s2⟩ := r2
              simp only [h2, Except.ok.injEq] at h
              have ha := get_reg_param_lt _ _ _ h1
              refine ⟨a * 256 + v % 256, ?_,
                Or.inr (Or.inr (Or.inr ⟨Or.inl f4, by omega⟩))⟩
              rw [← h, and_0xFF v, pack_8_8 _ _ _ hB (hB12 (Or.inl f4)) ha (by omega)]
              omega
        · simp only [f4, if_false] at h
          by_cases f5 : d.form = FRM_OP_RS_UIMM8
          · simp only [f5, if_true] at h
            cases h1 : get_reg_param save with
            | error e => simp [h1] at h
            | ok r =>
              obtain ⟨a, s1⟩ := r
              simp only [h1] at h
              cases h2 : get_imm_param pass symbols s1 with
              | error e => simp [h2] at h
              | ok r2 =>
                obtain ⟨v, s2⟩ := r2
                simp only [h2, Except.ok.injEq] at h
                have ha := get_reg_param_lt _ _ _ h1
                refine ⟨a * 256 + (v >>> 8) % 256, ?_,
                  Or.inr (Or.inr (Or.inr ⟨Or.inr (Or.inl f5), by omega⟩))⟩
                rw [← h, and_0xFF (v >>> 8),
                  pack_8_8 _ _ _ hB (hB12 (Or.inr (Or.inl f5))) ha (by omega)]
                omega
          · simp only [f5, if_false] at h
            by_cases f6 : d.form = FRM_OP_RS_RT_RD
            · simp only [f6, if_true] at h
              cases h1 : get_reg_param save with
              | error e => simp [h1] at h
              | ok r =>
                obtain ⟨a, s1⟩ := r
                simp only [h1] at h
                cases h2 : get_reg_param s1 with
                | error e => simp [h2] at h
                | ok r2 =>
                  obtain ⟨b, s2⟩ := r2
                  simp only [h2] at h
                  cases h3 : get_reg_param s2 with
                  | error e => simp [h3] at h
                  | ok r3 =>
                    obtain ⟨c, s3⟩ := r3
                    simp only [h3, Except.ok.injEq] at h
                    have ha := get_reg_param_lt _ _ _ h1
                    have hb := get_reg_param_lt _ _ _ h2
                    have hc := get_reg_param_lt _ _ _ h3
                    refine ⟨a * 256 + b * 16 + c, ?_,
                      Or.inr (Or.inr (Or.inr ⟨Or.inr (Or.inr (Or.inl f6)), by omega⟩))⟩
                    rw [← h, pack_8_4_4 _ _ _ _ hB (hB12 (Or.inr (Or.inr (Or.inl f6)))) ha hb hc]
                    omega
            · simp only [f6, if_false] at h
              by_cases f7 : d.form = FRM_OP_IMM12
              · simp only [f7, if_true] at h
                cases h1 : get_imm_param pass symbols save with
                | error e => simp [h1] at h
                | ok r =>
                  obtain ⟨v, s1⟩ := r
                  simp only [h1, Except.ok.injEq] at h
                  refine ⟨(v >>> 1) % 4096, ?_,
                    Or.inr (Or.inr (Or.inr ⟨Or.inr (Or.inr (Or.inr f7)), by omega⟩))⟩
                  rw [← h, and_0xFFF (v >>> 1),
                    or16_add 12 d.opcode _ (hB12 (Or.inr (Or.inr (Or.inr f7)))) (by omega)
                      (by omega)]
              · simp only [f7, if_false] at h
                by_cases f0 : d.form = FRM_OP_NOTHING
                · simp only [f0, if_true, Except.ok.injEq] at h
                  exact ⟨0, by omega, Or.inl ⟨f0, rfl⟩⟩
                · simp [f0] at h

/-- The opcode bases of the table have no bit in the operand fields of their
form, the operand fields of each form are pairwise disjoint, and the opcode
base lies within the complement of the fields. -/
theorem instrSet_fields :
    ∀ d ∈ instrSet, d.opcode &&& fieldMask d.form = 0 ∧
      (fieldMasks d.form).Pairwise (fun m n => m &&& n = 0) ∧
      d.opcode &&& (0xFFFF ^^^ fieldMask d.form) = d.opcode := by
  decide

/-- C14: for every descriptor of the table the opcode base is zero in all
operand bits of its form, the operand fields of the form are pairwise
disjoint, and every word that encoding returns agrees with the opcode base
outside the operand bits: `W & ~mask = opcode base`. -/
theorem opcode_bits_kept (d : tInstr) (hd : d ∈ instrSet) :
    d.opcode &&& fieldMask d.form = 0 ∧
    (fieldMasks d.form).Pairwise (fun m n => m &&& n = 0) ∧
    ∀ (pass : Nat) (symbols : List tSymbol) (save : List Char) (w : Nat),
      encode pass symbols d.opcode d.form save = .ok w →
      w &&& (0xFFFF ^^^ fieldMask d.form) = d.opcode := by
  obtain ⟨m1, m2, m3⟩ := instrSet_fields d hd
  obtain ⟨hB, hB8, hB12⟩ := instrSet_opcode d hd
  refine ⟨m1, m2, ?_⟩
  intro pass symbols save w h
  obtain ⟨f, hw, hform⟩ := encode_sum pass symbols d save w hd h
  rw [hw]
  rcases hform with ⟨_, hf⟩ | ⟨hf1, a, ha, hf⟩ | ⟨hf23, hf⟩ | ⟨hf47, hf⟩
  · rw [hf, Nat.add_zero]
    exact m3
  · have hN : 0xFFFF ^^^ fieldMask d.form = 0xFF0F := by rw [hf1]; decide
    rw [hN] at m3 ⊢
    refine keep_opcode 8 d.opcode f 0xFF0F (hB8 (Or.inl hf1)) (by omega) m3 ?_
    rw [show (0xFF0F : Nat) = 2 ^ 8 * 255 ||| 0xF by decide, Nat.and_or_distrib_left,
      and_high_zero 8 f 255 (by omega), and_0xF, hf]
    simp
  · have hN : 0xFFFF ^^^ fieldMask d.form = 2 ^ 8 * 255 := by
      rcases hf23 with e | e <;> (rw [e]; decide)
    rw [hN] at m3 ⊢
    exact keep_opcode 8 d.opcode f _
      (hB8 (by rcases hf23 with e | e; exact Or.inr (Or.inl e); exact Or.inr (Or.inr e)))
      (by omega) m3 (and_high_zero 8 f 255 (by omega))
  · have hN : 0xFFFF ^^^ fieldMask d.form = 2 ^ 12 * 15 := by
      rcases hf47 with e | e | e | e <;> (rw [e]; decide)
    rw [hN] at m3 ⊢
    exact keep_opcode 12 d.opcode f _ (hB12 hf47) (by omega) m3
      (and_high_zero 12 f 15 (by omega))

/-- Instance of C14: `add r1 r2 r3` keeps the opcode bits `0x6000`. -/
theorem opcode_bits_kept_witness :
    (0x6000 &&& fieldMask FRM_OP_RS_RT_RD = 0 ∧
      (fieldMasks FRM_OP_RS_RT_RD).Pairwise (fun m n => m &&& n = 0)) ∧
    0x6123 &&& (0xFFFF ^^^ fieldMask FRM_OP_RS_RT_RD) = 0x6000 :=
  ⟨⟨(opcode_bits_kept ⟨"add".toList, 0x6000, FRM_OP_RS_RT_RD⟩ (by decide)).1,
    (opcode_bits_kept ⟨"add".toList, 0x6000, FRM_OP_RS_RT_RD⟩ (by decide)).2.1⟩,
   (opcode_bits_kept ⟨"add".toList, 0x6000, FRM_OP_RS_RT_RD⟩ (by decide)).2.2 1 []
     ("r1 r2 r3".toList ++ [NUL]) 0x6123 (by decide)⟩

/-! ## The patching tool -/

namespace Mkramimg

end Mkramimg

/-! ## Labels with an inner colon, immediates on pass 0, origin without numeral -/

/-- C16 on the code: the label token `a:b:` is cut at its first colon, so the
symbol that is defined is `a`, not `a:b`; a reference to `a:b` is unknown.
This holds whatever lies behind the buffers. -/
theorem label_cut_at_first_colon (heap0 heap1 : List Char) :
    main false heap0 heap1 "a:b:\n".toList = .ok ⟨0, 1, [⟨"a".toList, 0⟩], []⟩ ∧
    main false heap0 heap1 "a:b:\nbrl a:b\n".toList = .error (.unknownSymbol "a:b".toList) :=
  ⟨main_closed false _ _ (by decide) (by decide), main_closed false _ _ (by decide) (by decide)⟩

/-- On pass 0 the immediate operand is not read: whatever the save pointer and
the symbol table, the result is the sentinel and the unchanged save pointer,
and an instruction line that pass 0 accepts only counts the line and moves
the counter by two. -/
theorem pass0_immediate_untouched :
    (∀ (symbols : List tSymbol) (save : List Char),
      get_imm_param 0 symbols save = .ok (0xDEAD, save)) ∧
    (∀ (list : Bool) (ln t : Tok) (st st1 : State), instrTok ln = some t →
      processLine 0 list heap ln st = .ok st1 →
      st1 = { st with line_nr := st.line_nr + 1, pc := (st.pc + 2) % 65536 }) := by
  refine ⟨fun symbols save => rfl, ?_⟩
  intro list ln t st st1 ht h
  rw [processLine_instr 0 list ln t st ht] at h
  obtain ⟨d, w, _, _, e⟩ := doInstr_ok _ _ _ _ _ _ h
  rw [e]
  simp

/-- C17 on the code: these two sources differ only in the immediate token of
the `brl` line (`x"` and `xyz"`), yet pass 0 leaves different symbol tables
and counters, because the string loop of the data directive in the first
line runs on through the memory of the following line up to the next
double quote.  That quote lies inside the buffer, so the result is the same
whatever lies behind the buffer. -/
theorem pass0_depends_on_immediate_text (heap : List Char) :
    runPass 0 false heap "$ \"ab\nbrl x\"\nl:\n".toList initState =
      .ok ⟨18, 3, [⟨"l".toList, 18⟩], []⟩ ∧
    runPass 0 false heap "$ \"ab\nbrl xyz\"\nl:\n".toList initState =
      .ok ⟨22, 3, [⟨"l".toList, 22⟩], []⟩ :=
  ⟨runPass_closed 0 false _ _ _ (by decide) (by decide),
   runPass_closed 0 false _ _ _ (by decide) (by decide)⟩

/-- C18 on the code: the line `@ 0x100` has the first token `@` with an empty
numeral, which `strtol` converts to 0 without leaving a character, so the
counter becomes 0 and the translation goes on; the same holds for a bare
`@`.  This holds whatever lies behind the buffers. -/
theorem origin_without_numeral (heap0 heap1 : List Char) :
    main false heap0 heap1 "nop\nnop\n@ 0x100\nnop\n".toList =
      .ok ⟨2, 4, [], ["0000:0000\n", "0002:0000\n", "0000:0000\n"]⟩ ∧
    main false heap0 heap1 "nop\nnop\n@\nnop\n".toList =
      .ok ⟨2, 4, [], ["0000:0000\n", "0002:0000\n", "0000:0000\n"]⟩ :=
  ⟨main_closed false _ _ (by decide) (by decide), main_closed false _ _ (by decide) (by decide)⟩

/-! ## The upper-byte immediate -/

/-- C19: a line `ldu r<s>, v`, where `v` is the 16 bit value of the
immediate operand (numeral or symbol), is translated by pass 1 into the
word `0x1000 | (s << 8) | ((v >> 8) & 0xFF)`; the word depends on `v` only
through its upper byte, and for `v < 256` the immediate field is 0. -/
theorem upper_byte_encoding (list : Bool) (heap : List Char) (ln t t2 : Tok) (s v : Nat)
    (sv : List Char) (st : State)
    (ht : instrTok ln = some t) (hldu : t.tok = "ldu".toList)
    (h2 : strtok_r delimTok t.save = some t2) (hs : get_reg t2.tok = some s)
    (hv : get_imm_param 1 st.symbols t2.save = .ok (v, sv)) :
    processLine 1 list heap ln st =
      .ok { pc := (st.pc + 2) % 65536, line_nr := st.line_nr + 1, symbols := st.symbols,
            out := st.out ++
              [if list = true
               then listingLine st.pc (0x1000 ||| (s <<< 8) ||| ((v >>> 8) &&& 0xFF)) ln.tok
               else compactLine st.pc (0x1000 ||| (s <<< 8) ||| ((v >>> 8) &&& 0xFF))] } ∧
    0x1000 ||| (s <<< 8) ||| ((v >>> 8) &&& 0xFF) = 0x1000 + s * 256 + v / 256 % 256 ∧
    (v < 256 → 0x1000 ||| (s <<< 8) ||| ((v >>> 8) &&& 0xFF) = 0x1000 ||| (s <<< 8)) := by
  have hs16 := get_reg_lt _ _ hs
  have hsh : s <<< 8 < 65536 := by rw [Nat.shiftLeft_eq]; omega
  have hx : (v >>> 8) &&& 0xFF < 65536 :=
    Nat.lt_trans (Nat.and_lt_two_pow (n := 8) _ (by decide)) (by decide)
  have hor : or16 (or16 0x1000 (s <<< 8)) ((v >>> 8) &&& 0xFF) =
      0x1000 ||| (s <<< 8) ||| ((v >>> 8) &&& 0xFF) := by
    rw [or16_eq _ _ (by decide) hsh, or16_eq _ _ (Nat.or_lt_two_pow (n := 16) (by decide) hsh) hx]
  have hop : get_opcode t.tok = some ⟨"ldu".toList, 0x1000, FRM_OP_RS_UIMM8⟩ := by
    rw [hldu]; decide
  have henc : encode 1 st.symbols 0x1000 FRM_OP_RS_UIMM8 t.save =
      .ok (0x1000 ||| (s <<< 8) ||| ((v >>> 8) &&& 0xFF)) := by
    rw [← hor]
    simp [encode, FRM_OP_IMM12, FRM_OP_SO_RT, FRM_OP_SO_RT_RD, FRM_OP_SO_RT_IMM4,
      FRM_OP_RS_LIMM8, FRM_OP_RS_UIMM8, FRM_OP_RS_RT_RD, get_reg_param, h2, hs, hv]
  refine ⟨?_, ?_, ?_⟩
  · rw [processLine_instr 1 list ln t st ht]
    unfold doInstr
    simp only [hop, henc]
    cases list <;> simp
  · rw [← hor, and_0xFF (v >>> 8), pack_8_8 _ _ _ (by decide) (by decide) hs16 (by omega),
      Nat.shiftRight_eq_div_pow]
  · intro hlt
    have : (v >>> 8) &&& 0xFF = 0 := by
      rw [and_0xFF, Nat.shiftRight_eq_div_pow]
      omega
    rw [this, Nat.or_zero]

/-- Instance of C19: `ldu r3, k` with the symbol `k = 0x12FF`; the word is
`0x1312`. -/
theorem upper_byte_encoding_witness :
    processLine 1 false [] lduLine ⟨0, 0, [⟨"k".toList, 0x12FF⟩], []⟩ =
      .ok { pc := (0 + 2) % 65536, line_nr := 0 + 1, symbols := [⟨"k".toList, 0x12FF⟩],
            out := [] ++
              [if false = true
               then listingLine 0 (0x1000 ||| (3 <<< 8) ||| ((0x12FF >>> 8) &&& 0xFF)) lduLine.tok
               else compactLine 0 (0x1000 ||| (3 <<< 8) ||| ((0x12FF >>> 8) &&& 0xFF))] } ∧
    0x1000 ||| (3 <<< 8) ||| ((0x12FF >>> 8) &&& 0xFF) = 0x1000 + 3 * 256 + 0x12FF / 256 % 256 ∧
    (0x12FF < 256 → 0x1000 ||| (3 <<< 8) ||| ((0x12FF >>> 8) &&& 0xFF) = 0x1000 ||| (3 <<< 8)) :=
  upper_byte_encoding false [] lduLine ((instrTok lduLine).getD ⟨[], [], []⟩)
    ((strtok_r delimTok ((instrTok lduLine).getD ⟨[], [], []⟩).save).getD ⟨[], [], []⟩)
    3 0x12FF ((immTok lduLine).getD ⟨[], [], []⟩).save ⟨0, 0, [⟨"k".toList, 0x12FF⟩], []⟩
    (by decide) (by decide) (by decide) (by decide) (by decide)

/-! ## The symbol table in pass 1 -/

theorem get_reg_param_not_dup (save : List Char) (e : Err)
    (h : get_reg_param save = .error e) : isDup e = false := by
  unfold get_reg_param at h
  split at h
  · cases h; rfl
  · split at h
    · cases h; rfl
    · cases h

theorem get_imm_param_not_dup (pass : Nat) (symbols : List tSymbol) (save : List Char)
    (e : Err) (h : get_imm_param pass symbols save = .error e) : isDup e = false := by
  unfold get_imm_param at h
  split at h
  · split at h
    · cases h; rfl
    · split at h
      · split at h
        · cases h; rfl
        · cases h
      · cases h
  · cases h

theorem encode_not_dup (pass : Nat) (symbols : List tSymbol) (opcode form : Nat)
    (save : List Char) (e : Err) (h : encode pass symbols opcode form save = .error e) :
    isDup e = false := by
  unfold encode at h
  repeat' first
    | (cases h; done)
    | (cases h; rfl)
    | (rename_i hh; first
        | exact get_reg_param_not_dup _ _ (by cases h; exact hh)
        | exact get_imm_param_not_dup _ _ _ _ (by cases h; exact hh))
    | split at h

theorem dataItem_not_dup (pass : Nat) (list : Bool) (par : Tok) (st : State) (e : Err)
    (h : dataItem pass list heap par st = .error e) : isDup e = false := by
  unfold dataItem at h
  repeat' first
    | (cases h; done)
    | (cases h; rfl)
    | split at h

theorem dataItems_not_dup (pass : Nat) (list : Bool) (pars : List Tok) (st : State) (e : Err)
    (h : dataItems pass list heap pars st = .error e) : isDup e = false := by
  induction pars generalizing st with
  | nil => simp [dataItems] at h
  | cons par pars ih =>
    simp only [dataItems] at h
    cases hi : dataItem pass list heap par st with
    | error e1 =>
      simp only [hi, Except.error.injEq] at h
      rw [← h]
      exact dataItem_not_dup _ _ _ _ _ hi
    | ok st1 =>
      simp only [hi] at h
      exact ih st1 h

/-- After pass 0 no line ends with the duplicate-symbol error. -/
theorem processLine_not_dup (pass : Nat) (list : Bool) (ln : Tok) (st : State) (e : Err)
    (hp : pass ≠ 0) (h : processLine pass list heap ln st = .error e) : isDup e = false := by
  unfold processLine at h
  split at h
  · cases h
  · split at h
    · unfold doLabel at h
      simp only [hp, if_false] at h
      split at h <;> cases h
    · split at h
      · unfold doConst at h
        simp only [hp, if_false] at h
        repeat' first
          | (cases h; done)
          | (cases h; rfl)
          | split at h
      · split at h
        · unfold doData at h
          split at h
          · rename_i hh
            cases h
            exact dataItems_not_dup _ _ _ _ _ hh
          · cases h
        · split at h
          · unfold doOrigin at h
            split at h
            · cases h; rfl
            · cases h
          · unfold doInstr at h
            split at h
            · cases h; rfl
            · split at h
              · rename_i hh
                cases h
                exact encode_not_dup _ _ _ _ _ _ hh
              · cases h

theorem runLines_not_dup (pass : Nat) (list : Bool) (lns : List Tok) (st : State) (e : Err)
    (hp : pass ≠ 0) (h : runLines pass list heap lns st = .error e) : isDup e = false := by
  induction lns generalizing st with
  | nil => simp [runLines] at h
  | cons ln lns ih =>
    simp only [runLines] at h
    cases hl : processLine pass list heap ln st with
    | error e1 =>
      simp only [hl, Except.error.injEq] at h
      rw [← h]
      exact processLine_not_dup _ _ _ _ _ hp hl
    | ok st1 =>
      simp only [hl] at h
      exact ih st1 h

theorem find_symbol_none_iff (sy : List tSymbol) (n : List Char) :
    find_symbol sy n = none ↔ n ∉ sy.map tSymbol.name := by
  unfold find_symbol
  rw [List.find?_eq_none]
  simp only [decide_eq_true_eq, List.mem_map, not_exists, not_and]

/-- Pass 0 appends the symbols of the lines in their order and keeps the
names distinct. -/
theorem pass0_symbols (list : Bool) (lns : List Tok) (st st1 : State)
    (h : runLines 0 list heap lns st = .ok st1) (hn : (st.symbols.map tSymbol.name).Nodup) :
    st1.symbols = st.symbols ++ definedSyms heap lns st.pc ∧
    (st1.symbols.map tSymbol.name).Nodup := by
  induction lns generalizing st with
  | nil =>
    simp only [runLines] at h
    cases h
    simp [definedSyms, hn]
  | cons ln lns ih =>
    obtain ⟨st2, h1, h2⟩ := runLines_cons_ok _ _ _ _ _ _ h
    obtain ⟨e1, _, e3, e4, _⟩ := processLine_ok _ _ _ _ _ h1
    have hnew : newSyms st.symbols ln st.pc = (definedSym ln st.pc).toList := by
      unfold newSyms
      cases hd : definedSym ln st.pc with
      | none => rfl
      | some d => simp [e4 rfl d hd]
    have hn2 : (st2.symbols.map tSymbol.name).Nodup := by
      rw [e3, hnew]
      cases hd : definedSym ln st.pc with
      | none => simpa using hn
      | some d =>
        have := (find_symbol_none_iff _ _).mp (e4 rfl d hd)
        simp only [Option.toList, List.map_append, List.map_cons, List.map_nil]
        rw [List.nodup_append]
        refine ⟨hn, by simp, ?_⟩
        intro a ha hb
        simp only [List.mem_singleton] at hb
        subst hb
        exact this ha
    obtain ⟨i1, i2⟩ := ih st2 h2 hn2
    refine ⟨?_, i2⟩
    rw [i1, e3, hnew, e1, definedSyms, List.append_assoc]

/-- C20: when pass 0 has completed, the table it leaves holds the symbols of
the defining lines in the order of the lines, with pairwise distinct names;
at every point that pass 1 reaches, the table is that table, and pass 1 never
ends with the duplicate-symbol error. -/
theorem pass1_table_fixed (list list1 : Bool) (heap0 heap1 : List Char) (src : List Char)
    (s0 : State) (h0 : runPass 0 list heap0 src initState = .ok s0) :
    s0.symbols = definedSyms heap0 (srcLines src) 0 ∧
    (s0.symbols.map tSymbol.name).Nodup ∧
    (∀ (pre post : List Tok) (p1 : State), srcLines src = pre ++ post →
      runLines 1 list1 heap1 pre (resetState s0) = .ok p1 → p1.symbols = s0.symbols) ∧
    (∀ e, runPass 1 list1 heap1 src s0 = .error e → isDup e = false) := by
  have h0r := h0
  unfold runPass at h0
  obtain ⟨a1, a2⟩ := pass0_symbols list (srcLines src) _ s0 h0 (by simp [resetState, initState])
  refine ⟨by simpa [resetState, initState, RESET_VECTOR] using a1, a2, ?_, ?_⟩
  · intro pre post p1 hsrc h1
    rw [hsrc] at h0
    exact later_pass_symbols 1 list list1 pre post _ s0 p1 h0 h1
  · intro e he
    unfold runPass at he
    exact runLines_not_dup 1 list1 _ _ e (by decide) he

/-- Instance of C20 on `demoSrc`. -/
theorem pass1_table_fixed_witness :
    demoFin.symbols = definedSyms [] (srcLines demoSrc) 0 ∧
    (demoFin.symbols.map tSymbol.name).Nodup ∧
    (∀ (pre post : List Tok) (p1 : State), srcLines demoSrc = pre ++ post →
      runLines 1 true [] pre (resetState ⟨10, 8, demoFin.symbols, []⟩) = .ok p1 →
      p1.symbols = demoFin.symbols) ∧
    (∀ e, runPass 1 true [] demoSrc ⟨10, 8, demoFin.symbols, []⟩ = .error e → isDup e = false) :=
  pass1_table_fixed false true [] [] demoSrc ⟨10, 8, demoFin.symbols, []⟩ (by decide)

end Dwarf
